import Mathlib

/-!
# Force-constant symmetry core of `_phonopy.c`

A shallow embedding of the routines of `src/c/_phonopy.c` that match atoms
under periodic boundary conditions, select shortest periodic images,
distribute force constants through symmetry operations and symmetrise
force-constant arrays, together with theorems about them.

Conventions of the embedding.

* A C `double` is an exact rational number; rounding, infinities and NaN are
  outside the model.
* A C pointer to an array that the code only reads is a total function from
  the index to the element. An array that the code writes is a `Mem`, a
  wrapper of such a function, so that every store is evaluated when it is
  made; the functions below only touch the indices the C loops touch, and
  where the C code could read past the end of an array the model returns
  `none`.
* A read `a[i]` of a written array is `a.read i`, an in-place store
  `a[i] = v` is `a.write i v`.
* `for (i = 0; i < n; i++)` is a left fold over `List.range n`, or a
  structural recursion on the number of remaining iterations when the loop
  has a `break`.
-/

namespace Phonopy

/-! ## Arrays -/

/-- An array in memory that the code writes: the element at every index. -/
structure Mem (α : Type) where
  read : ℕ → α

/-- The store `a[i] = v`. -/
def Mem.write {α : Type} (a : Mem α) (i : ℕ) (v : α) : Mem α :=
  ⟨Function.update a.read i v⟩

/-! ## Geometry matcher: `nint` and `compute_permutation` -/

/-- The C conversion `(int) x` of a double: truncation toward zero. Values
outside the range of `int` are not modelled. -/
def truncToInt (x : ℚ) : ℤ :=
  if x < 0 then -⌊-x⌋ else ⌊x⌋

/-- `nint` (lines 1628-1634): `(int)(a - 0.5)` for negative `a`, otherwise
`(int)(a + 0.5)`. -/
def nint (a : ℚ) : ℤ :=
  if a < 0 then truncToInt (a - 1 / 2) else truncToInt (a + 1 / 2)

/-- Lines 1442-1445: `diff[k] = pos[i][k] - rot_pos[j][k]` followed by
`diff[k] -= nint(diff[k])`. -/
def wrapped_diff (p r : Fin 3 → ℚ) (k : Fin 3) : ℚ :=
  (p k - r k) - (nint (p k - r k) : ℚ)

/-- Lines 1446-1453: `distance2` accumulates, over `k`, the square of
`diff_cart = Σ_l lat[k][l] * diff[l]`. -/
def distance2 (lat : Fin 3 → Fin 3 → ℚ) (diff : Fin 3 → ℚ) : ℚ :=
  ∑ k : Fin 3, (∑ l : Fin 3, lat k l * diff l) * (∑ l : Fin 3, lat k l * diff l)

/-- The test `sqrt(distance2) < symprec` of line 1455 in exact arithmetic: for
a non-negative `d2` the square root is below `s` exactly when `s` is positive
and `d2 < s * s` (see `sqrt_lt_iff_real`). -/
def sqrt_lt (d2 s : ℚ) : Bool :=
  decide (0 < s ∧ d2 < s * s)

/-- The acceptance test of the inner loop body (lines 1442-1455) for the
reference atom `i` and the rotated slot `j`. -/
def within_symprec (lat : Fin 3 → Fin 3 → ℚ) (pos rot_pos : ℕ → Fin 3 → ℚ)
    (symprec : ℚ) (i j : ℕ) : Bool :=
  sqrt_lt (distance2 lat (wrapped_diff (pos i) (rot_pos j))) symprec

/-- Lines 1422-1424: every entry below `num_pos` is set to `-1`. -/
def clear_rot_atom (rot_atom : Mem ℤ) (num_pos : ℕ) : Mem ℤ :=
  (List.range num_pos).foldl (fun ra i => ra.write i (-1)) rot_atom

/-- Lines 1434-1436: `while (rot_atom[search_start] >= 0) search_start++;`.
The first argument is `num_pos - search_start`, the number of array entries
from `search_start` on; when it is exhausted the C loop would read
`rot_atom[num_pos]`, past the end of the array, and the model returns
`none`. -/
def advance_search_start (rot_atom : Mem ℤ) : ℕ → ℕ → Option ℕ
  | 0, _ => none
  | n + 1, s =>
    if 0 ≤ rot_atom.read s then advance_search_start rot_atom n (s + 1) else some s

/-- Lines 1437-1459: the loop `for (j = search_start; j < num_pos; j++)` for
the reference atom `i`. The first numeric argument is `num_pos - j`. An
assigned slot is skipped (`continue`); the first unassigned slot that passes
the test receives `i` and ends the loop (`break`). -/
def scan_slots (close : ℕ → ℕ → Bool) (i : ℕ) (rot_atom : Mem ℤ) :
    ℕ → ℕ → Mem ℤ
  | 0, _ => rot_atom
  | n + 1, j =>
    if 0 ≤ rot_atom.read j then scan_slots close i rot_atom n (j + 1)
    else if close i j then rot_atom.write j (i : ℤ)
    else scan_slots close i rot_atom n (j + 1)

/-- Lines 1432-1460: the state `(rot_atom, search_start)` after the first
`k` iterations of the loop over the reference atoms, for the argument `k`. -/
def match_loop (close : ℕ → ℕ → Bool) (rot_atom : Mem ℤ) (num_pos : ℕ) :
    ℕ → Option (Mem ℤ × ℕ)
  | 0 => some (clear_rot_atom rot_atom num_pos, 0)
  | i + 1 =>
    match match_loop close rot_atom num_pos i with
    | none => none
    | some (ra, search_start) =>
      match advance_search_start ra (num_pos - search_start) search_start with
      | none => none
      | some s => some (scan_slots close i ra (num_pos - s) s, s)

/-- Lines 1462-1468: the status is `0` when some entry below `num_pos` is
negative and `1` otherwise. -/
def final_status (rot_atom : Mem ℤ) (num_pos : ℕ) : ℤ :=
  if (List.range num_pos).all (fun i => decide (0 ≤ rot_atom.read i)) then 1 else 0

/-- The loops of `compute_permutation` for an arbitrary acceptance test:
returns the status and the final contents of `rot_atom`. -/
def compute_permutation_with (close : ℕ → ℕ → Bool) (rot_atom : Mem ℤ)
    (num_pos : ℕ) : Option (ℤ × Mem ℤ) :=
  match match_loop close rot_atom num_pos num_pos with
  | none => none
  | some (ra, _) => some (final_status ra num_pos, ra)

/-- `compute_permutation` (lines 1410-1469). `rot_atom` is the caller's
output array on entry; the result is the returned status together with the
array on exit, or `none` if the `while` loop ran past the end of the array. -/
def compute_permutation (rot_atom : Mem ℤ) (lat : Fin 3 → Fin 3 → ℚ)
    (pos rot_pos : ℕ → Fin 3 → ℚ) (num_pos : ℕ) (symprec : ℚ) :
    Option (ℤ × Mem ℤ) :=
  compute_permutation_with (within_symprec lat pos rot_pos symprec) rot_atom num_pos

/-- `py_compute_permutation` (lines 290-329) after argument parsing: the
status of `compute_permutation` is returned as a Python integer; no exception
is set on any path. -/
def py_compute_permutation (rot_atoms : Mem ℤ) (lat : Fin 3 → Fin 3 → ℚ)
    (pos rot_pos : ℕ → Fin 3 → ℚ) (num_pos : ℕ) (symprec : ℚ) :
    Option (ℤ × Mem ℤ) :=
  compute_permutation rot_atoms lat pos rot_pos num_pos symprec

/-- The slots below `num_pos` that hold a reference index (a non-negative
entry). -/
def assigned (rot_atom : Mem ℤ) (num_pos : ℕ) : Finset ℕ :=
  (Finset.range num_pos).filter (fun j => 0 ≤ rot_atom.read j)

/-- Reference atom `k` finds a slot: in the state before iteration `k` of the
loop over the reference atoms some still-unassigned slot is within
tolerance of atom `k`. -/
def finds_slot (close : ℕ → ℕ → Bool) (rot_atom : Mem ℤ) (num_pos k : ℕ) : Prop :=
  ∃ ra s, match_loop close rot_atom num_pos k = some (ra, s) ∧
    ∃ j, j < num_pos ∧ ra.read j < 0 ∧ close k j = true

/-- The loop invariant of `compute_permutation` after `i` iterations of the
loop over the reference atoms. -/
structure MatchInv (close : ℕ → ℕ → Bool) (rot_atom : Mem ℤ) (num_pos i : ℕ)
    (ra : Mem ℤ) (s : ℕ) : Prop where
  frame : ∀ x, num_pos ≤ x → ra.read x = rot_atom.read x
  entries : ∀ j, j < num_pos →
    ra.read j = -1 ∨
      (0 ≤ ra.read j ∧ ra.read j < (i : ℤ) ∧ close (ra.read j).toNat j = true)
  cursor : ∀ x, x < s → 0 ≤ ra.read x
  count_le : (assigned ra num_pos).card ≤ i
  count_eq : (assigned ra num_pos).card = i ↔
    ∀ k, k < i → finds_slot close rot_atom num_pos k
  inj : ∀ j j2, j < num_pos → j2 < num_pos → 0 ≤ ra.read j →
    ra.read j = ra.read j2 → j = j2

/-- The Cartesian length of `lat · (d − nint d)`, `d = p − r` componentwise, is
strictly below `symprec` (as a statement about real numbers). -/
def cart_dist_lt (lat : Fin 3 → Fin 3 → ℚ) (p r : Fin 3 → ℚ) (symprec : ℚ) : Prop :=
  Real.sqrt ((distance2 lat (wrapped_diff p r) : ℚ) : ℝ) < (symprec : ℝ)

/-- The lattice with unit lattice vectors (cubic cell). -/
def unit_lattice : Fin 3 → Fin 3 → ℚ :=
  fun k l => if k = l then 1 else 0

/-- The two-atom scenario: positions `(0,0,0)` and `(1/2,1/2,1/2)`. -/
def scenario_pos : ℕ → Fin 3 → ℚ :=
  fun i => if i = 0 then ![0, 0, 0] else ![1 / 2, 1 / 2, 1 / 2]

/-- The scenario positions after the rotation by 180° about the z-axis,
stored in swapped order: `(-1/2,-1/2,1/2)` and `(0,0,0)`. -/
def scenario_rot_pos : ℕ → Fin 3 → ℚ :=
  fun i => if i = 0 then ![-1 / 2, -1 / 2, 1 / 2] else ![0, 0, 0]

/-- The tolerance `1e-5` of the scenarios. -/
def scenario_symprec : ℚ := 1 / 100000

/-- An output array that holds `0` everywhere before the call. -/
def zero_rot_atom : Mem ℤ := ⟨fun _ => 0⟩

/-! ## Geometry matcher: the naive variant and further scenarios -/

/-- The array after the first `k` iterations of the naive matcher of the
design notes: for each reference atom in order, the rotated slots are scanned
from index 0, assigned slots are skipped and the first slot within tolerance
is taken. No cursor is kept. -/
def naive_loop (close : ℕ → ℕ → Bool) (rot_atom : Mem ℤ) (num_pos : ℕ) : ℕ → Mem ℤ
  | 0 => clear_rot_atom rot_atom num_pos
  | i + 1 => scan_slots close i (naive_loop close rot_atom num_pos i) num_pos 0

/-- The naive matcher: the same first and last loops as `compute_permutation`
around the naive scan. Returns the status and the array. -/
def compute_permutation_naive (rot_atom : Mem ℤ) (lat : Fin 3 → Fin 3 → ℚ)
    (pos rot_pos : ℕ → Fin 3 → ℚ) (num_pos : ℕ) (symprec : ℚ) : ℤ × Mem ℤ :=
  (final_status
      (naive_loop (within_symprec lat pos rot_pos symprec) rot_atom num_pos num_pos)
      num_pos,
    naive_loop (within_symprec lat pos rot_pos symprec) rot_atom num_pos num_pos)

/-- An output array that holds `7` everywhere before the call. -/
def seven_rot_atom : Mem ℤ := ⟨fun _ => 7⟩

/-- A single rotated position `(1/4, 0, 0)`, a quarter of a cell away from
the origin. -/
def quarter_pos : ℕ → Fin 3 → ℚ :=
  fun _ => ![1 / 4, 0, 0]

/-- A single reference position at the origin. -/
def origin_pos : ℕ → Fin 3 → ℚ :=
  fun _ => ![0, 0, 0]

/-- A sheared lattice: `lat[0] = (1, 1, 0)`, `lat[1] = (0, 1, 0)`,
`lat[2] = (0, 0, 1)`. -/
def sheared_lattice : Fin 3 → Fin 3 → ℚ :=
  ![![1, 1, 0], ![0, 1, 0], ![0, 0, 1]]

/-- A single reference position `(1/2, 1/2, 0)`. -/
def half_pos : ℕ → Fin 3 → ℚ :=
  fun _ => ![1 / 2, 1 / 2, 0]

/-- The integer vector `(1, 0, 0)`. -/
def shift_x : Fin 3 → ℤ :=
  ![1, 0, 0]

/-! ## Shortest-image selector: `gsv_copy_smallest_vectors` -/

/-- The constant `DBL_MAX` of `<float.h>`, the largest finite IEEE double. -/
def DBL_MAX : ℚ := 2 ^ 1024 - 2 ^ 971

/-- Lines 1491-1497: `minimum` starts at `DBL_MAX` and is lowered to every
strictly smaller length of the 27 candidates. -/
def minimum_length (lengths : ℕ → ℚ) : ℚ :=
  (List.range 27).foldl
    (fun minimum j => if lengths j < minimum then lengths j else minimum) DBL_MAX

/-- One iteration of the copy loop (lines 1502-1507) on the state
`(shortest_vectors[i], count)`: a candidate within tolerance of the minimum is
copied (all three components) to slot `count`, and `count` is incremented. -/
def copy_step (vectors : ℕ → Fin 3 → ℚ) (lengths : ℕ → ℚ) (minimum symprec : ℚ)
    (st : Mem (Fin 3 → ℚ) × ℕ) (j : ℕ) : Mem (Fin 3 → ℚ) × ℕ :=
  if lengths j - minimum ≤ symprec then
    (st.1.write st.2 (vectors j), st.2 + 1)
  else st

/-- Lines 1499-1508: the copy loop over the 27 candidates, starting with
`count = 0`. -/
def copy_within (vectors : ℕ → Fin 3 → ℚ) (lengths : ℕ → ℚ) (minimum symprec : ℚ)
    (out : Mem (Fin 3 → ℚ)) : Mem (Fin 3 → ℚ) × ℕ :=
  (List.range 27).foldl (copy_step vectors lengths minimum symprec) (out, 0)

/-- The body of the loop over the lists (lines 1487-1510) for list `i`, on the
state `(shortest_vectors, multiplicity)`. -/
def gsv_step (vector_lists : ℕ → ℕ → Fin 3 → ℚ) (length_lists : ℕ → ℕ → ℚ)
    (symprec : ℚ) (st : Mem (Mem (Fin 3 → ℚ)) × Mem ℤ) (i : ℕ) :
    Mem (Mem (Fin 3 → ℚ)) × Mem ℤ :=
  (st.1.write i
      (copy_within (vector_lists i) (length_lists i)
        (minimum_length (length_lists i)) symprec (st.1.read i)).1,
    st.2.write i
      ((copy_within (vector_lists i) (length_lists i)
        (minimum_length (length_lists i)) symprec (st.1.read i)).2 : ℤ))

/-- `gsv_copy_smallest_vectors` (lines 1473-1512): returns the output arrays
`(shortest_vectors, multiplicity)` after the call. -/
def gsv_copy_smallest_vectors (shortest_vectors : Mem (Mem (Fin 3 → ℚ)))
    (multiplicity : Mem ℤ) (vector_lists : ℕ → ℕ → Fin 3 → ℚ)
    (length_lists : ℕ → ℕ → ℚ) (num_lists : ℕ) (symprec : ℚ) :
    Mem (Mem (Fin 3 → ℚ)) × Mem ℤ :=
  (List.range num_lists).foldl (gsv_step vector_lists length_lists symprec)
    (shortest_vectors, multiplicity)

/-- The candidates of one list that the selector keeps, in increasing order:
the indices `j < 27` with `lengths[j] - m ≤ symprec`. -/
def selected (lengths : ℕ → ℚ) (m symprec : ℚ) : List ℕ :=
  (List.range 27).filter (fun j => decide (lengths j - m ≤ symprec))

/-- The value `m` is the minimum of the 27 supplied lengths. -/
def is_min_length (lengths : ℕ → ℚ) (m : ℚ) : Prop :=
  (∃ j, j < 27 ∧ lengths j = m) ∧ ∀ j, j < 27 → m ≤ lengths j

/-- The selector scenario: candidates 3 and 20 have length 1, the other 25
have length 6/5. -/
def scenario_lengths : ℕ → ℕ → ℚ :=
  fun _ j => if j = 3 ∨ j = 20 then 1 else 6 / 5

/-- Candidate vectors of the selector scenario: candidate `j` is `(j, 0, 0)`. -/
def scenario_vectors : ℕ → ℕ → Fin 3 → ℚ :=
  fun _ j => ![(j : ℚ), 0, 0]

/-- Output arrays of the selector that hold zeros before the call. -/
def zero_shortest_vectors : Mem (Mem (Fin 3 → ℚ)) := ⟨fun _ => ⟨fun _ _ => 0⟩⟩

/-- A multiplicity array that holds zeros before the call. -/
def zero_multiplicity : Mem ℤ := ⟨fun _ => 0⟩

/-! ## Symmetry distributor: `distribute_fc2_with_mappings` -/

/-- Line 1559: `fc2_todo[j][k] += r_cart[l][j] * r_cart[m][k] * fc2_done[l][m]`,
where `fc2_todo` and `fc2_done` are the 3×3 blocks number `todo` and `done`
of `fc2`. -/
def distribute_term (r_cart : Fin 3 → Fin 3 → ℚ) (todo done : ℕ)
    (fc2 : Mem (Fin 3 → Fin 3 → ℚ)) (j k l m : Fin 3) : Mem (Fin 3 → Fin 3 → ℚ) :=
  fc2.write todo
    (Function.update (fc2.read todo) j
      (Function.update (fc2.read todo j) k
        (fc2.read todo j k + r_cart l j * r_cart m k * fc2.read done l m)))

/-- Lines 1554-1563: the four nested loops over `j`, `k`, `l`, `m`. -/
def distribute_block (r_cart : Fin 3 → Fin 3 → ℚ) (todo done : ℕ)
    (fc2 : Mem (Fin 3 → Fin 3 → ℚ)) : Mem (Fin 3 → Fin 3 → ℚ) :=
  (List.finRange 3).foldl (fun f1 j =>
    (List.finRange 3).foldl (fun f2 k =>
      (List.finRange 3).foldl (fun f3 l =>
        (List.finRange 3).foldl (fun f4 m =>
          distribute_term r_cart todo done f4 j k l m) f3) f2) f1) fc2

/-- Lines 1547-1564: the loop over `atom_other` for one `atom_todo`, with
`r_cart = r_carts[sym_index]` and
`permutation = &permutations[sym_index * num_pos]`. -/
def distribute_atom (r_carts : ℕ → Fin 3 → Fin 3 → ℚ) (permutations : ℕ → ℕ)
    (num_pos atom_todo atom_done sym_index : ℕ) (fc2 : Mem (Fin 3 → Fin 3 → ℚ)) :
    Mem (Fin 3 → Fin 3 → ℚ) :=
  (List.range num_pos).foldl (fun f atom_other =>
    distribute_block (r_carts sym_index)
      (atom_todo * num_pos + atom_other)
      (atom_done * num_pos + permutations (sym_index * num_pos + atom_other)) f) fc2

/-- `distribute_fc2_with_mappings` (lines 1515-1566). `atom_list` holds the
`len_atom_list` entries of the C array; the result is `fc2` after the call.
The argument `num_rot` is not used by the C function either. -/
def distribute_fc2_with_mappings (fc2 : Mem (Fin 3 → Fin 3 → ℚ)) (atom_list : List ℕ)
    (r_carts : ℕ → Fin 3 → Fin 3 → ℚ) (permutations : ℕ → ℕ)
    (map_atoms map_syms : ℕ → ℕ) (_num_rot num_pos : ℕ) : Mem (Fin 3 → Fin 3 → ℚ) :=
  atom_list.foldl (fun f atom_todo =>
    if atom_todo = map_atoms atom_todo then f
    else distribute_atom r_carts permutations num_pos atom_todo (map_atoms atom_todo)
      (map_syms atom_todo) f) fc2

/-- The conjugated block the distributor adds:
`Σ_{l,m} R[l][a] · R[m][b] · B[l][m]`. -/
def conjugate (r_cart : Fin 3 → Fin 3 → ℚ) (block : Fin 3 → Fin 3 → ℚ)
    (a b : Fin 3) : ℚ :=
  ∑ l : Fin 3, ∑ m : Fin 3, r_cart l a * r_cart m b * block l m

/-- A NumPy array argument: its shape and its data buffer. -/
structure PyArray (α : Type) where
  dims : List ℕ
  data : Mem α

/-- `PyArray_NDIM`. -/
def PyArray_NDIM {α : Type} (a : PyArray α) : ℕ := a.dims.length

/-- `PyArray_DIMS(a)[k]`; for `k` past the number of dimensions, where the C
expression reads past the shape, the model gives `0`. -/
def PyArray_DIMS {α : Type} (a : PyArray α) (k : ℕ) : ℕ := a.dims.getD k 0

/-- What a Python-facing function hands back: `None`, or `NULL` with a
`ValueError` set. -/
inductive PyResult where
  | none : PyResult
  | value_error (msg : String) : PyResult
  deriving DecidableEq

/-- `py_distribute_fc2_with_mappings` (lines 960-1026) after argument
parsing: the three shape checks of lines 998-1014 and then the call of
`distribute_fc2_with_mappings`. Returns the Python result and the contents of
the force-constant array afterwards. -/
def py_distribute_fc2_with_mappings (py_force_constants : PyArray (Fin 3 → Fin 3 → ℚ))
    (py_atom_list : PyArray ℕ) (py_rotations_cart : PyArray (Fin 3 → Fin 3 → ℚ))
    (py_permutations py_map_atoms py_map_syms : PyArray ℕ) :
    PyResult × Mem (Fin 3 → Fin 3 → ℚ) :=
  let len_atom_list := PyArray_DIMS py_atom_list 0
  let num_rot := PyArray_DIMS py_permutations 0
  let num_pos := PyArray_DIMS py_permutations 1
  if PyArray_NDIM py_map_atoms ≠ 1 ∨ PyArray_DIMS py_map_atoms 0 ≠ num_pos then
    (PyResult.value_error "wrong shape for map_atoms", py_force_constants.data)
  else if PyArray_NDIM py_map_syms ≠ 1 ∨ PyArray_DIMS py_map_syms 0 ≠ num_pos then
    (PyResult.value_error "wrong shape for map_syms", py_force_constants.data)
  else if PyArray_DIMS py_rotations_cart 0 ≠ num_rot then
    (PyResult.value_error "permutations and rotations are different length",
      py_force_constants.data)
  else
    (PyResult.none,
      distribute_fc2_with_mappings py_force_constants.data
        ((List.range len_atom_list).map py_atom_list.data.read)
        py_rotations_cart.data.read py_permutations.data.read py_map_atoms.data.read
        py_map_syms.data.read num_rot num_pos)

/-- The rotation by 90° about the z-axis. -/
def rot_z90 : Fin 3 → Fin 3 → ℚ :=
  ![![0, -1, 0], ![1, 0, 0], ![0, 0, 1]]

/-- The identity rotation. -/
def rot_identity : Fin 3 → Fin 3 → ℚ :=
  fun a b => if a = b then 1 else 0

/-- A two-atom field whose only non-zero entry is `FC[0][0][0][2] = 1`; row 1
is zero. -/
def field_rep_02 : Mem (Fin 3 → Fin 3 → ℚ) :=
  ⟨fun x a b => if x = 0 ∧ a = 0 ∧ b = 2 then 1 else 0⟩

/-- A two-atom field whose only non-zero entry is `FC[0][0][0][0] = 1`; row 1
is zero. -/
def field_rep_00 : Mem (Fin 3 → Fin 3 → ℚ) :=
  ⟨fun x a b => if x = 0 ∧ a = 0 ∧ b = 0 then 1 else 0⟩

/-- A two-atom field whose only non-zero entry is `FC[1][0][0][0] = 1`; row 0
is zero. -/
def field_todo_00 : Mem (Fin 3 → Fin 3 → ℚ) :=
  ⟨fun x a b => if x = 2 ∧ a = 0 ∧ b = 0 then 1 else 0⟩

/-- The effect of line 1559 on the 3×3 block `fc2_todo` alone, for a fixed
block `fc2_done`. -/
def block_term (r_cart : Fin 3 → Fin 3 → ℚ) (j k l m : Fin 3)
    (done_block todo_block : Fin 3 → Fin 3 → ℚ) : Fin 3 → Fin 3 → ℚ :=
  Function.update todo_block j
    (Function.update (todo_block j) k
      (todo_block j k + r_cart l j * r_cart m k * done_block l m))

/-! ## Full-representation symmetriser: `set_index_permutation_symmetry_fc` -/

/-- Lines 1581-1583 (and 1593-1595): `fc[m] += fc[n]; fc[m] /= 2;
fc[n] = fc[m];`. -/
def average_pair (fc : Mem ℚ) (m n : ℕ) : Mem ℚ :=
  let fc1 := fc.write m (fc.read m + fc.read n)
  let fc2 := fc1.write m (fc1.read m / 2)
  fc2.write n (fc2.read m)

/-- Lines 1576-1586, the non-diagonal part for the atom `i`: the loops over
`j = i + 1, …, natom - 1` and `k`, `l` in `0..2` with
`m = i * natom * 9 + j * 9 + k * 3 + l` and
`n = j * natom * 9 + i * 9 + l * 3 + k`. -/
def perm_sym_offdiag (natom i : ℕ) (fc : Mem ℚ) : Mem ℚ :=
  (List.Ico (i + 1) natom).foldl (fun f1 j =>
    (List.range 3).foldl (fun f2 k =>
      (List.range 3).foldl (fun f3 l =>
        average_pair f3 (i * natom * 9 + j * 9 + k * 3 + l)
          (j * natom * 9 + i * 9 + l * 3 + k)) f2) f1) fc

/-- Lines 1589-1597, the diagonal part for the atom `i`: the loops over
`k = 0, 1` and `l = k + 1, …, 2` with `m = i * natom * 9 + i * 9 + k * 3 + l`
and `n = i * natom * 9 + i * 9 + l * 3 + k`. -/
def perm_sym_diag (natom i : ℕ) (fc : Mem ℚ) : Mem ℚ :=
  (List.range 2).foldl (fun f1 k =>
    (List.Ico (k + 1) 3).foldl (fun f2 l =>
      average_pair f2 (i * natom * 9 + i * 9 + k * 3 + l)
        (i * natom * 9 + i * 9 + l * 3 + k)) f1) fc

/-- `set_index_permutation_symmetry_fc` (lines 1568-1599), the iterations of
the loop over `i` taken in increasing order. -/
def set_index_permutation_symmetry_fc (fc : Mem ℚ) (natom : ℕ) : Mem ℚ :=
  (List.range natom).foldl (fun f i =>
    perm_sym_diag natom i (perm_sym_offdiag natom i f)) fc

/-- The offset of `FC[i][j][a][b]` in the flat array of a field with `natom`
atoms. -/
def fc_index (natom i j a b : ℕ) : ℕ :=
  i * natom * 9 + j * 9 + a * 3 + b

/-- The index tuples `(i, j, k, l)` that the non-diagonal loops of atom `i`
visit, in order. -/
def offdiag_tuples (natom i : ℕ) : List (ℕ × ℕ × ℕ × ℕ) :=
  (List.Ico (i + 1) natom).flatMap (fun j =>
    (List.range 3).flatMap (fun k => (List.range 3).map (fun l => (i, j, k, l))))

/-- The index tuples `(i, i, k, l)` that the diagonal loops of atom `i`
visit, in order. -/
def diag_tuples (i : ℕ) : List (ℕ × ℕ × ℕ × ℕ) :=
  (List.range 2).flatMap (fun k => (List.Ico (k + 1) 3).map (fun l => (i, i, k, l)))

/-- All index tuples that `set_index_permutation_symmetry_fc` visits, in
order. -/
def all_tuples (natom : ℕ) : List (ℕ × ℕ × ℕ × ℕ) :=
  (List.range natom).flatMap (fun i => offdiag_tuples natom i ++ diag_tuples i)

/-- The update that the loop body performs at the index tuple `t`. -/
def tuple_step (natom : ℕ) (fc : Mem ℚ) (t : ℕ × ℕ × ℕ × ℕ) : Mem ℚ :=
  average_pair fc (fc_index natom t.1 t.2.1 t.2.2.1 t.2.2.2)
    (fc_index natom t.2.1 t.1 t.2.2.2 t.2.2.1)

/-- A field of two atoms whose only non-zero entries are `FC[0][1][0][1] = 1`
(offset 10) and `FC[1][0][1][0] = 3` (offset 21). -/
def field_two_entries : Mem ℚ :=
  ⟨fun x => if x = 10 then 1 else if x = 21 then 3 else 0⟩

/-! ## Translational step and the full symmetriser -/

/-- Lines 1610-1617 (and 485-492 of the compact symmetriser): the entry
`sums[k][l]` for one row. The running offset `m` starts at
`row * n_cols * 9 + k * 3 + l` and advances by 9 per column, so that column
`j` is read at `row * n_cols * 9 + k * 3 + l + j * 9`; the column `diag_col`
is left out of the sum. -/
def sums_entry (fc : Mem ℚ) (n_cols row diag_col k l : ℕ) : ℚ :=
  (List.range n_cols).foldl
    (fun s j =>
      if diag_col ≠ j then s + fc.read (row * n_cols * 9 + k * 3 + l + j * 9) else s) 0

/-- Lines 1608-1624 (and 483-500): the body of the loop over the rows of the
translational step. All nine `sums` are taken from the array as it is when the
row is entered, and then the block of column `diag_col` is overwritten with
`-(sums[k][l] + sums[l][k]) / 2`. -/
def sum_rule_row (fc : Mem ℚ) (n_cols row diag_col : ℕ) : Mem ℚ :=
  (List.range 3).foldl (fun f1 k =>
    (List.range 3).foldl (fun f2 l =>
      f2.write (row * n_cols * 9 + diag_col * 9 + k * 3 + l)
        (-(sums_entry fc n_cols row diag_col k l +
          sums_entry fc n_cols row diag_col l k) / 2)) f1) fc

/-- `set_translational_symmetry_fc` (lines 1601-1626). -/
def set_translational_symmetry_fc (fc : Mem ℚ) (natom : ℕ) : Mem ℚ :=
  (List.range natom).foldl (fun f i => sum_rule_row f natom i i) fc

/-- `py_perm_trans_symmetrize_fc` (lines 371-388) after argument parsing,
with `natom` the first dimension of the array: the permutation step followed
by the translational step. -/
def py_perm_trans_symmetrize_fc (fc : Mem ℚ) (natom : ℕ) : Mem ℚ :=
  set_translational_symmetry_fc (set_index_permutation_symmetry_fc fc natom) natom

/-- The matrix `S = Σ_{j ≠ i} FC[i][j]` of a full field: its entry `(a, b)`. -/
def offdiag_row_sum (fc : Mem ℚ) (natom i a b : ℕ) : ℚ :=
  ∑ j in (Finset.range natom).filter (fun j => j ≠ i),
    fc.read (i * natom * 9 + j * 9 + a * 3 + b)

/-- The matrix `Σ_j FC[i][j]` of a full field: its entry `(a, b)`. -/
def row_sum (fc : Mem ℚ) (natom i a b : ℕ) : ℚ :=
  ∑ j in Finset.range natom, fc.read (i * natom * 9 + j * 9 + a * 3 + b)


/-- A field of two atoms whose only nonzero entry is `FC[0][1][0][0] = 1`. -/
def field_one_entry : Mem ℚ :=
  ⟨fun x => if x = 9 then 1 else 0⟩

/-- A field of two atoms with `FC[i][i]` the identity matrix and `FC[i][j]`,
`j ≠ i`, minus the identity matrix. -/
def field_balanced : Mem ℚ :=
  ⟨fun x => if x % 9 % 4 = 0 then
      (if x / 9 = 0 ∨ x / 9 = 3 then 1 else if x / 9 = 1 ∨ x / 9 = 2 then -1 else 0)
    else 0⟩

/-! ## Compact-representation symmetriser: `py_perm_trans_symmetrize_compact_fc` -/

/-- Lines 431-440: the value of `s2pp[i]` after the loop over `j` with its
`break`, the first `j < n_patom` with `p2s[j] == s2p[i]`, or `-1` when there
is none. -/
def s2pp_entry (p2s s2p : ℕ → ℕ) (n_patom i : ℕ) : ℤ :=
  match (List.range n_patom).find? (fun j => decide (p2s j = s2p i)) with
  | some j => (j : ℤ)
  | none => -1

/-- Lines 426-429 and 447-455: the value of `nsym_list[i]`, the first
`j < nsym` with `perms[j * n_satom + i] == s2p[i]`, or `-1` when there is
none. -/
def nsym_list_entry (perms s2p : ℕ → ℕ) (n_satom nsym i : ℕ) : ℤ :=
  match (List.range nsym).find? (fun j => decide (perms (j * n_satom + i) = s2p i)) with
  | some j => (j : ℤ)
  | none => -1

/-- A read `a[idx]` of an array of `size` elements; `none` when `idx` is
outside `[0, size)`, where the C expression reads outside the array. -/
def load {α : Type} (a : ℕ → α) (size : ℕ) (idx : ℤ) : Option α :=
  if 0 ≤ idx ∧ idx < size then some (a idx.toNat) else none

/-- A write `a[idx] = v` to an array of `size` elements; `none` when `idx` is
outside `[0, size)`. -/
def store (a : Mem ℚ) (size : ℕ) (idx : ℤ) (v : ℚ) : Option (Mem ℚ) :=
  if 0 ≤ idx ∧ idx < size then some (a.write idx.toNat v) else none

/-- Lines 461-478: the body of the loops over `k` and `l` for the column `j`
and the row `i_p`, with `i = p2s[i_p]`. Both `fc` and `fc_tmp` have
`n_patom * n_satom * 9` elements and `perms` has `nsym * n_satom`. -/
def compact_entry (fc : Mem ℚ) (perms p2s : ℕ → ℕ) (s2pp nsym_list : ℕ → ℤ)
    (n_patom n_satom nsym j i_p k l : ℕ) (fc_tmp : Mem ℚ) : Option (Mem ℚ) :=
  if p2s i_p = j then do
    let m : ℤ := i_p * n_satom * 9 + p2s i_p * 9 + k * 3 + l
    let n : ℤ := i_p * n_satom * 9 + p2s i_p * 9 + l * 3 + k
    let x ← load fc.read (n_patom * n_satom * 9) m
    let y ← load fc.read (n_patom * n_satom * 9) n
    store fc_tmp (n_patom * n_satom * 9) m ((x + y) / 2)
  else do
    let m : ℤ := i_p * n_satom * 9 + j * 9 + k * 3 + l
    let p ← load perms (nsym * n_satom) (nsym_list j * n_satom + p2s i_p)
    let n : ℤ := s2pp j * n_satom * 9 + p * 9 + l * 3 + k
    let y ← load fc.read (n_patom * n_satom * 9) n
    let x ← load fc.read (n_patom * n_satom * 9) m
    store fc_tmp (n_patom * n_satom * 9) m ((y + x) / 2)

/-- Lines 442-480: `fc_tmp` after the permutation step, starting from the
zero array; the iterations over `j` write separate entries and are taken in
increasing order. -/
def compact_permutation_step (fc : Mem ℚ) (perms s2p p2s : ℕ → ℕ)
    (n_patom n_satom nsym : ℕ) : Option (Mem ℚ) :=
  (List.range n_satom).foldlM (fun t1 j =>
    (List.range n_patom).foldlM (fun t2 i_p =>
      (List.range 3).foldlM (fun t3 k =>
        (List.range 3).foldlM (fun t4 l =>
          compact_entry fc perms p2s (s2pp_entry p2s s2p n_patom)
            (nsym_list_entry perms s2p n_satom nsym) n_patom n_satom nsym j i_p k l t4)
          t3) t2) t1) ⟨fun _ => 0⟩

/-- Lines 490-495 for the row `i_p`: the writes
`fc_tmp[i_p * n_satom * 9 + p2s[i_p] * 9 + k * 3 + l] = -(sums[k][l] + sums[l][k]) / 2`
with `sums` computed by lines 483-489 from the array before these writes. -/
def compact_sum_rule_row (fc_tmp : Mem ℚ) (p2s : ℕ → ℕ) (n_patom n_satom i_p : ℕ) :
    Option (Mem ℚ) :=
  (List.range 3).foldlM (fun f1 k =>
    (List.range 3).foldlM (fun f2 l =>
      store f2 (n_patom * n_satom * 9)
        ((i_p * n_satom * 9 + p2s i_p * 9 + k * 3 + l : ℕ) : ℤ)
        (-(sums_entry fc_tmp n_satom i_p (p2s i_p) k l +
          sums_entry fc_tmp n_satom i_p (p2s i_p) l k) / 2)) f1) fc_tmp

/-- Lines 482-496: the translational step on `fc_tmp`. -/
def compact_translational_step (fc_tmp : Mem ℚ) (p2s : ℕ → ℕ) (n_patom n_satom : ℕ) :
    Option (Mem ℚ) :=
  (List.range n_patom).foldlM (fun f i_p => compact_sum_rule_row f p2s n_patom n_satom i_p)
    fc_tmp

/-- Lines 498-500: `fc[i] = fc_tmp[i]` for `i < size`. -/
def copy_back (fc fc_tmp : Mem ℚ) (size : ℕ) : Mem ℚ :=
  (List.range size).foldl (fun f i => f.write i (fc_tmp.read i)) fc

/-- `py_perm_trans_symmetrize_compact_fc` (lines 390-515) after argument
parsing, with `n_patom` and `n_satom` the first two dimensions of `fc` and
`nsym` the first dimension of `perms`: the contents of `fc` afterwards, or
`none` when an array is accessed outside its bounds. -/
def py_perm_trans_symmetrize_compact_fc (fc : Mem ℚ) (perms s2p p2s : ℕ → ℕ)
    (n_patom n_satom nsym : ℕ) : Option (Mem ℚ) := do
  let fc_tmp ← compact_permutation_step fc perms s2p p2s n_patom n_satom nsym
  let fc_tmp2 ← compact_translational_step fc_tmp p2s n_patom n_satom
  some (copy_back fc fc_tmp2 (n_patom * n_satom * 9))

/-- The tables of one representative atom `0` and two atoms, both mapped to
atom `0`: `p2s = [0]` and `s2p = [0, 0]`. -/
def pair_p2s : ℕ → ℕ := fun _ => 0

/-- The permutation table `[[0, 1], [1, 0]]`: the identity and the swap of the
two atoms. -/
def pair_perms : ℕ → ℕ := fun x => if x = 1 ∨ x = 2 then 1 else 0

/-- The row index that `s2pp[j]` holds when the lookup succeeded. -/
def s2pp_index (p2s s2p : ℕ → ℕ) (n_patom j : ℕ) : ℕ :=
  (s2pp_entry p2s s2p n_patom j).toNat

/-- The operation index that `nsym_list[j]` holds when the lookup succeeded. -/
def nsym_index (perms s2p : ℕ → ℕ) (n_satom nsym j : ℕ) : ℕ :=
  (nsym_list_entry perms s2p n_satom nsym j).toNat

/-- The value that the permutation step of the compact symmetriser stores in
`fc_tmp[i_p][j][k][l]` when `s2pp[j] = q` and `nsym_list[j] = s`: the average
of the block with its own transpose for `j = p2s[i_p]`, and otherwise the
average of `fc[i_p][j][k][l]` with `fc[q][perms[s][p2s[i_p]]][l][k]`. -/
def compact_value (fc : Mem ℚ) (perms p2s : ℕ → ℕ) (n_satom q s j i_p k l : ℕ) : ℚ :=
  if p2s i_p = j then
    (fc.read (i_p * n_satom * 9 + j * 9 + k * 3 + l) +
      fc.read (i_p * n_satom * 9 + j * 9 + l * 3 + k)) / 2
  else
    (fc.read (q * n_satom * 9 + perms (s * n_satom + p2s i_p) * 9 + l * 3 + k) +
      fc.read (i_p * n_satom * 9 + j * 9 + k * 3 + l)) / 2

/-- The index tuples `(j, i_p, k, l)` that the permutation step of the compact
symmetriser visits, in order. -/
def compact_tuples (n_patom n_satom : ℕ) : List (ℕ × ℕ × ℕ × ℕ) :=
  (List.range n_satom).flatMap (fun j =>
    (List.range n_patom).flatMap (fun i_p =>
      (List.range 3).flatMap (fun k => (List.range 3).map (fun l => (j, i_p, k, l)))))

/-- A table `s2p = [5, 0]` for two atoms: the entry of atom `0` is not an atom
of the cell. -/
def stray_s2p : ℕ → ℕ := fun j => if j = 0 then 5 else 0
/-! ## Reads after stores -/

@[simp]
theorem Mem.read_write_same {α : Type} (a : Mem α) (i : ℕ) (v : α) :
    (a.write i v).read i = v := by
  unfold Mem.write
  exact Function.update_same i v a.read

@[simp]
theorem Mem.read_write_ne {α : Type} {a : Mem α} {i j : ℕ} (h : j ≠ i) {v : α} :
    (a.write i v).read j = a.read j := by
  unfold Mem.write
  exact Function.update_noteq h v a.read

theorem Mem.read_write {α : Type} (a : Mem α) (i j : ℕ) (v : α) :
    (a.write i v).read j = if j = i then v else a.read j := by
  by_cases h : j = i
  · subst h
    rw [if_pos rfl, Mem.read_write_same]
  · rw [if_neg h, Mem.read_write_ne h]

theorem Mem.ext_read {α : Type} (a b : Mem α) (h : ∀ x, a.read x = b.read x) : a = b := by
  cases a
  cases b
  congr
  funext x
  exact h x

/-! ## Facts about the matcher loops -/

theorem clear_rot_atom_apply (rot_atom : Mem ℤ) (num_pos x : ℕ) :
    (clear_rot_atom rot_atom num_pos).read x =
      if x < num_pos then -1 else rot_atom.read x := by
  unfold clear_rot_atom
  induction num_pos with
  | zero => simp
  | succ n ih =>
    rw [List.range_succ, List.foldl_append, List.foldl_cons, List.foldl_nil]
    by_cases hx : x = n
    · subst hx
      simp
    · rw [Mem.read_write_ne hx, ih]
      have h1 : (x < n + 1) = (x < n) := by
        apply propext
        omega
      simp only [h1]

theorem advance_search_start_spec (rot_atom : Mem ℤ) (n s s' : ℕ)
    (h : advance_search_start rot_atom n s = some s') :
    s ≤ s' ∧ s' < s + n ∧ rot_atom.read s' < 0 ∧ ∀ x, s ≤ x → x < s' → 0 ≤ rot_atom.read x := by
  induction n generalizing s with
  | zero => simp [advance_search_start] at h
  | succ n ih =>
    rw [advance_search_start] at h
    by_cases h0 : 0 ≤ rot_atom.read s
    · rw [if_pos h0] at h
      obtain ⟨h1, h2, h3, h4⟩ := ih (s + 1) h
      refine ⟨by omega, by omega, h3, ?_⟩
      intro x hx hx'
      by_cases hxs : x = s
      · subst hxs
        exact h0
      · exact h4 x (by omega) hx'
    · rw [if_neg h0] at h
      have hs : s = s' := by simpa using h
      subst hs
      exact ⟨le_refl _, by omega, by omega, fun x hx hx' => by omega⟩

theorem advance_search_start_some (rot_atom : Mem ℤ) (n s x : ℕ)
    (hx : s ≤ x) (hxn : x < s + n) (hneg : rot_atom.read x < 0) :
    ∃ s', advance_search_start rot_atom n s = some s' := by
  induction n generalizing s with
  | zero => omega
  | succ n ih =>
    rw [advance_search_start]
    by_cases h0 : 0 ≤ rot_atom.read s
    · rw [if_pos h0]
      have hne : x ≠ s := by
        intro hxs
        subst hxs
        omega
      exact ih (s + 1) (by omega) (by omega)
    · rw [if_neg h0]
      exact ⟨s, rfl⟩

theorem scan_slots_spec (close : ℕ → ℕ → Bool) (i : ℕ) (rot_atom : Mem ℤ) (n j : ℕ) :
    ((∀ x, j ≤ x → x < j + n → 0 ≤ rot_atom.read x ∨ close i x = false) ∧
        scan_slots close i rot_atom n j = rot_atom) ∨
    (∃ x, j ≤ x ∧ x < j + n ∧ rot_atom.read x < 0 ∧ close i x = true ∧
        (∀ y, j ≤ y → y < x → 0 ≤ rot_atom.read y ∨ close i y = false) ∧
        scan_slots close i rot_atom n j = Mem.write rot_atom x (i : ℤ)) := by
  induction n generalizing j with
  | zero =>
    left
    exact ⟨fun x h1 h2 => by omega, rfl⟩
  | succ n ih =>
    rw [scan_slots]
    have step : ∀ (hj : 0 ≤ rot_atom.read j ∨ close i j = false),
        ((∀ x, j ≤ x → x < j + (n + 1) → 0 ≤ rot_atom.read x ∨ close i x = false) ∧
          scan_slots close i rot_atom n (j + 1) = rot_atom) ∨
        (∃ x, j ≤ x ∧ x < j + (n + 1) ∧ rot_atom.read x < 0 ∧ close i x = true ∧
          (∀ y, j ≤ y → y < x → 0 ≤ rot_atom.read y ∨ close i y = false) ∧
          scan_slots close i rot_atom n (j + 1) = Mem.write rot_atom x (i : ℤ)) := by
      intro hj
      rcases ih (j + 1) with ⟨hall, heq⟩ | ⟨x, h1, h2, h3, h4, h5, h6⟩
      · left
        refine ⟨?_, heq⟩
        intro x hx hx'
        by_cases hxj : x = j
        · subst hxj
          exact hj
        · exact hall x (by omega) (by omega)
      · right
        refine ⟨x, by omega, by omega, h3, h4, ?_, h6⟩
        intro y hy hy'
        by_cases hyj : y = j
        · subst hyj
          exact hj
        · exact h5 y (by omega) hy'
    by_cases h0 : 0 ≤ rot_atom.read j
    · rw [if_pos h0]
      exact step (Or.inl h0)
    · rw [if_neg h0]
      by_cases hc : close i j = true
      · rw [if_pos hc]
        right
        exact ⟨j, le_refl _, by omega, by omega, hc, fun y h1 h2 => by omega, rfl⟩
      · rw [if_neg hc]
        exact step (Or.inr (by simpa using hc))

theorem assigned_update (ra : Mem ℤ) (num_pos x : ℕ) (v : ℤ) (hx : x < num_pos)
    (hv : 0 ≤ v) :
    assigned (Mem.write ra x v) num_pos = insert x (assigned ra num_pos) := by
  ext j
  simp only [assigned, Finset.mem_filter, Finset.mem_range, Finset.mem_insert]
  by_cases hj : j = x
  · subst hj
    simp [hx, hv]
  · rw [Mem.read_write_ne hj]
    simp [hj]

theorem assigned_card_eq_iff (ra : Mem ℤ) (num_pos : ℕ) :
    (assigned ra num_pos).card = num_pos ↔ ∀ j, j < num_pos → 0 ≤ ra.read j := by
  constructor
  · intro h j hj
    have hsub : assigned ra num_pos ⊆ Finset.range num_pos := Finset.filter_subset _ _
    have heq : assigned ra num_pos = Finset.range num_pos :=
      Finset.eq_of_subset_of_card_le hsub (by rw [h, Finset.card_range])
    have hmem : j ∈ assigned ra num_pos := by
      rw [heq]
      exact Finset.mem_range.mpr hj
    exact (Finset.mem_filter.mp hmem).2
  · intro h
    have heq : assigned ra num_pos = Finset.range num_pos :=
      Finset.filter_true_of_mem (fun j hj => h j (Finset.mem_range.mp hj))
    rw [heq, Finset.card_range]

theorem exists_unassigned (ra : Mem ℤ) (num_pos : ℕ)
    (h : (assigned ra num_pos).card < num_pos) : ∃ x, x < num_pos ∧ ra.read x < 0 := by
  by_contra hcon
  have hall : ∀ j, j < num_pos → 0 ≤ ra.read j := by
    intro j hj
    by_contra hneg
    exact hcon ⟨j, hj, by omega⟩
  have := (assigned_card_eq_iff ra num_pos).mpr hall
  omega

theorem finds_slot_iff (close : ℕ → ℕ → Bool) (rot_atom : Mem ℤ) (num_pos k : ℕ)
    (ra : Mem ℤ) (s : ℕ) (h : match_loop close rot_atom num_pos k = some (ra, s)) :
    finds_slot close rot_atom num_pos k ↔
      ∃ j, j < num_pos ∧ ra.read j < 0 ∧ close k j = true := by
  constructor
  · rintro ⟨ra2, s2, h2, hj⟩
    rw [h] at h2
    have h3 : ra = ra2 := by
      have := Option.some.inj h2
      exact (Prod.mk.inj this).1
    rw [h3]
    exact hj
  · intro hj
    exact ⟨ra, s, h, hj⟩

theorem match_loop_succ (close : ℕ → ℕ → Bool) (rot_atom : Mem ℤ) (num_pos i : ℕ)
    (ra : Mem ℤ) (s s2 : ℕ) (h : match_loop close rot_atom num_pos i = some (ra, s))
    (ha : advance_search_start ra (num_pos - s) s = some s2) :
    match_loop close rot_atom num_pos (i + 1) =
      some (scan_slots close i ra (num_pos - s2) s2, s2) := by
  rw [match_loop, h]
  simp only [ha]

/-- The loop over the reference atoms never reads past the end of `rot_atom`
and keeps the invariant. -/
theorem match_loop_inv (close : ℕ → ℕ → Bool) (rot_atom : Mem ℤ) (num_pos i : ℕ)
    (hi : i ≤ num_pos) :
    ∃ ra s, match_loop close rot_atom num_pos i = some (ra, s) ∧
      MatchInv close rot_atom num_pos i ra s := by
  induction i with
  | zero =>
    refine ⟨clear_rot_atom rot_atom num_pos, 0, rfl, ?_⟩
    have hclear : ∀ j, j < num_pos → (clear_rot_atom rot_atom num_pos).read j = -1 := by
      intro j hj
      rw [clear_rot_atom_apply, if_pos hj]
    have hempty : assigned (clear_rot_atom rot_atom num_pos) num_pos = ∅ := by
      apply Finset.filter_false_of_mem
      intro j hj
      rw [hclear j (Finset.mem_range.mp hj)]
      decide
    refine ⟨?_, ?_, ?_, ?_, ?_, ?_⟩
    · intro x hx
      rw [clear_rot_atom_apply, if_neg (by omega)]
    · intro j hj
      exact Or.inl (hclear j hj)
    · intro x hx
      omega
    · rw [hempty]
      simp
    · rw [hempty]
      simp
    · intro j j2 hj hj2 h0
      rw [hclear j hj] at h0
      omega
  | succ i ih =>
    obtain ⟨ra, s, hloop, hinv⟩ := ih (by omega)
    obtain ⟨x, hxN, hxneg⟩ := exists_unassigned ra num_pos (by have := hinv.count_le; omega)
    have hsx : s ≤ x := by
      by_contra hlt
      have := hinv.cursor x (by omega)
      omega
    obtain ⟨s2, hadv⟩ := advance_search_start_some ra (num_pos - s) s x hsx (by omega) hxneg
    obtain ⟨hs1, hs2, hs3, hs4⟩ := advance_search_start_spec ra (num_pos - s) s s2 hadv
    have hs2N : s2 < num_pos := by omega
    have hbelow : ∀ y, y < s2 → 0 ≤ ra.read y := by
      intro y hy
      by_cases hys : y < s
      · exact hinv.cursor y hys
      · exact hs4 y (by omega) hy
    have hfind := finds_slot_iff close rot_atom num_pos i ra s hloop
    refine ⟨scan_slots close i ra (num_pos - s2) s2, s2,
      match_loop_succ close rot_atom num_pos i ra s s2 hloop hadv, ?_⟩
    rcases scan_slots_spec close i ra (num_pos - s2) s2 with
      ⟨hnone, heq⟩ | ⟨y, hy1, hy2, hy3, hy4, hy5, heq⟩
    · -- no slot found: the array is unchanged
      rw [heq]
      have hnot : ¬ finds_slot close rot_atom num_pos i := by
        rw [hfind]
        rintro ⟨j, hj, hjneg, hjc⟩
        have hsj : s2 ≤ j := by
          by_contra hlt
          have := hbelow j (by omega)
          omega
        rcases hnone j hsj (by omega) with h | h
        · omega
        · rw [h] at hjc
          exact Bool.false_ne_true hjc
      refine ⟨hinv.frame, ?_, hbelow, ?_, ?_, hinv.inj⟩
      · intro j hj
        rcases hinv.entries j hj with h | ⟨h1, h2, h3⟩
        · exact Or.inl h
        · exact Or.inr ⟨h1, by push_cast; omega, h3⟩
      · have := hinv.count_le
        omega
      · constructor
        · intro h
          have := hinv.count_le
          omega
        · intro h
          exact absurd (h i (by omega)) hnot
    · -- slot `y` receives `i`
      rw [heq]
      have hyN : y < num_pos := by omega
      have hcard : (assigned (Mem.write ra y (i : ℤ)) num_pos).card =
          (assigned ra num_pos).card + 1 := by
        rw [assigned_update ra num_pos y i hyN (by omega)]
        apply Finset.card_insert_of_not_mem
        intro hmem
        have := (Finset.mem_filter.mp hmem).2
        omega
      have hyes : finds_slot close rot_atom num_pos i := by
        rw [hfind]
        exact ⟨y, hyN, hy3, hy4⟩
      refine ⟨?_, ?_, ?_, ?_, ?_, ?_⟩
      · intro z hz
        rw [Mem.read_write_ne (by omega)]
        exact hinv.frame z hz
      · intro j hj
        by_cases hjy : j = y
        · subst hjy
          right
          rw [Mem.read_write_same]
          refine ⟨by omega, by push_cast; omega, ?_⟩
          rw [Int.toNat_ofNat]
          exact hy4
        · rw [Mem.read_write_ne hjy]
          rcases hinv.entries j hj with h | ⟨h1, h2, h3⟩
          · exact Or.inl h
          · exact Or.inr ⟨h1, by push_cast; omega, h3⟩
      · intro z hz
        rw [Mem.read_write_ne (by omega)]
        exact hbelow z hz
      · rw [hcard]
        have := hinv.count_le
        omega
      · rw [hcard]
        constructor
        · intro h k hk
          by_cases hki : k = i
          · subst hki
            exact hyes
          · exact hinv.count_eq.mp (by omega) k (by omega)
        · intro h
          have := hinv.count_eq.mpr (fun k hk => h k (by omega))
          omega
      · intro j j2 hj hj2 h0 hjj
        have hval : ∀ z, z < num_pos → z ≠ y → 0 ≤ ra.read z → ra.read z < (i : ℤ) := by
          intro z hz hzy hz0
          rcases hinv.entries z hz with h | ⟨_, h2, _⟩
          · omega
          · exact h2
        by_cases hjy : j = y
        · subst hjy
          by_cases hj2y : j2 = j
          · exact hj2y.symm
          · rw [Mem.read_write_same, Mem.read_write_ne hj2y] at hjj
            have := hval j2 hj2 hj2y (by omega)
            omega
        · by_cases hj2y : j2 = y
          · subst hj2y
            rw [Mem.read_write_same, Mem.read_write_ne hjy] at hjj
            rw [Mem.read_write_ne hjy] at h0
            have := hval j hj hjy h0
            omega
          · rw [Mem.read_write_ne hjy] at h0
            rw [Mem.read_write_ne hjy, Mem.read_write_ne hj2y] at hjj
            exact hinv.inj j j2 hj hj2 h0 hjj

theorem final_status_eq_one_iff (ra : Mem ℤ) (num_pos : ℕ) :
    final_status ra num_pos = 1 ↔ ∀ j, j < num_pos → 0 ≤ ra.read j := by
  unfold final_status
  by_cases h : (List.range num_pos).all (fun i => decide (0 ≤ ra.read i)) = true
  · rw [if_pos h]
    simp only [List.all_eq_true, List.mem_range, decide_eq_true_eq] at h
    simpa using h
  · rw [if_neg h]
    simp only [List.all_eq_true, List.mem_range, decide_eq_true_eq] at h
    simp [h]

theorem final_status_cases (ra : Mem ℤ) (num_pos : ℕ) :
    final_status ra num_pos = 0 ∨ final_status ra num_pos = 1 := by
  unfold final_status
  split
  · exact Or.inr rfl
  · exact Or.inl rfl

/-! ## Geometry matcher: soundness, status, identity, recovery -/

theorem distance2_nonneg (lat : Fin 3 → Fin 3 → ℚ) (diff : Fin 3 → ℚ) :
    0 ≤ distance2 lat diff := by
  unfold distance2
  apply Finset.sum_nonneg
  intro k _
  exact mul_self_nonneg _

/-- The rational test used for `sqrt(distance2) < symprec` agrees with the
comparison of the real square root. -/
theorem sqrt_lt_iff_real (d2 s : ℚ) (h : 0 ≤ d2) :
    sqrt_lt d2 s = true ↔ Real.sqrt ((d2 : ℚ) : ℝ) < (s : ℝ) := by
  unfold sqrt_lt
  rw [decide_eq_true_eq]
  have hd : (0 : ℝ) ≤ (d2 : ℝ) := by exact_mod_cast h
  constructor
  · rintro ⟨hs, hlt⟩
    have hs2 : (0 : ℝ) < (s : ℝ) := by exact_mod_cast hs
    rw [Real.sqrt_lt' hs2]
    have : (d2 : ℝ) < (s : ℝ) * (s : ℝ) := by exact_mod_cast hlt
    nlinarith
  · intro hlt
    have hs2 : (0 : ℝ) < (s : ℝ) := lt_of_le_of_lt (Real.sqrt_nonneg _) hlt
    have hs : 0 < s := by exact_mod_cast hs2
    refine ⟨hs, ?_⟩
    rw [Real.sqrt_lt' hs2] at hlt
    have : (d2 : ℝ) < (s : ℝ) * (s : ℝ) := by nlinarith
    exact_mod_cast this

theorem within_symprec_iff (lat : Fin 3 → Fin 3 → ℚ) (pos rot_pos : ℕ → Fin 3 → ℚ)
    (symprec : ℚ) (i j : ℕ) :
    within_symprec lat pos rot_pos symprec i j = true ↔
      cart_dist_lt lat (pos i) (rot_pos j) symprec := by
  unfold within_symprec cart_dist_lt
  exact sqrt_lt_iff_real _ _ (distance2_nonneg _ _)

theorem compute_permutation_with_eq (close : ℕ → ℕ → Bool) (rot_atom : Mem ℤ)
    (num_pos : ℕ) (ra : Mem ℤ) (s : ℕ)
    (h : match_loop close rot_atom num_pos num_pos = some (ra, s)) :
    compute_permutation_with close rot_atom num_pos =
      some (final_status ra num_pos, ra) := by
  unfold compute_permutation_with
  rw [h]

/-- C1. Soundness of the geometry matcher: when `compute_permutation`
returns 1, every output entry `rot_atom[j]`, `j < num_pos`, is an index in
`[0, num_pos)` and the Cartesian length of `lat · (d − nint d)` with
`d = pos[rot_atom[j]] − rot_pos[j]` is strictly below `symprec`. -/
theorem compute_permutation_sound (rot_atom : Mem ℤ) (lat : Fin 3 → Fin 3 → ℚ)
    (pos rot_pos : ℕ → Fin 3 → ℚ) (num_pos : ℕ) (symprec : ℚ) (ra : Mem ℤ)
    (h : compute_permutation rot_atom lat pos rot_pos num_pos symprec = some (1, ra)) :
    ∀ j, j < num_pos → 0 ≤ ra.read j ∧ ra.read j < (num_pos : ℤ) ∧
      cart_dist_lt lat (pos (ra.read j).toNat) (rot_pos j) symprec := by
  intro j hj
  obtain ⟨ra2, s, hloop, hinv⟩ :=
    match_loop_inv (within_symprec lat pos rot_pos symprec) rot_atom num_pos num_pos
      (le_refl _)
  unfold compute_permutation at h
  rw [compute_permutation_with_eq _ _ _ _ _ hloop] at h
  have h2 := Prod.mk.inj (Option.some.inj h)
  have hra : ra2 = ra := h2.2
  subst hra
  have hall := (final_status_eq_one_iff ra2 num_pos).mp h2.1
  rcases hinv.entries j hj with hneg | ⟨h0, hlt, hc⟩
  · have := hall j hj
    omega
  · exact ⟨h0, hlt, (within_symprec_iff _ _ _ _ _ _).mp hc⟩

/-- C2. Status of the geometry matcher: `compute_permutation` (and its
wrapper `py_compute_permutation`) always returns, without reading past the
array and without raising, a status that is 0 or 1; the status is 0 exactly
when some reference atom found no still-unassigned slot within tolerance at
its turn of the greedy scan, equivalently when some output entry is still
`-1`, and it is 1 exactly when every reference atom found a slot. -/
theorem compute_permutation_status (rot_atom : Mem ℤ) (lat : Fin 3 → Fin 3 → ℚ)
    (pos rot_pos : ℕ → Fin 3 → ℚ) (num_pos : ℕ) (symprec : ℚ) :
    ∃ st ra,
      compute_permutation rot_atom lat pos rot_pos num_pos symprec = some (st, ra) ∧
      py_compute_permutation rot_atom lat pos rot_pos num_pos symprec = some (st, ra) ∧
      (st = 0 ∨ st = 1) ∧
      (st = 0 ↔ ∃ i, i < num_pos ∧
        ¬ finds_slot (within_symprec lat pos rot_pos symprec) rot_atom num_pos i) ∧
      (st = 0 ↔ ∃ j, j < num_pos ∧ ra.read j = -1) ∧
      (st = 1 ↔ ∀ i, i < num_pos →
        finds_slot (within_symprec lat pos rot_pos symprec) rot_atom num_pos i) := by
  obtain ⟨ra, s, hloop, hinv⟩ :=
    match_loop_inv (within_symprec lat pos rot_pos symprec) rot_atom num_pos num_pos
      (le_refl _)
  have hres : compute_permutation rot_atom lat pos rot_pos num_pos symprec =
      some (final_status ra num_pos, ra) := by
    unfold compute_permutation
    exact compute_permutation_with_eq _ _ _ _ _ hloop
  have hcases := final_status_cases ra num_pos
  have hone := final_status_eq_one_iff ra num_pos
  have hcount := assigned_card_eq_iff ra num_pos
  have hzero : final_status ra num_pos = 0 ↔ ¬ final_status ra num_pos = 1 := by
    rcases hcases with h | h <;> rw [h] <;> decide
  have hall : final_status ra num_pos = 1 ↔ ∀ i, i < num_pos →
      finds_slot (within_symprec lat pos rot_pos symprec) rot_atom num_pos i := by
    rw [hone, ← hcount]
    exact hinv.count_eq
  refine ⟨final_status ra num_pos, ra, hres, hres, hcases, ?_, ?_, hall⟩
  · rw [hzero, hall]
    push_neg
    exact Iff.rfl
  · rw [hzero, hone]
    push_neg
    constructor
    · rintro ⟨j, hj, hneg⟩
      rcases hinv.entries j hj with h | ⟨h0, _, _⟩
      · exact ⟨j, hj, h⟩
      · omega
    · rintro ⟨j, hj, h⟩
      exact ⟨j, hj, by omega⟩

theorem scan_slots_hit (close : ℕ → ℕ → Bool) (i : ℕ) (ra : Mem ℤ) (n j : ℕ)
    (hn : 0 < n) (hneg : ra.read j < 0) (hc : close i j = true) :
    scan_slots close i ra n j = Mem.write ra j (i : ℤ) := by
  obtain ⟨m, rfl⟩ : ∃ m, n = m + 1 := ⟨n - 1, by omega⟩
  rw [scan_slots, if_neg (by omega), if_pos hc]

theorem nint_zero : nint 0 = 0 := by
  norm_num [nint, truncToInt]

theorem within_symprec_self (lat : Fin 3 → Fin 3 → ℚ) (pos : ℕ → Fin 3 → ℚ)
    (symprec : ℚ) (h : 0 < symprec) (i : ℕ) :
    within_symprec lat pos pos symprec i i = true := by
  have hd : wrapped_diff (pos i) (pos i) = fun _ => 0 := by
    funext k
    unfold wrapped_diff
    rw [sub_self, nint_zero]
    simp
  have h2 : distance2 lat (wrapped_diff (pos i) (pos i)) = 0 := by
    rw [hd]
    simp [distance2]
  unfold within_symprec sqrt_lt
  rw [h2, decide_eq_true_eq]
  exact ⟨h, mul_pos h h⟩

/-- With a reflexive acceptance test, after `i` iterations the first `i`
slots hold their own index and the others are still unassigned. -/
theorem match_loop_identity (close : ℕ → ℕ → Bool) (rot_atom : Mem ℤ) (num_pos : ℕ)
    (hclose : ∀ i, i < num_pos → close i i = true) (i : ℕ) (hi : i ≤ num_pos) :
    ∃ ra s, match_loop close rot_atom num_pos i = some (ra, s) ∧ s ≤ i ∧
      (∀ j, j < i → ra.read j = (j : ℤ)) ∧ (∀ j, i ≤ j → j < num_pos → ra.read j = -1) := by
  induction i with
  | zero =>
    refine ⟨clear_rot_atom rot_atom num_pos, 0, rfl, le_refl _, ?_, ?_⟩
    · intro j hj
      omega
    · intro j _ hj
      rw [clear_rot_atom_apply, if_pos hj]
  | succ i ih =>
    obtain ⟨ra, s, hloop, hs, hlow, hhigh⟩ := ih (by omega)
    have hrai : ra.read i = -1 := hhigh i (le_refl _) (by omega)
    obtain ⟨s2, hadv⟩ :=
      advance_search_start_some ra (num_pos - s) s i hs (by omega) (by omega)
    obtain ⟨hs1, hs2, hs3, hs4⟩ := advance_search_start_spec ra (num_pos - s) s s2 hadv
    have hs2i : s2 = i := by
      have h1 : i ≤ s2 := by
        by_contra hlt
        have := hlow s2 (by omega)
        omega
      have h2 : s2 ≤ i := by
        by_contra hlt
        have := hs4 i hs (by omega)
        omega
      omega
    subst hs2i
    refine ⟨scan_slots close s2 ra (num_pos - s2) s2, s2,
      match_loop_succ close rot_atom num_pos s2 ra s s2 hloop hadv, by omega, ?_, ?_⟩
    · intro j hj
      rw [scan_slots_hit close s2 ra _ s2 (by omega) hs3 (hclose s2 (by omega))]
      by_cases hjs : j = s2
      · subst hjs
        rw [Mem.read_write_same]
      · rw [Mem.read_write_ne hjs]
        exact hlow j (by omega)
    · intro j hj hjN
      rw [scan_slots_hit close s2 ra _ s2 (by omega) hs3 (hclose s2 (by omega))]
      rw [Mem.read_write_ne (by omega)]
      exact hhigh j (by omega) hjN

/-- When the acceptance test holds exactly on the graph of a bijection
`σ`, after `i` iterations slot `j` holds `σ j` if `σ j < i` and is unassigned
otherwise. -/
theorem match_loop_perm (close : ℕ → ℕ → Bool) (rot_atom : Mem ℤ) (num_pos : ℕ)
    (σ : Equiv.Perm (Fin num_pos))
    (hσ : ∀ i j : Fin num_pos, close i j = true ↔ i = σ j) (i : ℕ) (hi : i ≤ num_pos) :
    ∃ ra s, match_loop close rot_atom num_pos i = some (ra, s) ∧
      (∀ x, x < s → 0 ≤ ra.read x) ∧
      ∀ j : Fin num_pos, ra.read j = if ((σ j : Fin num_pos) : ℕ) < i
        then (((σ j : Fin num_pos) : ℕ) : ℤ) else -1 := by
  induction i with
  | zero =>
    refine ⟨clear_rot_atom rot_atom num_pos, 0, rfl, fun x hx => by omega, ?_⟩
    intro j
    rw [clear_rot_atom_apply, if_pos j.isLt, if_neg (by omega)]
  | succ i ih =>
    obtain ⟨ra, s, hloop, hcur, hval⟩ := ih (by omega)
    have hiN : i < num_pos := by omega
    -- the slot that must receive `i`
    obtain ⟨x, hx⟩ : ∃ x : Fin num_pos, σ x = ⟨i, hiN⟩ := ⟨σ.symm ⟨i, hiN⟩, by simp⟩
    have hxi : ((σ x : Fin num_pos) : ℕ) = i := by rw [hx]
    have hrax : ra.read x = -1 := by
      rw [hval x, if_neg (by omega)]
    have hsx : s ≤ (x : ℕ) := by
      by_contra hlt
      have := hcur x (by omega)
      omega
    obtain ⟨s2, hadv⟩ :=
      advance_search_start_some ra (num_pos - s) s x hsx (by have := x.isLt; omega)
        (by omega)
    obtain ⟨hs1, hs2, hs3, hs4⟩ := advance_search_start_spec ra (num_pos - s) s s2 hadv
    have hs2x : s2 ≤ (x : ℕ) := by
      by_contra hlt
      have := hs4 x hsx (by omega)
      omega
    have hbelow : ∀ y, y < s2 → 0 ≤ ra.read y := by
      intro y hy
      by_cases hys : y < s
      · exact hcur y hys
      · exact hs4 y (by omega) hy
    have hcx : close i x = true := (hσ ⟨i, hiN⟩ x).mpr hx.symm
    have hscan : scan_slots close i ra (num_pos - s2) s2 =
        Mem.write ra (x : ℕ) (i : ℤ) := by
      rcases scan_slots_spec close i ra (num_pos - s2) s2 with
        ⟨hnone, _⟩ | ⟨y, hy1, hy2, hy3, hy4, _, heq⟩
      · rcases hnone x hs2x (by have := x.isLt; omega) with h | h
        · omega
        · rw [h] at hcx
          exact absurd hcx Bool.false_ne_true
      · have hyN : y < num_pos := by omega
        have hy : (⟨i, hiN⟩ : Fin num_pos) = σ ⟨y, hyN⟩ := (hσ ⟨i, hiN⟩ ⟨y, hyN⟩).mp hy4
        have hxy : x = ⟨y, hyN⟩ := σ.injective (by rw [hx, hy])
        have hxy2 : (x : ℕ) = y := by rw [hxy]
        rw [heq, hxy2]
    refine ⟨scan_slots close i ra (num_pos - s2) s2, s2,
      match_loop_succ close rot_atom num_pos i ra s s2 hloop hadv, ?_, ?_⟩
    · intro z hz
      rw [hscan, Mem.read_write_ne (by omega)]
      exact hbelow z hz
    · intro j
      rw [hscan]
      by_cases hjx : j = x
      · subst hjx
        rw [Mem.read_write_same, if_pos (by omega), hxi]
      · have hne : (j : ℕ) ≠ (x : ℕ) := fun h => hjx (Fin.ext h)
        have hσne : ((σ j : Fin num_pos) : ℕ) ≠ i := by
          intro h
          apply hjx
          apply σ.injective
          rw [hx]
          exact Fin.ext h
        rw [Mem.read_write_ne hne, hval j]
        by_cases hlt : ((σ j : Fin num_pos) : ℕ) < i
        · rw [if_pos hlt, if_pos (by omega)]
        · rw [if_neg hlt, if_neg (by omega)]

theorem scenario_close_00 :
    within_symprec unit_lattice scenario_pos scenario_rot_pos scenario_symprec 0 0 = false := by
  simp [within_symprec, sqrt_lt, distance2, wrapped_diff, unit_lattice, scenario_pos,
    scenario_rot_pos, scenario_symprec, Fin.sum_univ_three]
  norm_num [nint, truncToInt]

theorem scenario_close_01 :
    within_symprec unit_lattice scenario_pos scenario_rot_pos scenario_symprec 0 1 = true := by
  simp [within_symprec, sqrt_lt, distance2, wrapped_diff, unit_lattice, scenario_pos,
    scenario_rot_pos, scenario_symprec, Fin.sum_univ_three, nint_zero]

theorem scenario_close_10 :
    within_symprec unit_lattice scenario_pos scenario_rot_pos scenario_symprec 1 0 = true := by
  simp [within_symprec, sqrt_lt, distance2, wrapped_diff, unit_lattice, scenario_pos,
    scenario_rot_pos, scenario_symprec, Fin.sum_univ_three]
  norm_num [nint, truncToInt]

theorem scenario_close_11 :
    within_symprec unit_lattice scenario_pos scenario_rot_pos scenario_symprec 1 1 = false := by
  simp [within_symprec, sqrt_lt, distance2, wrapped_diff, unit_lattice, scenario_pos,
    scenario_rot_pos, scenario_symprec, Fin.sum_univ_three]
  norm_num [nint, truncToInt]

/-- The run of the matcher on two atoms when atom 0 matches only slot 1 and
atom 1 matches slot 0. -/
theorem compute_permutation_with_swap2 (close : ℕ → ℕ → Bool) (rot_atom : Mem ℤ)
    (h00 : close 0 0 = false) (h01 : close 0 1 = true) (h10 : close 1 0 = true) :
    compute_permutation_with close rot_atom 2 =
      some (1, (((rot_atom.write 0 (-1)).write 1 (-1)).write 1 0).write 0 1) := by
  simp [compute_permutation_with, match_loop, advance_search_start, scan_slots,
    clear_rot_atom, final_status, List.range_succ, h00, h01, h10, Mem.read_write]

theorem scenario_swap_run :
    compute_permutation zero_rot_atom unit_lattice scenario_pos scenario_rot_pos 2
        scenario_symprec =
      some (1, (((zero_rot_atom.write 0 (-1)).write 1 (-1)).write 1 0).write 0 1) :=
  compute_permutation_with_swap2 _ _ scenario_close_00 scenario_close_01 scenario_close_10

/-- Instance of C1 on the two-atom scenario with swapped rotated positions. -/
theorem compute_permutation_sound_witness :
    compute_permutation zero_rot_atom unit_lattice scenario_pos scenario_rot_pos 2
        scenario_symprec =
      some (1, (((zero_rot_atom.write 0 (-1)).write 1 (-1)).write 1 0).write 0 1) ∧
    ∀ j, j < 2 →
      0 ≤ ((((zero_rot_atom.write 0 (-1)).write 1 (-1)).write 1 0).write 0 1).read j ∧
      ((((zero_rot_atom.write 0 (-1)).write 1 (-1)).write 1 0).write 0 1).read j <
        ((2 : ℕ) : ℤ) ∧
      cart_dist_lt unit_lattice
        (scenario_pos
          (((((zero_rot_atom.write 0 (-1)).write 1 (-1)).write 1 0).write 0 1).read
            j).toNat)
        (scenario_rot_pos j) scenario_symprec :=
  ⟨scenario_swap_run,
    compute_permutation_sound _ _ _ _ _ _ _ scenario_swap_run⟩

/-- C3. Identity round trip of the geometry matcher: for every `num_pos`,
lattice, position array (repeated positions allowed) and tolerance
`symprec > 0`, `compute_permutation` with `rot_pos = pos` returns 1 and the
identity permutation, `rot_atom[j] = j` for all `j < num_pos`. -/
theorem compute_permutation_identity (rot_atom : Mem ℤ) (lat : Fin 3 → Fin 3 → ℚ)
    (pos : ℕ → Fin 3 → ℚ) (num_pos : ℕ) (symprec : ℚ) (h : 0 < symprec) :
    ∃ ra, compute_permutation rot_atom lat pos pos num_pos symprec = some (1, ra) ∧
      ∀ j, j < num_pos → ra.read j = (j : ℤ) := by
  obtain ⟨ra, s, hloop, _, hlow, _⟩ :=
    match_loop_identity (within_symprec lat pos pos symprec) rot_atom num_pos
      (fun i _ => within_symprec_self lat pos symprec h i) num_pos (le_refl _)
  have hst : final_status ra num_pos = 1 := by
    rw [final_status_eq_one_iff]
    intro j hj
    rw [hlow j hj]
    omega
  refine ⟨ra, ?_, hlow⟩
  unfold compute_permutation
  rw [compute_permutation_with_eq _ _ _ _ _ hloop, hst]

/-- Instance of C3: two atoms at `(0,0,0)` and `(1/2,1/2,1/2)` in the unit
cubic lattice with tolerance `1e-5` give the permutation `[0, 1]`. -/
theorem compute_permutation_identity_witness :
    (0 : ℚ) < scenario_symprec ∧
    ∃ ra, compute_permutation zero_rot_atom unit_lattice scenario_pos scenario_pos 2
        scenario_symprec = some (1, ra) ∧
      ∀ j, j < 2 → ra.read j = (j : ℤ) :=
  ⟨by norm_num [scenario_symprec],
    compute_permutation_identity _ _ _ _ _ (by norm_num [scenario_symprec])⟩

/-- C4. The geometry matcher recovers the intended permutation: if `σ` is a
bijection on `[0, num_pos)` such that the wrapped Cartesian distance between
`pos[i]` and `rot_pos[j]` is below `symprec` exactly when `i = σ j`, then
`compute_permutation` returns 1 and `rot_atom[j] = σ j` for every `j`. -/
theorem compute_permutation_recovers (rot_atom : Mem ℤ) (lat : Fin 3 → Fin 3 → ℚ)
    (pos rot_pos : ℕ → Fin 3 → ℚ) (num_pos : ℕ) (symprec : ℚ)
    (σ : Equiv.Perm (Fin num_pos))
    (hσ : ∀ i j : Fin num_pos,
      cart_dist_lt lat (pos i) (rot_pos j) symprec ↔ i = σ j) :
    ∃ ra, compute_permutation rot_atom lat pos rot_pos num_pos symprec = some (1, ra) ∧
      ∀ j : Fin num_pos, ra.read j = (((σ j : Fin num_pos) : ℕ) : ℤ) := by
  obtain ⟨ra, s, hloop, _, hval⟩ :=
    match_loop_perm (within_symprec lat pos rot_pos symprec) rot_atom num_pos σ
      (fun i j => (within_symprec_iff lat pos rot_pos symprec i j).trans (hσ i j))
      num_pos (le_refl _)
  have hval2 : ∀ j : Fin num_pos, ra.read j = (((σ j : Fin num_pos) : ℕ) : ℤ) := by
    intro j
    rw [hval j, if_pos (σ j).isLt]
  have hst : final_status ra num_pos = 1 := by
    rw [final_status_eq_one_iff]
    intro j hj
    have := hval2 ⟨j, hj⟩
    simp only at this
    rw [this]
    omega
  refine ⟨ra, ?_, hval2⟩
  unfold compute_permutation
  rw [compute_permutation_with_eq _ _ _ _ _ hloop, hst]

/-- Instance of C4: unit cubic lattice, `pos = [(0,0,0), (1/2,1/2,1/2)]`,
`rot_pos = [(-1/2,-1/2,1/2), (0,0,0)]`, tolerance `1e-5` give `[1, 0]`. -/
theorem compute_permutation_recovers_witness :
    (∀ i j : Fin 2,
      cart_dist_lt unit_lattice (scenario_pos i) (scenario_rot_pos j) scenario_symprec ↔
        i = Equiv.swap (0 : Fin 2) 1 j) ∧
    ∃ ra, compute_permutation zero_rot_atom unit_lattice scenario_pos scenario_rot_pos 2
        scenario_symprec = some (1, ra) ∧
      ∀ j : Fin 2, ra.read j = (((Equiv.swap (0 : Fin 2) 1 j : Fin 2) : ℕ) : ℤ) :=
  have hσ : ∀ i j : Fin 2,
      cart_dist_lt unit_lattice (scenario_pos i) (scenario_rot_pos j) scenario_symprec ↔
        i = Equiv.swap (0 : Fin 2) 1 j := by
    intro i j
    rw [← within_symprec_iff]
    fin_cases i <;> fin_cases j
    · simp [scenario_close_00]
    · simp [scenario_close_01]
    · simp [scenario_close_10]
    · simp [scenario_close_11]
  ⟨hσ, compute_permutation_recovers _ _ _ _ 2 _ (Equiv.swap (0 : Fin 2) 1) hσ⟩

/-! ## Geometry matcher: failure, wraparound, cursor, periodicity -/

theorem nint_of_nonneg (a : ℚ) (h : 0 ≤ a) : nint a = ⌊a + 1 / 2⌋ := by
  unfold nint truncToInt
  rw [if_neg (not_lt.mpr h), if_neg (by linarith)]

theorem nint_of_neg (a : ℚ) (h : a < 0) : nint a = -⌊1 / 2 - a⌋ := by
  unfold nint truncToInt
  rw [if_pos h, if_pos (by linarith)]
  congr 2
  ring

/-- Away from the half-integers `nint` is rounding to the nearest integer. -/
theorem nint_eq_floor (a : ℚ) (h : ∀ m : ℤ, a ≠ (m : ℚ) + 1 / 2) :
    nint a = ⌊a + 1 / 2⌋ := by
  by_cases ha : 0 ≤ a
  · exact nint_of_nonneg a ha
  · rw [nint_of_neg a (lt_of_not_le ha)]
    symm
    rw [Int.floor_eq_iff]
    have h1 := Int.floor_le (1 / 2 - a)
    have h2 := Int.lt_floor_add_one (1 / 2 - a)
    have h3 : ((⌊1 / 2 - a⌋ : ℤ) : ℚ) ≠ 1 / 2 - a := by
      intro heq
      apply h (-⌊1 / 2 - a⌋)
      push_cast
      linarith
    have h4 : ((⌊1 / 2 - a⌋ : ℤ) : ℚ) < 1 / 2 - a := lt_of_le_of_ne h1 h3
    push_cast
    constructor <;> linarith

theorem nint_add_int (d : ℚ) (z : ℤ) (h : ∀ m : ℤ, d ≠ (m : ℚ) + 1 / 2) :
    nint (d + z) = nint d + z := by
  have h2 : ∀ m : ℤ, d + z ≠ (m : ℚ) + 1 / 2 := by
    intro m heq
    apply h (m - z)
    push_cast
    linarith
  rw [nint_eq_floor d h, nint_eq_floor (d + z) h2]
  rw [show d + (z : ℚ) + 1 / 2 = d + 1 / 2 + (z : ℚ) by ring, Int.floor_add_int]

/-- The wrapped difference lies in `[-1/2, 1/2)` for a non-negative difference
and in `(-1/2, 1/2]` for a negative one. -/
theorem wrap_range (d : ℚ) :
    (0 ≤ d ∧ -1 / 2 ≤ d - (nint d : ℚ) ∧ d - (nint d : ℚ) < 1 / 2) ∨
    (d < 0 ∧ -1 / 2 < d - (nint d : ℚ) ∧ d - (nint d : ℚ) ≤ 1 / 2) := by
  by_cases hd : 0 ≤ d
  · left
    rw [nint_of_nonneg d hd]
    have h1 := Int.floor_le (d + 1 / 2)
    have h2 := Int.lt_floor_add_one (d + 1 / 2)
    exact ⟨hd, by linarith, by linarith⟩
  · right
    have hd2 : d < 0 := lt_of_not_le hd
    rw [nint_of_neg d hd2]
    have h1 := Int.floor_le (1 / 2 - d)
    have h2 := Int.lt_floor_add_one (1 / 2 - d)
    push_cast
    exact ⟨hd2, by linarith, by linarith⟩

/-- C18 (as amended). Range of the minimum-image wraparound: the wrapped
value `d − nint(d)` that `compute_permutation` feeds into the lattice
transform lies in the closed interval `[−1/2, 1/2]`; more precisely in
`[−1/2, 1/2)` when `d ≥ 0` and in `(−1/2, 1/2]` when `d < 0`. -/
theorem wrapped_diff_range (p r : Fin 3 → ℚ) (k : Fin 3) :
    (-1 / 2 ≤ wrapped_diff p r k ∧ wrapped_diff p r k ≤ 1 / 2) ∧
    ((0 ≤ p k - r k ∧ wrapped_diff p r k < 1 / 2) ∨
      (p k - r k < 0 ∧ -1 / 2 < wrapped_diff p r k)) := by
  unfold wrapped_diff
  rcases wrap_range (p k - r k) with ⟨h1, h2, h3⟩ | ⟨h1, h2, h3⟩
  · exact ⟨⟨h2, le_of_lt h3⟩, Or.inl ⟨h1, h3⟩⟩
  · exact ⟨⟨le_of_lt h2, h3⟩, Or.inr ⟨h1, h2⟩⟩

/-- Counterexample to C18 as stated: for the difference `d = −1/2`,
`nint(d) = −1` and the wrapped value is `+1/2`, outside `[−1/2, 1/2)`. -/
theorem wrapped_diff_range_counterexample :
    nint (-1 / 2) = -1 ∧
    wrapped_diff (fun _ => -1 / 2) (fun _ => 0) 0 = 1 / 2 ∧
    ¬ (-1 / 2 ≤ wrapped_diff (fun _ => -1 / 2) (fun _ => 0) 0 ∧
      wrapped_diff (fun _ => -1 / 2) (fun _ => 0) 0 < 1 / 2) := by
  have h1 : nint (-1 / 2) = -1 := by norm_num [nint, truncToInt]
  have h2 : wrapped_diff (fun _ => -1 / 2) (fun _ => 0) 0 = 1 / 2 := by
    unfold wrapped_diff
    rw [sub_zero, h1]
    norm_num
  refine ⟨h1, h2, ?_⟩
  rw [h2]
  norm_num

/-- The run of the matcher on a single atom. -/
theorem compute_permutation_with_one (close : ℕ → ℕ → Bool) (rot_atom : Mem ℤ) :
    compute_permutation_with close rot_atom 1 =
      if close 0 0 = true then some (1, (rot_atom.write 0 (-1)).write 0 0)
      else some (0, rot_atom.write 0 (-1)) := by
  by_cases h : close 0 0 = true
  · simp [compute_permutation_with, match_loop, advance_search_start, scan_slots,
      clear_rot_atom, final_status, List.range_succ, h, Mem.read_write]
  · have h2 : close 0 0 = false := by simpa using h
    simp [compute_permutation_with, match_loop, advance_search_start, scan_slots,
      clear_rot_atom, final_status, List.range_succ, h2, Mem.read_write]

theorem quarter_not_close :
    within_symprec unit_lattice origin_pos quarter_pos scenario_symprec 0 0 = false := by
  simp [within_symprec, sqrt_lt, distance2, wrapped_diff, unit_lattice, origin_pos,
    quarter_pos, scenario_symprec, Fin.sum_univ_three, nint_zero]
  norm_num [nint, truncToInt]

theorem quarter_run :
    compute_permutation seven_rot_atom unit_lattice origin_pos quarter_pos 1
        scenario_symprec = some (0, seven_rot_atom.write 0 (-1)) := by
  unfold compute_permutation
  rw [compute_permutation_with_one, quarter_not_close]
  simp

/-- C17 (as amended). What a failing call leaves behind: when
`compute_permutation` returns 0, the caller's array has been overwritten
below `num_pos`: every entry `j < num_pos` is either `-1` or a reference
index in `[0, num_pos)` within tolerance of slot `j`, at least one entry is
`-1`, and the entries from `num_pos` on are as before the call. -/
theorem compute_permutation_failure_state (rot_atom : Mem ℤ) (lat : Fin 3 → Fin 3 → ℚ)
    (pos rot_pos : ℕ → Fin 3 → ℚ) (num_pos : ℕ) (symprec : ℚ) (ra : Mem ℤ)
    (h : compute_permutation rot_atom lat pos rot_pos num_pos symprec = some (0, ra)) :
    (∀ j, j < num_pos → ra.read j = -1 ∨
      (0 ≤ ra.read j ∧ ra.read j < (num_pos : ℤ) ∧
        cart_dist_lt lat (pos (ra.read j).toNat) (rot_pos j) symprec)) ∧
    (∃ j, j < num_pos ∧ ra.read j = -1) ∧
    (∀ x, num_pos ≤ x → ra.read x = rot_atom.read x) := by
  obtain ⟨ra2, s, hloop, hinv⟩ :=
    match_loop_inv (within_symprec lat pos rot_pos symprec) rot_atom num_pos num_pos
      (le_refl _)
  unfold compute_permutation at h
  rw [compute_permutation_with_eq _ _ _ _ _ hloop] at h
  have h2 := Prod.mk.inj (Option.some.inj h)
  have hra : ra2 = ra := h2.2
  subst hra
  refine ⟨?_, ?_, hinv.frame⟩
  · intro j hj
    rcases hinv.entries j hj with hneg | ⟨h0, hlt, hc⟩
    · exact Or.inl hneg
    · exact Or.inr ⟨h0, hlt, (within_symprec_iff _ _ _ _ _ _).mp hc⟩
  · have hnot : ¬ ∀ j, j < num_pos → 0 ≤ ra2.read j := by
      intro hall
      have := (final_status_eq_one_iff ra2 num_pos).mpr hall
      rw [h2.1] at this
      exact absurd this (by decide)
    push_neg at hnot
    obtain ⟨j, hj, hneg⟩ := hnot
    rcases hinv.entries j hj with h1 | ⟨h0, _, _⟩
    · exact ⟨j, hj, h1⟩
    · omega

/-- Instance of the amended C17: one atom at the origin, one rotated
position a quarter of a cell away, tolerance `1e-5`. -/
theorem compute_permutation_failure_state_witness :
    compute_permutation seven_rot_atom unit_lattice origin_pos quarter_pos 1
        scenario_symprec = some (0, seven_rot_atom.write 0 (-1)) ∧
    ((∀ j, j < 1 → (seven_rot_atom.write 0 (-1)).read j = -1 ∨
      (0 ≤ (seven_rot_atom.write 0 (-1)).read j ∧
        (seven_rot_atom.write 0 (-1)).read j < ((1 : ℕ) : ℤ) ∧
        cart_dist_lt unit_lattice
          (origin_pos ((seven_rot_atom.write 0 (-1)).read j).toNat)
          (quarter_pos j) scenario_symprec)) ∧
    (∃ j, j < 1 ∧ (seven_rot_atom.write 0 (-1)).read j = -1) ∧
    (∀ x, 1 ≤ x → (seven_rot_atom.write 0 (-1)).read x = seven_rot_atom.read x)) :=
  ⟨quarter_run, compute_permutation_failure_state _ _ _ _ _ _ _ quarter_run⟩

/-- Counterexample to C17 as stated: with one atom at the origin and one
rotated position a quarter of a cell away, the call returns 0 and the
caller's entry 0, which held 7 before the call, holds `-1` afterwards. -/
theorem compute_permutation_failure_state_counterexample :
    compute_permutation seven_rot_atom unit_lattice origin_pos quarter_pos 1
        scenario_symprec = some (0, seven_rot_atom.write 0 (-1)) ∧
    (seven_rot_atom.write 0 (-1)).read 0 = -1 ∧
    seven_rot_atom.read 0 = 7 ∧
    (seven_rot_atom.write 0 (-1)).read 0 ≠ seven_rot_atom.read 0 := by
  refine ⟨quarter_run, Mem.read_write_same _ _ _, rfl, ?_⟩
  rw [Mem.read_write_same]
  decide

theorem scan_slots_skip (close : ℕ → ℕ → Bool) (i : ℕ) (ra : Mem ℤ) (k n j : ℕ)
    (h : ∀ x, j ≤ x → x < j + k → 0 ≤ ra.read x) :
    scan_slots close i ra (k + n) j = scan_slots close i ra n (j + k) := by
  induction k generalizing j with
  | zero => simp
  | succ k ih =>
    rw [show k + 1 + n = (k + n) + 1 by omega, scan_slots,
      if_pos (h j (le_refl _) (by omega)), ih (j + 1) (fun x h1 h2 => h x (by omega) (by omega)),
      show j + 1 + k = j + (k + 1) by omega]

/-- The loop with the cursor and the naive loop hold the same array after
every iteration. -/
theorem naive_loop_eq (close : ℕ → ℕ → Bool) (rot_atom : Mem ℤ) (num_pos i : ℕ)
    (hi : i ≤ num_pos) :
    ∃ ra s, match_loop close rot_atom num_pos i = some (ra, s) ∧
      naive_loop close rot_atom num_pos i = ra := by
  induction i with
  | zero => exact ⟨clear_rot_atom rot_atom num_pos, 0, rfl, rfl⟩
  | succ i ih =>
    obtain ⟨ra, s, hloop, hnaive⟩ := ih (by omega)
    obtain ⟨ra2, s2, hloop2, hinv⟩ := match_loop_inv close rot_atom num_pos i (by omega)
    rw [hloop] at hloop2
    have e := Prod.mk.inj (Option.some.inj hloop2)
    have e1 : ra = ra2 := e.1
    have e2 : s = s2 := e.2
    subst e1
    subst e2
    obtain ⟨x, hxN, hxneg⟩ := exists_unassigned ra num_pos (by have := hinv.count_le; omega)
    have hsx : s ≤ x := by
      by_contra hlt
      have := hinv.cursor x (by omega)
      omega
    obtain ⟨s3, hadv⟩ := advance_search_start_some ra (num_pos - s) s x hsx (by omega) hxneg
    obtain ⟨hs1, hs2, hs3, hs4⟩ := advance_search_start_spec ra (num_pos - s) s s3 hadv
    have hbelow : ∀ y, 0 ≤ y → y < 0 + s3 → 0 ≤ ra.read y := by
      intro y _ hy
      by_cases hys : y < s
      · exact hinv.cursor y hys
      · exact hs4 y (by omega) (by omega)
    refine ⟨scan_slots close i ra (num_pos - s3) s3, s3,
      match_loop_succ close rot_atom num_pos i ra s s3 hloop hadv, ?_⟩
    rw [naive_loop, hnaive]
    have := scan_slots_skip close i ra s3 (num_pos - s3) 0 hbelow
    rw [show s3 + (num_pos - s3) = num_pos by omega, Nat.zero_add] at this
    exact this

/-- C19. The cursor optimisation preserves behaviour: `compute_permutation`
returns the same status and the same output array as the naive variant that,
for each reference atom in order, scans the rotated slots from index 0, skips
assigned slots and takes the first slot within tolerance. -/
theorem compute_permutation_eq_naive (rot_atom : Mem ℤ) (lat : Fin 3 → Fin 3 → ℚ)
    (pos rot_pos : ℕ → Fin 3 → ℚ) (num_pos : ℕ) (symprec : ℚ) :
    compute_permutation rot_atom lat pos rot_pos num_pos symprec =
      some (compute_permutation_naive rot_atom lat pos rot_pos num_pos symprec) := by
  obtain ⟨ra, s, hloop, hnaive⟩ :=
    naive_loop_eq (within_symprec lat pos rot_pos symprec) rot_atom num_pos num_pos
      (le_refl _)
  unfold compute_permutation compute_permutation_naive
  rw [compute_permutation_with_eq _ _ _ _ _ hloop, hnaive]

theorem scan_slots_congr (close close2 : ℕ → ℕ → Bool) (i : ℕ) (ra : Mem ℤ) (n j : ℕ)
    (h : ∀ x, j ≤ x → x < j + n → close i x = close2 i x) :
    scan_slots close i ra n j = scan_slots close2 i ra n j := by
  induction n generalizing j with
  | zero => rfl
  | succ n ih =>
    rw [scan_slots, scan_slots, h j (le_refl _) (by omega),
      ih (j + 1) (fun x h1 h2 => h x (by omega) (by omega))]

theorem match_loop_congr (close close2 : ℕ → ℕ → Bool) (rot_atom : Mem ℤ) (num_pos : ℕ)
    (h : ∀ i j, i < num_pos → j < num_pos → close i j = close2 i j) (k : ℕ)
    (hk : k ≤ num_pos) :
    match_loop close rot_atom num_pos k = match_loop close2 rot_atom num_pos k := by
  induction k with
  | zero => rfl
  | succ k ih =>
    rw [match_loop, match_loop, ih (by omega)]
    cases match_loop close2 rot_atom num_pos k with
    | none => rfl
    | some st =>
      obtain ⟨ra, s⟩ := st
      simp only
      cases advance_search_start ra (num_pos - s) s with
      | none => rfl
      | some s2 =>
        simp only
        rw [scan_slots_congr close close2 k ra (num_pos - s2) s2
          (fun x h1 h2 => h k x (by omega) (by omega))]

theorem compute_permutation_with_congr (close close2 : ℕ → ℕ → Bool) (rot_atom : Mem ℤ)
    (num_pos : ℕ)
    (h : ∀ i j, i < num_pos → j < num_pos → close i j = close2 i j) :
    compute_permutation_with close rot_atom num_pos =
      compute_permutation_with close2 rot_atom num_pos := by
  unfold compute_permutation_with
  rw [match_loop_congr close close2 rot_atom num_pos h num_pos (le_refl _)]

/-- An integer shift of the two positions does not change the wrapped
difference on an axis where the shifts agree or the difference is not a
half-integer. -/
theorem wrapped_diff_shift (p r : Fin 3 → ℚ) (m n : Fin 3 → ℤ) (k : Fin 3)
    (h : m k = n k ∨ ∀ z : ℤ, p k - r k ≠ (z : ℚ) + 1 / 2) :
    wrapped_diff (fun k => p k + (m k : ℚ)) (fun k => r k + (n k : ℚ)) k =
      wrapped_diff p r k := by
  unfold wrapped_diff
  rcases h with h | h
  · have e : p k + (m k : ℚ) - (r k + (n k : ℚ)) = p k - r k := by
      rw [h]
      ring
    simp only [e]
  · have e : p k + (m k : ℚ) - (r k + (n k : ℚ)) = p k - r k + ((m k - n k : ℤ) : ℚ) := by
      push_cast
      ring
    simp only [e]
    rw [nint_add_int (p k - r k) (m k - n k) h]
    push_cast
    ring

/-- C20 (as amended). Periodicity of positions: adding integer vectors to
the reference positions (`m i` to `pos[i]`) and to the rotated positions
(`n j` to `rot_pos[j]`) does not change the status or the permutation returned
by `compute_permutation`, provided that for all `i`, `j` and every axis `k` on
which the two shifts differ, the difference `pos[i][k] − rot_pos[j][k]` is not
a half-integer. -/
theorem compute_permutation_periodic (rot_atom : Mem ℤ) (lat : Fin 3 → Fin 3 → ℚ)
    (pos rot_pos : ℕ → Fin 3 → ℚ) (num_pos : ℕ) (symprec : ℚ) (m n : ℕ → Fin 3 → ℤ)
    (h : ∀ i j, i < num_pos → j < num_pos → ∀ k,
      m i k = n j k ∨ ∀ z : ℤ, pos i k - rot_pos j k ≠ (z : ℚ) + 1 / 2) :
    compute_permutation rot_atom lat (fun i k => pos i k + (m i k : ℚ))
        (fun j k => rot_pos j k + (n j k : ℚ)) num_pos symprec =
      compute_permutation rot_atom lat pos rot_pos num_pos symprec := by
  unfold compute_permutation
  apply compute_permutation_with_congr
  intro i j hi hj
  unfold within_symprec
  have e : wrapped_diff (fun k => pos i k + (m i k : ℚ)) (fun k => rot_pos j k + (n j k : ℚ)) =
      wrapped_diff (pos i) (rot_pos j) := by
    funext k
    exact wrapped_diff_shift (pos i) (rot_pos j) (m i) (n j) k (h i j hi hj k)
  rw [e]

theorem quarter_not_half (z : ℤ) : (-(1 : ℚ) / 4) ≠ (z : ℚ) + 1 / 2 := by
  intro h
  have h2 : ((4 * z : ℤ) : ℚ) = ((-3 : ℤ) : ℚ) := by
    push_cast
    linarith
  have h3 : 4 * z = -3 := by exact_mod_cast h2
  omega

/-- Instance of the amended C20: one atom at the origin, one rotated
position `(1/4, 0, 0)` shifted by the integer vector `(1, 0, 0)`. -/
theorem compute_permutation_periodic_witness :
    (∀ i j, i < 1 → j < 1 → ∀ k,
      (fun (_ : ℕ) (_ : Fin 3) => (0 : ℤ)) i k = (fun (_ : ℕ) => shift_x) j k ∨
        ∀ z : ℤ, origin_pos i k - quarter_pos j k ≠ (z : ℚ) + 1 / 2) ∧
    compute_permutation zero_rot_atom unit_lattice
        (fun i k => origin_pos i k + (((fun (_ : ℕ) (_ : Fin 3) => (0 : ℤ)) i k : ℤ) : ℚ))
        (fun j k => quarter_pos j k + (((fun (_ : ℕ) => shift_x) j k : ℤ) : ℚ)) 1
        scenario_symprec =
      compute_permutation zero_rot_atom unit_lattice origin_pos quarter_pos 1
        scenario_symprec :=
  have hyp : ∀ i j, i < 1 → j < 1 → ∀ k,
      (fun (_ : ℕ) (_ : Fin 3) => (0 : ℤ)) i k = (fun (_ : ℕ) => shift_x) j k ∨
        ∀ z : ℤ, origin_pos i k - quarter_pos j k ≠ (z : ℚ) + 1 / 2 := by
    intro i j _ _ k
    fin_cases k
    · right
      intro z
      have := quarter_not_half z
      simpa [origin_pos, quarter_pos, neg_div] using this
    · left
      simp [shift_x]
    · left
      simp [shift_x]
  ⟨hyp, compute_permutation_periodic _ _ _ _ _ _ _ _ hyp⟩

theorem sheared_half_not_close :
    within_symprec sheared_lattice half_pos origin_pos 1 0 0 = false := by
  simp [within_symprec, sqrt_lt, distance2, wrapped_diff, sheared_lattice, half_pos,
    origin_pos, Fin.sum_univ_three, nint_zero]
  norm_num [nint, truncToInt, Matrix.vecHead, Matrix.vecTail]

theorem sheared_half_shift_close :
    within_symprec sheared_lattice half_pos
      (fun j k => origin_pos j k + ((shift_x k : ℤ) : ℚ)) 1 0 0 = true := by
  simp [within_symprec, sqrt_lt, distance2, wrapped_diff, sheared_lattice, half_pos,
    origin_pos, shift_x, Fin.sum_univ_three, nint_zero]
  norm_num [nint, truncToInt, Matrix.vecHead, Matrix.vecTail]

/-- Counterexample to C20 as stated: in the sheared lattice with tolerance 1,
the reference position `(1/2, 1/2, 0)` and the rotated position `(0, 0, 0)` do
not match (wrapped difference `(-1/2, -1/2, 0)`, squared length `5/4`) and the
call returns 0; after adding the integer vector `(1, 0, 0)` to the rotated
position the wrapped difference is `(1/2, -1/2, 0)`, of squared length `1/4`,
and the call returns 1. -/
theorem compute_permutation_periodic_counterexample :
    compute_permutation zero_rot_atom sheared_lattice half_pos origin_pos 1 1 =
      some (0, zero_rot_atom.write 0 (-1)) ∧
    compute_permutation zero_rot_atom sheared_lattice half_pos
        (fun j k => origin_pos j k + ((shift_x k : ℤ) : ℚ)) 1 1 =
      some (1, (zero_rot_atom.write 0 (-1)).write 0 0) := by
  constructor
  · unfold compute_permutation
    rw [compute_permutation_with_one, sheared_half_not_close]
    simp
  · unfold compute_permutation
    rw [compute_permutation_with_one, sheared_half_shift_close]
    simp


/-- An array whose first `n` entries are distinct values in `[0, n)` holds every
such value in exactly one of these entries. -/
theorem entries_bijective (ra : Mem ℤ) (n : ℕ)
    (hrange : ∀ j, j < n → 0 ≤ ra.read j ∧ ra.read j < (n : ℤ))
    (hinj : ∀ j j2, j < n → j2 < n → ra.read j = ra.read j2 → j = j2) (i : ℕ) (hi : i < n) :
    ∃ j, (j < n ∧ ra.read j = (i : ℤ)) ∧ ∀ j2, j2 < n ∧ ra.read j2 = (i : ℤ) → j2 = j := by
  have hlt : ∀ j : Fin n, (ra.read j.val).toNat < n := by
    intro j
    have h := hrange j.val j.isLt
    omega
  have hf : Function.Injective (fun j : Fin n => (⟨(ra.read j.val).toNat, hlt j⟩ : Fin n)) := by
    intro j j2 h
    have h1 : (ra.read j.val).toNat = (ra.read j2.val).toNat := congrArg Fin.val h
    have h2 := hrange j.val j.isLt
    have h3 := hrange j2.val j2.isLt
    have h4 : ra.read j.val = ra.read j2.val := by omega
    exact Fin.ext (hinj j.val j2.val j.isLt j2.isLt h4)
  obtain ⟨j, hj⟩ := (Finite.injective_iff_surjective.mp hf) ⟨i, hi⟩
  have h1 : (ra.read j.val).toNat = i := congrArg Fin.val hj
  have h2 := hrange j.val j.isLt
  have h3 : ra.read j.val = (i : ℤ) := by omega
  refine ⟨j.val, ⟨j.isLt, h3⟩, ?_⟩
  rintro j2 ⟨hj2, hr⟩
  exact hinj j2 j.val hj2 j.isLt (hr.trans h3.symm)

/-- C23. The output of the matcher is a bijection: when `compute_permutation`
returns 1, the entries `rot_atom[0..num_pos)` are a permutation of
`0..num_pos-1`: every entry is a reference index below `num_pos`, and every
reference index `i < num_pos` occurs in exactly one output slot. -/
theorem compute_permutation_bijection (rot_atom : Mem ℤ) (lat : Fin 3 → Fin 3 → ℚ)
    (pos rot_pos : ℕ → Fin 3 → ℚ) (num_pos : ℕ) (symprec : ℚ) (ra : Mem ℤ)
    (h : compute_permutation rot_atom lat pos rot_pos num_pos symprec = some (1, ra)) :
    (∀ j, j < num_pos → 0 ≤ ra.read j ∧ ra.read j < (num_pos : ℤ)) ∧
    ∀ i, i < num_pos →
      ∃ j, (j < num_pos ∧ ra.read j = (i : ℤ)) ∧
        ∀ j2, j2 < num_pos ∧ ra.read j2 = (i : ℤ) → j2 = j := by
  obtain ⟨ra2, s, hloop, hinv⟩ :=
    match_loop_inv (within_symprec lat pos rot_pos symprec) rot_atom num_pos num_pos
      (le_refl _)
  unfold compute_permutation at h
  rw [compute_permutation_with_eq _ _ _ _ _ hloop] at h
  have h2 := Prod.mk.inj (Option.some.inj h)
  have hra : ra2 = ra := h2.2
  subst hra
  have hall := (final_status_eq_one_iff ra2 num_pos).mp h2.1
  have hrange : ∀ j, j < num_pos → 0 ≤ ra2.read j ∧ ra2.read j < (num_pos : ℤ) := by
    intro j hj
    rcases hinv.entries j hj with hneg | ⟨h0, hlt, _⟩
    · have := hall j hj
      omega
    · exact ⟨h0, hlt⟩
  exact ⟨hrange, fun i hi => entries_bijective ra2 num_pos hrange
    (fun j j2 hj hj2 he => hinv.inj j j2 hj hj2 (hall j hj) he) i hi⟩

/-- Instance of C23 on the two-atom scenario with swapped rotated positions:
the output `[1, 0]` holds each of `0` and `1` in exactly one slot. -/
theorem compute_permutation_bijection_witness :
    compute_permutation zero_rot_atom unit_lattice scenario_pos scenario_rot_pos 2
        scenario_symprec =
      some (1, (((zero_rot_atom.write 0 (-1)).write 1 (-1)).write 1 0).write 0 1) ∧
    ((∀ j, j < 2 →
      0 ≤ ((((zero_rot_atom.write 0 (-1)).write 1 (-1)).write 1 0).write 0 1).read j ∧
        ((((zero_rot_atom.write 0 (-1)).write 1 (-1)).write 1 0).write 0 1).read j <
          ((2 : ℕ) : ℤ)) ∧
    ∀ i : ℕ, i < 2 →
      ∃ j, (j < 2 ∧
          ((((zero_rot_atom.write 0 (-1)).write 1 (-1)).write 1 0).write 0 1).read j =
            (i : ℤ)) ∧
        ∀ j2, j2 < 2 ∧
          ((((zero_rot_atom.write 0 (-1)).write 1 (-1)).write 1 0).write 0 1).read j2 =
            (i : ℤ) → j2 = j) :=
  ⟨scenario_swap_run,
    compute_permutation_bijection _ _ _ _ _ _ _ scenario_swap_run⟩
/-! ## Shortest-image selector -/

theorem min_fold_spec (lengths : ℕ → ℚ) (l : List ℕ) (init : ℚ) :
    (List.foldl (fun minimum j => if lengths j < minimum then lengths j else minimum)
        init l ≤ init) ∧
    (∀ j ∈ l, List.foldl
        (fun minimum j => if lengths j < minimum then lengths j else minimum)
        init l ≤ lengths j) ∧
    (List.foldl (fun minimum j => if lengths j < minimum then lengths j else minimum)
        init l = init ∨
      ∃ j ∈ l, List.foldl
        (fun minimum j => if lengths j < minimum then lengths j else minimum)
        init l = lengths j) := by
  induction l generalizing init with
  | nil => simp
  | cons a l ih =>
    rw [List.foldl_cons]
    obtain ⟨h1, h2, h3⟩ := ih (if lengths a < init then lengths a else init)
    by_cases ha : lengths a < init
    · rw [if_pos ha] at h1 h2 h3 ⊢
      refine ⟨by linarith, ?_, ?_⟩
      · intro j hj
        rcases List.mem_cons.mp hj with rfl | hj
        · exact h1
        · exact h2 j hj
      · right
        rcases h3 with h | ⟨j, hj, h⟩
        · exact ⟨a, List.mem_cons_self _ _, h⟩
        · exact ⟨j, List.mem_cons_of_mem _ hj, h⟩
    · rw [if_neg ha] at h1 h2 h3 ⊢
      refine ⟨h1, ?_, ?_⟩
      · intro j hj
        rcases List.mem_cons.mp hj with rfl | hj
        · linarith
        · exact h2 j hj
      · rcases h3 with h | ⟨j, hj, h⟩
        · exact Or.inl h
        · exact Or.inr ⟨j, List.mem_cons_of_mem _ hj, h⟩

/-- For finite lengths the computed `minimum` is the minimum of the 27
lengths. -/
theorem minimum_length_eq (lengths : ℕ → ℚ) (m : ℚ)
    (hfin : ∀ j, j < 27 → lengths j ≤ DBL_MAX) (hm : is_min_length lengths m) :
    minimum_length lengths = m := by
  obtain ⟨⟨j0, hj0, hj0m⟩, hmin⟩ := hm
  obtain ⟨h1, h2, h3⟩ := min_fold_spec lengths (List.range 27) DBL_MAX
  have hle : minimum_length lengths ≤ m := by
    rw [← hj0m]
    exact h2 j0 (List.mem_range.mpr hj0)
  have hge : m ≤ minimum_length lengths := by
    rcases h3 with h | ⟨j, hj, h⟩
    · unfold minimum_length
      rw [h, ← hj0m]
      exact hfin j0 hj0
    · unfold minimum_length
      rw [h]
      exact hmin j (List.mem_range.mp hj)
  exact le_antisymm hle hge

theorem copy_fold_spec (vectors : ℕ → Fin 3 → ℚ) (lengths : ℕ → ℚ) (minimum symprec : ℚ)
    (l : List ℕ) (out : Mem (Fin 3 → ℚ)) (c : ℕ) :
    (List.foldl (copy_step vectors lengths minimum symprec) (out, c) l).2 =
      c + (l.filter (fun j => decide (lengths j - minimum ≤ symprec))).length ∧
    (∀ x, x < c →
      (List.foldl (copy_step vectors lengths minimum symprec) (out, c) l).1.read x =
        out.read x) ∧
    (List.range (l.filter (fun j => decide (lengths j - minimum ≤ symprec))).length).map
        (fun t => (List.foldl (copy_step vectors lengths minimum symprec) (out, c) l).1.read
          (c + t)) =
      (l.filter (fun j => decide (lengths j - minimum ≤ symprec))).map vectors := by
  induction l generalizing out c with
  | nil => simp
  | cons a l ih =>
    rw [List.foldl_cons]
    by_cases ha : lengths a - minimum ≤ symprec
    · have hstep : copy_step vectors lengths minimum symprec (out, c) a =
          (out.write c (vectors a), c + 1) := by
        simp [copy_step, ha]
      have hfil : (a :: l).filter (fun j => decide (lengths j - minimum ≤ symprec)) =
          a :: l.filter (fun j => decide (lengths j - minimum ≤ symprec)) :=
        List.filter_cons_of_pos (decide_eq_true ha)
      rw [hstep, hfil]
      obtain ⟨h1, h2, h3⟩ := ih (out.write c (vectors a)) (c + 1)
      refine ⟨?_, ?_, ?_⟩
      · rw [h1, List.length_cons]
        omega
      · intro x hx
        rw [h2 x (by omega), Mem.read_write_ne (by omega)]
      · rw [List.length_cons, List.range_succ_eq_map, List.map_cons, List.map_cons,
          List.map_map]
        congr 1
        · rw [show c + 0 = c from rfl, h2 c (by omega), Mem.read_write_same]
        · rw [← h3]
          apply List.map_congr_left
          intro t _
          simp only [Function.comp_apply]
          rw [show c + Nat.succ t = c + 1 + t by omega]
    · have hstep : copy_step vectors lengths minimum symprec (out, c) a = (out, c) := by
        simp [copy_step, ha]
      have hfil : (a :: l).filter (fun j => decide (lengths j - minimum ≤ symprec)) =
          l.filter (fun j => decide (lengths j - minimum ≤ symprec)) :=
        List.filter_cons_of_neg (by simpa using ha)
      rw [hstep, hfil]
      exact ih out c

/-- The loop over the lists writes entry `i` of both outputs from the inputs
of list `i` alone. -/
theorem gsv_fold_apply (vector_lists : ℕ → ℕ → Fin 3 → ℚ) (length_lists : ℕ → ℕ → ℚ)
    (symprec : ℚ) (n : ℕ) (st : Mem (Mem (Fin 3 → ℚ)) × Mem ℤ) (i : ℕ) :
    ((List.range n).foldl (gsv_step vector_lists length_lists symprec) st).1.read i =
      (if i < n then
        (copy_within (vector_lists i) (length_lists i)
          (minimum_length (length_lists i)) symprec (st.1.read i)).1
      else st.1.read i) ∧
    ((List.range n).foldl (gsv_step vector_lists length_lists symprec) st).2.read i =
      (if i < n then
        ((copy_within (vector_lists i) (length_lists i)
          (minimum_length (length_lists i)) symprec (st.1.read i)).2 : ℤ)
      else st.2.read i) := by
  induction n with
  | zero => simp
  | succ n ih =>
    rw [List.range_succ, List.foldl_append, List.foldl_cons, List.foldl_nil]
    obtain ⟨ih1, ih2⟩ := ih
    by_cases hin : i = n
    · subst hin
      rw [if_neg (by omega)] at ih1
      simp only [gsv_step, Mem.read_write_same, ih1]
      simp
    · simp only [gsv_step, Mem.read_write_ne hin, ih1, ih2]
      by_cases hlt : i < n
      · simp [hlt, Nat.lt_succ_of_lt hlt]
      · have : ¬ i < n + 1 := by omega
        simp [hlt, this]

/-- The outputs of the selector for list `i`, given the minimum `m` of its
finite lengths. -/
theorem gsv_output (shortest_vectors : Mem (Mem (Fin 3 → ℚ))) (multiplicity : Mem ℤ)
    (vector_lists : ℕ → ℕ → Fin 3 → ℚ) (length_lists : ℕ → ℕ → ℚ) (num_lists : ℕ)
    (symprec : ℚ) (i : ℕ) (m : ℚ) (hi : i < num_lists)
    (hfin : ∀ j, j < 27 → length_lists i j ≤ DBL_MAX)
    (hm : is_min_length (length_lists i) m) :
    (gsv_copy_smallest_vectors shortest_vectors multiplicity vector_lists length_lists
        num_lists symprec).2.read i = ((selected (length_lists i) m symprec).length : ℤ) ∧
    (List.range (selected (length_lists i) m symprec).length).map
        ((gsv_copy_smallest_vectors shortest_vectors multiplicity vector_lists
          length_lists num_lists symprec).1.read i).read =
      (selected (length_lists i) m symprec).map (vector_lists i) := by
  obtain ⟨h1, h2⟩ := gsv_fold_apply vector_lists length_lists symprec num_lists
    (shortest_vectors, multiplicity) i
  rw [if_pos hi] at h1 h2
  obtain ⟨c1, _, c3⟩ := copy_fold_spec (vector_lists i) (length_lists i) m symprec
    (List.range 27) (shortest_vectors.read i) 0
  unfold gsv_copy_smallest_vectors
  rw [h1, h2, minimum_length_eq (length_lists i) m hfin hm]
  unfold copy_within selected
  refine ⟨?_, ?_⟩
  · rw [c1, Nat.zero_add]
  · rw [← c3]
    apply List.map_congr_left
    intro t _
    rw [Nat.zero_add]

/-- C5. Output of the shortest-image selector: for a list `i < num_lists`
whose 27 lengths are all below `DBL_MAX`, with `m` their minimum,
`multiplicity[i]` is the number of `j < 27` with
`length_lists[i][j] − m ≤ symprec`, and the first `multiplicity[i]` entries of
`shortest_vectors[i]` are exactly those candidate vectors in increasing order
of `j`. -/
theorem gsv_selects (shortest_vectors : Mem (Mem (Fin 3 → ℚ))) (multiplicity : Mem ℤ)
    (vector_lists : ℕ → ℕ → Fin 3 → ℚ) (length_lists : ℕ → ℕ → ℚ) (num_lists : ℕ)
    (symprec : ℚ) (i : ℕ) (m : ℚ) (hi : i < num_lists)
    (hfin : ∀ j, j < 27 → length_lists i j < DBL_MAX)
    (hm : is_min_length (length_lists i) m) :
    (gsv_copy_smallest_vectors shortest_vectors multiplicity vector_lists length_lists
        num_lists symprec).2.read i =
      (((List.range 27).filter
        (fun j => decide (length_lists i j - m ≤ symprec))).length : ℤ) ∧
    (List.range ((List.range 27).filter
        (fun j => decide (length_lists i j - m ≤ symprec))).length).map
        ((gsv_copy_smallest_vectors shortest_vectors multiplicity vector_lists
          length_lists num_lists symprec).1.read i).read =
      ((List.range 27).filter
        (fun j => decide (length_lists i j - m ≤ symprec))).map (vector_lists i) :=
  gsv_output shortest_vectors multiplicity vector_lists length_lists num_lists symprec i m
    hi (fun j hj => le_of_lt (hfin j hj)) hm

theorem scenario_lengths_lt (i j : ℕ) : scenario_lengths i j < DBL_MAX := by
  unfold scenario_lengths DBL_MAX
  split_ifs <;> norm_num

theorem scenario_lengths_min (i : ℕ) : is_min_length (scenario_lengths i) 1 := by
  refine ⟨⟨3, by norm_num, by simp [scenario_lengths]⟩, ?_⟩
  intro j _
  unfold scenario_lengths
  split_ifs <;> norm_num

theorem scenario_selected :
    (List.range 27).filter
      (fun j => decide (scenario_lengths 0 j - 1 ≤ 1 / 1000)) = [3, 20] := by
  norm_num [scenario_lengths, List.range_succ, List.filter]

/-- Instance of C5: two lengths 1, twenty-five lengths 6/5 and tolerance
`1e-3` give multiplicity 2 and exactly the candidates 3 and 20. -/
theorem gsv_selects_witness :
    (0 < 1 ∧ (∀ j, j < 27 → scenario_lengths 0 j < DBL_MAX) ∧
      is_min_length (scenario_lengths 0) 1) ∧
    (gsv_copy_smallest_vectors zero_shortest_vectors zero_multiplicity scenario_vectors
        scenario_lengths 1 (1 / 1000)).2.read 0 = 2 ∧
    [0, 1].map ((gsv_copy_smallest_vectors zero_shortest_vectors zero_multiplicity
        scenario_vectors scenario_lengths 1 (1 / 1000)).1.read 0).read =
      [scenario_vectors 0 3, scenario_vectors 0 20] := by
  have h := gsv_selects zero_shortest_vectors zero_multiplicity scenario_vectors scenario_lengths 1
    (1 / 1000) 0 1 (by norm_num) (fun j _ => scenario_lengths_lt 0 j)
    (scenario_lengths_min 0)
  rw [scenario_selected] at h
  exact ⟨⟨by norm_num, fun j _ => scenario_lengths_lt 0 j, scenario_lengths_min 0⟩, h⟩

/-- For finite lengths the computed `minimum` is attained by a candidate that
is minimal among the 27. -/
theorem minimum_length_attained (lengths : ℕ → ℚ)
    (hfin : ∀ j, j < 27 → lengths j ≤ DBL_MAX) :
    ∃ jmin, jmin < 27 ∧ (∀ j, j < 27 → lengths jmin ≤ lengths j) ∧
      is_min_length lengths (lengths jmin) := by
  obtain ⟨_, h2, h3⟩ := min_fold_spec lengths (List.range 27) DBL_MAX
  rcases h3 with h | ⟨j, hj, h⟩
  · have hall : ∀ j, j < 27 → lengths j = DBL_MAX := by
      intro j hj
      have := h2 j (List.mem_range.mpr hj)
      rw [h] at this
      exact le_antisymm (hfin j hj) this
    have hmin : ∀ j, j < 27 → lengths 0 ≤ lengths j := by
      intro j hj
      rw [hall 0 (by norm_num), hall j hj]
    exact ⟨0, by norm_num, hmin, ⟨0, by norm_num, rfl⟩, hmin⟩
  · have hj27 : j < 27 := List.mem_range.mp hj
    have hmin : ∀ j2, j2 < 27 → lengths j ≤ lengths j2 := by
      intro j2 hj2
      rw [← h]
      exact h2 j2 (List.mem_range.mpr hj2)
    exact ⟨j, hj27, hmin, ⟨j, hj27, rfl⟩, hmin⟩

/-- C6. Multiplicity bound of the shortest-image selector: for a list
`i < num_lists` of 27 finite lengths and a tolerance `symprec ≥ 0`, the
multiplicity written satisfies `1 ≤ multiplicity[i] ≤ 27`, a candidate `jmin`
attaining the minimum length is among the selected candidates, and every
selected candidate has length at most the minimum plus `symprec`. The
selected candidates are the list whose length is `multiplicity[i]` and whose
vectors are the first `multiplicity[i]` entries of `shortest_vectors[i]`. -/
theorem gsv_multiplicity_bound (shortest_vectors : Mem (Mem (Fin 3 → ℚ)))
    (multiplicity : Mem ℤ) (vector_lists : ℕ → ℕ → Fin 3 → ℚ)
    (length_lists : ℕ → ℕ → ℚ) (num_lists : ℕ) (symprec : ℚ) (i : ℕ)
    (hi : i < num_lists) (hs : 0 ≤ symprec)
    (hfin : ∀ j, j < 27 → length_lists i j ≤ DBL_MAX) :
    ∃ jmin, jmin < 27 ∧ (∀ j, j < 27 → length_lists i jmin ≤ length_lists i j) ∧
      (gsv_copy_smallest_vectors shortest_vectors multiplicity vector_lists length_lists
        num_lists symprec).2.read i =
        ((selected (length_lists i) (length_lists i jmin) symprec).length : ℤ) ∧
      (List.range (selected (length_lists i) (length_lists i jmin) symprec).length).map
        ((gsv_copy_smallest_vectors shortest_vectors multiplicity vector_lists
          length_lists num_lists symprec).1.read i).read =
        (selected (length_lists i) (length_lists i jmin) symprec).map (vector_lists i) ∧
      1 ≤ (gsv_copy_smallest_vectors shortest_vectors multiplicity vector_lists
        length_lists num_lists symprec).2.read i ∧
      (gsv_copy_smallest_vectors shortest_vectors multiplicity vector_lists length_lists
        num_lists symprec).2.read i ≤ 27 ∧
      jmin ∈ selected (length_lists i) (length_lists i jmin) symprec ∧
      ∀ j ∈ selected (length_lists i) (length_lists i jmin) symprec,
        j < 27 ∧ length_lists i j ≤ length_lists i jmin + symprec := by
  obtain ⟨jmin, hj, hmin, hm⟩ := minimum_length_attained (length_lists i) hfin
  obtain ⟨h1, h2⟩ := gsv_output shortest_vectors multiplicity vector_lists length_lists
    num_lists symprec i (length_lists i jmin) hi hfin hm
  have hmem : jmin ∈ selected (length_lists i) (length_lists i jmin) symprec := by
    unfold selected
    rw [List.mem_filter]
    refine ⟨List.mem_range.mpr hj, ?_⟩
    rw [decide_eq_true_eq, sub_self]
    exact hs
  have hpos : 0 < (selected (length_lists i) (length_lists i jmin) symprec).length :=
    List.length_pos_of_mem hmem
  have hle : (selected (length_lists i) (length_lists i jmin) symprec).length ≤ 27 := by
    unfold selected
    have := List.length_filter_le
      (fun j => decide (length_lists i j - length_lists i jmin ≤ symprec)) (List.range 27)
    rw [List.length_range] at this
    exact this
  refine ⟨jmin, hj, hmin, h1, h2, ?_, ?_, hmem, ?_⟩
  · rw [h1]
    exact_mod_cast hpos
  · rw [h1]
    exact_mod_cast hle
  · intro j hjs
    unfold selected at hjs
    rw [List.mem_filter, decide_eq_true_eq] at hjs
    exact ⟨List.mem_range.mp hjs.1, by linarith [hjs.2]⟩

/-- Instance of C6 on the selector scenario with tolerance `1e-3`. -/
theorem gsv_multiplicity_bound_witness :
    (0 < 1 ∧ (0 : ℚ) ≤ 1 / 1000 ∧ ∀ j, j < 27 → scenario_lengths 0 j ≤ DBL_MAX) ∧
    ∃ jmin, jmin < 27 ∧
      (∀ j, j < 27 → scenario_lengths 0 jmin ≤ scenario_lengths 0 j) ∧
      (gsv_copy_smallest_vectors zero_shortest_vectors zero_multiplicity scenario_vectors
        scenario_lengths 1 (1 / 1000)).2.read 0 =
        ((selected (scenario_lengths 0) (scenario_lengths 0 jmin) (1 / 1000)).length : ℤ) ∧
      (List.range
        (selected (scenario_lengths 0) (scenario_lengths 0 jmin) (1 / 1000)).length).map
        ((gsv_copy_smallest_vectors zero_shortest_vectors zero_multiplicity scenario_vectors
          scenario_lengths 1 (1 / 1000)).1.read 0).read =
        (selected (scenario_lengths 0) (scenario_lengths 0 jmin) (1 / 1000)).map
          (scenario_vectors 0) ∧
      1 ≤ (gsv_copy_smallest_vectors zero_shortest_vectors zero_multiplicity scenario_vectors
        scenario_lengths 1 (1 / 1000)).2.read 0 ∧
      (gsv_copy_smallest_vectors zero_shortest_vectors zero_multiplicity scenario_vectors
        scenario_lengths 1 (1 / 1000)).2.read 0 ≤ 27 ∧
      jmin ∈ selected (scenario_lengths 0) (scenario_lengths 0 jmin) (1 / 1000) ∧
      ∀ j ∈ selected (scenario_lengths 0) (scenario_lengths 0 jmin) (1 / 1000),
        j < 27 ∧ scenario_lengths 0 j ≤ scenario_lengths 0 jmin + 1 / 1000 :=
  ⟨⟨by norm_num, by norm_num, fun j _ => le_of_lt (scenario_lengths_lt 0 j)⟩,
    gsv_multiplicity_bound zero_shortest_vectors zero_multiplicity scenario_vectors scenario_lengths
      1 (1 / 1000) 0 (by norm_num) (by norm_num)
      (fun j _ => le_of_lt (scenario_lengths_lt 0 j))⟩

/-! ## Symmetry distributor -/

theorem finRange_three : List.finRange 3 = [0, 1, 2] := rfl

theorem row_index_inj (n t d k p : ℕ) (hk : k < n) (hp : p < n)
    (h : t * n + k = d * n + p) : t = d ∧ k = p := by
  have key : ∀ a b x y : ℕ, x < n → y < n → a * n + x = b * n + y → ¬ a < b := by
    intro a b x y hx hy hxy hab
    have h1 : (a + 1) * n ≤ b * n := Nat.mul_le_mul_right n hab
    rw [Nat.add_mul, Nat.one_mul] at h1
    omega
  have h1 := key t d k p hk hp h
  have h2 := key d t p k hp hk h.symm
  have htd : t = d := by omega
  subst htd
  exact ⟨rfl, by omega⟩

theorem foldl_read_frame {α ι : Type} (G : ι → Mem α → Mem α) (x : ℕ)
    (h : ∀ e f, (G e f).read x = f.read x) (l : List ι) (f : Mem α) :
    (l.foldl (fun f e => G e f) f).read x = f.read x := by
  induction l generalizing f with
  | nil => rfl
  | cons e l ih => rw [List.foldl_cons, ih, h]

/-- A fold of steps that each rewrite block `t` from the blocks `t` and `d`,
`d ≠ t`, rewrites block `t` by the fold of the block-level steps. -/
theorem foldl_read_block {α ι : Type} (t d : ℕ) (hne : d ≠ t) (G : ι → Mem α → Mem α)
    (T : ι → α → α → α)
    (h : ∀ e f x, (G e f).read x = if x = t then T e (f.read d) (f.read t) else f.read x)
    (l : List ι) (f : Mem α) (x : ℕ) :
    (l.foldl (fun f e => G e f) f).read x =
      if x = t then l.foldl (fun b e => T e (f.read d) b) (f.read t) else f.read x := by
  induction l generalizing f with
  | nil =>
    by_cases hx : x = t
    · subst hx
      simp
    · simp [hx]
  | cons e l ih =>
    rw [List.foldl_cons, ih, h e f d, if_neg hne, h e f t, if_pos rfl, h e f x]
    by_cases hx : x = t
    · simp [hx]
    · simp [hx]

theorem distribute_term_read (r_cart : Fin 3 → Fin 3 → ℚ) (todo done : ℕ)
    (fc2 : Mem (Fin 3 → Fin 3 → ℚ)) (j k l m : Fin 3) (x : ℕ) :
    (distribute_term r_cart todo done fc2 j k l m).read x =
      if x = todo then block_term r_cart j k l m (fc2.read done) (fc2.read todo)
      else fc2.read x := by
  unfold distribute_term block_term
  rw [Mem.read_write]

/-- The block loops only write the `todo` block. -/
theorem distribute_block_frame (r_cart : Fin 3 → Fin 3 → ℚ) (todo done : ℕ)
    (fc2 : Mem (Fin 3 → Fin 3 → ℚ)) (x : ℕ) (hx : x ≠ todo) :
    (distribute_block r_cart todo done fc2).read x = fc2.read x := by
  unfold distribute_block
  refine foldl_read_frame _ x (fun j f1 => ?_) _ fc2
  refine foldl_read_frame _ x (fun k f2 => ?_) _ f1
  refine foldl_read_frame _ x (fun l f3 => ?_) _ f2
  refine foldl_read_frame _ x (fun m f4 => ?_) _ f3
  rw [distribute_term_read, if_neg hx]

/-- The block loops on the `todo` block alone. -/
theorem distribute_block_read (r_cart : Fin 3 → Fin 3 → ℚ) (todo done : ℕ)
    (fc2 : Mem (Fin 3 → Fin 3 → ℚ)) (hne : todo ≠ done) :
    (distribute_block r_cart todo done fc2).read todo =
      (List.finRange 3).foldl (fun b1 j =>
        (List.finRange 3).foldl (fun b2 k =>
          (List.finRange 3).foldl (fun b3 l =>
            (List.finRange 3).foldl (fun b4 m =>
              block_term r_cart j k l m (fc2.read done) b4) b3) b2) b1)
        (fc2.read todo) := by
  have hne2 : done ≠ todo := fun h => hne h.symm
  unfold distribute_block
  rw [foldl_read_block todo done hne2
    (fun j f1 => (List.finRange 3).foldl (fun f2 k =>
      (List.finRange 3).foldl (fun f3 l =>
        (List.finRange 3).foldl (fun f4 m =>
          distribute_term r_cart todo done f4 j k l m) f3) f2) f1)
    (fun j dn b1 => (List.finRange 3).foldl (fun b2 k =>
      (List.finRange 3).foldl (fun b3 l =>
        (List.finRange 3).foldl (fun b4 m =>
          block_term r_cart j k l m dn b4) b3) b2) b1)
    ?_ (List.finRange 3) fc2 todo, if_pos rfl]
  intro j f1 x
  refine foldl_read_block todo done hne2
    (fun k f2 => (List.finRange 3).foldl (fun f3 l =>
      (List.finRange 3).foldl (fun f4 m =>
        distribute_term r_cart todo done f4 j k l m) f3) f2)
    (fun k dn b2 => (List.finRange 3).foldl (fun b3 l =>
      (List.finRange 3).foldl (fun b4 m =>
        block_term r_cart j k l m dn b4) b3) b2)
    ?_ (List.finRange 3) f1 x
  intro k f2 x
  refine foldl_read_block todo done hne2
    (fun l f3 => (List.finRange 3).foldl (fun f4 m =>
      distribute_term r_cart todo done f4 j k l m) f3)
    (fun l dn b3 => (List.finRange 3).foldl (fun b4 m =>
      block_term r_cart j k l m dn b4) b3)
    ?_ (List.finRange 3) f2 x
  intro l f3 x
  refine foldl_read_block todo done hne2
    (fun m f4 => distribute_term r_cart todo done f4 j k l m)
    (fun m dn b4 => block_term r_cart j k l m dn b4)
    ?_ (List.finRange 3) f3 x
  intro m f4 x
  exact distribute_term_read r_cart todo done f4 j k l m x

/-- The four nested loops add the conjugated block to a 3×3 block. -/
theorem block_loops_apply (r_cart done_block todo_block : Fin 3 → Fin 3 → ℚ)
    (a b : Fin 3) :
    (List.finRange 3).foldl (fun b1 j =>
      (List.finRange 3).foldl (fun b2 k =>
        (List.finRange 3).foldl (fun b3 l =>
          (List.finRange 3).foldl (fun b4 m =>
            block_term r_cart j k l m done_block b4) b3) b2) b1) todo_block a b =
      todo_block a b + conjugate r_cart done_block a b := by
  fin_cases a <;> fin_cases b <;>
    simp [block_term, finRange_three, conjugate, Fin.sum_univ_three,
      Function.update_apply] <;> ring

/-- The block loops add the conjugated `done` block to the `todo` block, when
the two blocks are different. -/
theorem distribute_block_apply (r_cart : Fin 3 → Fin 3 → ℚ) (todo done : ℕ)
    (fc2 : Mem (Fin 3 → Fin 3 → ℚ)) (hne : todo ≠ done) (a b : Fin 3) :
    (distribute_block r_cart todo done fc2).read todo a b =
      fc2.read todo a b + conjugate r_cart (fc2.read done) a b := by
  rw [distribute_block_read r_cart todo done fc2 hne, block_loops_apply]

/-- The loop over `atom_other` only writes blocks of row `atom_todo`. -/
theorem distribute_atom_frame (r_carts : ℕ → Fin 3 → Fin 3 → ℚ) (permutations : ℕ → ℕ)
    (num_pos atom_todo atom_done sym_index : ℕ) (fc2 : Mem (Fin 3 → Fin 3 → ℚ)) (x : ℕ)
    (hx : ∀ k, k < num_pos → x ≠ atom_todo * num_pos + k) :
    (distribute_atom r_carts permutations num_pos atom_todo atom_done sym_index fc2).read
        x = fc2.read x := by
  unfold distribute_atom
  have main : ∀ n, n ≤ num_pos →
      ((List.range n).foldl (fun f atom_other =>
        distribute_block (r_carts sym_index)
          (atom_todo * num_pos + atom_other)
          (atom_done * num_pos + permutations (sym_index * num_pos + atom_other)) f)
        fc2).read x = fc2.read x := by
    intro n
    induction n with
    | zero => intro _; rfl
    | succ n ih =>
      intro hn
      rw [List.range_succ, List.foldl_append, List.foldl_cons, List.foldl_nil,
        distribute_block_frame _ _ _ _ _ (hx n (by omega)), ih (by omega)]
  exact main num_pos (le_refl _)

/-- The loop over `atom_other` adds to every block of row `atom_todo` the
conjugated block of row `atom_done` that the permutation selects. -/
theorem distribute_atom_apply (r_carts : ℕ → Fin 3 → Fin 3 → ℚ) (permutations : ℕ → ℕ)
    (num_pos atom_todo atom_done sym_index : ℕ) (fc2 : Mem (Fin 3 → Fin 3 → ℚ))
    (hne : atom_todo ≠ atom_done)
    (hperm : ∀ k, k < num_pos → permutations (sym_index * num_pos + k) < num_pos)
    (k : ℕ) (hk : k < num_pos) (a b : Fin 3) :
    (distribute_atom r_carts permutations num_pos atom_todo atom_done sym_index fc2).read
        (atom_todo * num_pos + k) a b =
      fc2.read (atom_todo * num_pos + k) a b +
        conjugate (r_carts sym_index)
          (fc2.read (atom_done * num_pos + permutations (sym_index * num_pos + k)))
          a b := by
  have hblk : ∀ k p, k < num_pos → p < num_pos →
      atom_todo * num_pos + k ≠ atom_done * num_pos + p := by
    intro k p hk hp h
    exact hne (row_index_inj num_pos atom_todo atom_done k p hk hp h).1
  have main : ∀ n, n ≤ num_pos →
      (∀ k, k < num_pos → ∀ a b,
        ((List.range n).foldl (fun f atom_other =>
          distribute_block (r_carts sym_index)
            (atom_todo * num_pos + atom_other)
            (atom_done * num_pos + permutations (sym_index * num_pos + atom_other)) f)
          fc2).read (atom_todo * num_pos + k) a b =
        if k < n then
          fc2.read (atom_todo * num_pos + k) a b +
            conjugate (r_carts sym_index)
              (fc2.read (atom_done * num_pos + permutations (sym_index * num_pos + k)))
              a b
        else fc2.read (atom_todo * num_pos + k) a b) ∧
      (∀ x, (∀ k, k < num_pos → x ≠ atom_todo * num_pos + k) →
        ((List.range n).foldl (fun f atom_other =>
          distribute_block (r_carts sym_index)
            (atom_todo * num_pos + atom_other)
            (atom_done * num_pos + permutations (sym_index * num_pos + atom_other)) f)
          fc2).read x = fc2.read x) := by
    intro n
    induction n with
    | zero =>
      intro _
      exact ⟨fun k _ a b => by simp, fun x _ => by simp⟩
    | succ n ih =>
      intro hn
      obtain ⟨ih1, ih2⟩ := ih (by omega)
      rw [List.range_succ, List.foldl_append, List.foldl_cons, List.foldl_nil]
      have hpn := hperm n (by omega)
      have hdone := ih2 (atom_done * num_pos + permutations (sym_index * num_pos + n))
        (fun k hk h => hblk k _ hk hpn h.symm)
      constructor
      · intro k hk a b
        by_cases hkn : k = n
        · subst hkn
          rw [distribute_block_apply _ _ _ _ (hblk k _ (by omega) hpn),
            if_pos (by omega), ih1 k hk, if_neg (by omega), hdone]
        · have hne2 : atom_todo * num_pos + k ≠ atom_todo * num_pos + n := by omega
          rw [distribute_block_frame _ _ _ _ _ hne2, ih1 k hk]
          by_cases hlt : k < n
          · rw [if_pos hlt, if_pos (by omega)]
          · rw [if_neg hlt, if_neg (by omega)]
      · intro x hx
        rw [distribute_block_frame _ _ _ _ _ (hx n (by omega)), ih2 x hx]
  have := (main num_pos (le_refl _)).1 k hk a b
  rw [if_pos hk] at this
  exact this

/-- A block outside the rows of the atoms that the distributor completes is
not changed. -/
theorem distribute_frame (atom_list : List ℕ) (fc2 : Mem (Fin 3 → Fin 3 → ℚ))
    (r_carts : ℕ → Fin 3 → Fin 3 → ℚ) (permutations : ℕ → ℕ)
    (map_atoms map_syms : ℕ → ℕ) (num_rot num_pos : ℕ) (x : ℕ)
    (hx : ∀ t ∈ atom_list, map_atoms t ≠ t → ∀ k, k < num_pos → x ≠ t * num_pos + k) :
    (distribute_fc2_with_mappings fc2 atom_list r_carts permutations map_atoms map_syms
      num_rot num_pos).read x = fc2.read x := by
  unfold distribute_fc2_with_mappings
  induction atom_list generalizing fc2 with
  | nil => rfl
  | cons t l ih =>
    rw [List.foldl_cons]
    have hx2 : ∀ t2 ∈ l, map_atoms t2 ≠ t2 → ∀ k, k < num_pos → x ≠ t2 * num_pos + k :=
      fun t2 ht2 => hx t2 (List.mem_cons_of_mem _ ht2)
    rw [ih _ hx2]
    by_cases ht : t = map_atoms t
    · rw [if_pos ht]
    · rw [if_neg ht]
      have ht2 : map_atoms t ≠ t := fun h => ht h.symm
      exact distribute_atom_frame r_carts permutations num_pos t (map_atoms t)
        (map_syms t) fc2 x (hx t (List.mem_cons_self _ _) ht2)

theorem distribute_append (l1 l2 : List ℕ) (fc2 : Mem (Fin 3 → Fin 3 → ℚ))
    (r_carts : ℕ → Fin 3 → Fin 3 → ℚ) (permutations : ℕ → ℕ)
    (map_atoms map_syms : ℕ → ℕ) (num_rot num_pos : ℕ) :
    distribute_fc2_with_mappings fc2 (l1 ++ l2) r_carts permutations map_atoms map_syms
        num_rot num_pos =
      distribute_fc2_with_mappings
        (distribute_fc2_with_mappings fc2 l1 r_carts permutations map_atoms map_syms
          num_rot num_pos)
        l2 r_carts permutations map_atoms map_syms num_rot num_pos := by
  unfold distribute_fc2_with_mappings
  rw [List.foldl_append]

theorem distribute_cons (t : ℕ) (l : List ℕ) (fc2 : Mem (Fin 3 → Fin 3 → ℚ))
    (r_carts : ℕ → Fin 3 → Fin 3 → ℚ) (permutations : ℕ → ℕ)
    (map_atoms map_syms : ℕ → ℕ) (num_rot num_pos : ℕ) (ht : map_atoms t ≠ t) :
    distribute_fc2_with_mappings fc2 (t :: l) r_carts permutations map_atoms map_syms
        num_rot num_pos =
      distribute_fc2_with_mappings
        (distribute_atom r_carts permutations num_pos t (map_atoms t) (map_syms t) fc2)
        l r_carts permutations map_atoms map_syms num_rot num_pos := by
  unfold distribute_fc2_with_mappings
  rw [List.foldl_cons, if_neg (fun h => ht h.symm)]

/-- An atom `i` that occurs exactly once in `atom_list`, whose representative
`d = map_atoms[i]` differs from `i` and is not itself completed by the call,
receives the conjugated blocks of row `d` on top of its initial blocks. -/
theorem distribute_accumulates (fc2 : Mem (Fin 3 → Fin 3 → ℚ)) (atom_list : List ℕ)
    (r_carts : ℕ → Fin 3 → Fin 3 → ℚ) (permutations : ℕ → ℕ)
    (map_atoms map_syms : ℕ → ℕ) (num_rot num_pos i : ℕ)
    (hcount : atom_list.count i = 1) (hne : map_atoms i ≠ i)
    (hd : map_atoms (map_atoms i) = map_atoms i ∨ map_atoms i ∉ atom_list)
    (hperm : ∀ k, k < num_pos → permutations (map_syms i * num_pos + k) < num_pos)
    (k : ℕ) (hk : k < num_pos) (a b : Fin 3) :
    (distribute_fc2_with_mappings fc2 atom_list r_carts permutations map_atoms map_syms
        num_rot num_pos).read (i * num_pos + k) a b =
      fc2.read (i * num_pos + k) a b +
        conjugate (r_carts (map_syms i))
          (fc2.read (map_atoms i * num_pos + permutations (map_syms i * num_pos + k)))
          a b := by
  have hmem : i ∈ atom_list := by
    apply List.count_pos_iff.mp
    omega
  obtain ⟨pre, post, hsplit⟩ := List.append_of_mem hmem
  subst hsplit
  rw [List.count_append, List.count_cons_self] at hcount
  have hpre : i ∉ pre := by
    apply List.count_eq_zero.mp
    omega
  have hpost : i ∉ post := by
    apply List.count_eq_zero.mp
    omega
  have hrow_i : ∀ (l : List ℕ), i ∉ l → ∀ t ∈ l, map_atoms t ≠ t →
      ∀ k2, k2 < num_pos → i * num_pos + k ≠ t * num_pos + k2 := by
    intro l hl t ht _ k2 hk2 h
    have := (row_index_inj num_pos i t k k2 hk hk2 h).1
    subst this
    exact hl ht
  have hrow_d : ∀ t ∈ pre, map_atoms t ≠ t → ∀ k2, k2 < num_pos →
      map_atoms i * num_pos + permutations (map_syms i * num_pos + k) ≠
        t * num_pos + k2 := by
    intro t ht htne k2 hk2 h
    have := (row_index_inj num_pos (map_atoms i) t _ k2 (hperm k hk) hk2 h).1
    subst this
    rcases hd with h1 | h1
    · exact htne h1
    · exact h1 (List.mem_append_left _ ht)
  rw [distribute_append, distribute_cons _ _ _ _ _ _ _ _ _ hne,
    distribute_frame post _ _ _ _ _ _ _ _ (hrow_i post hpost),
    distribute_atom_apply _ _ _ _ _ _ _ (fun h => hne h.symm) hperm k hk,
    distribute_frame pre _ _ _ _ _ _ _ _ (hrow_i pre hpre),
    distribute_frame pre _ _ _ _ _ _ _ _ hrow_d]

/-- The row of a representative that the call does not complete is not
changed. -/
theorem distribute_representative_row (fc2 : Mem (Fin 3 → Fin 3 → ℚ)) (atom_list : List ℕ)
    (r_carts : ℕ → Fin 3 → Fin 3 → ℚ) (permutations : ℕ → ℕ)
    (map_atoms map_syms : ℕ → ℕ) (num_rot num_pos d : ℕ)
    (hd : map_atoms d = d ∨ d ∉ atom_list) (p : ℕ) (hp : p < num_pos) :
    (distribute_fc2_with_mappings fc2 atom_list r_carts permutations map_atoms map_syms
        num_rot num_pos).read (d * num_pos + p) = fc2.read (d * num_pos + p) := by
  apply distribute_frame
  intro t ht htne k2 hk2 h
  have := (row_index_inj num_pos d t p k2 hp hk2 h).1
  subst this
  rcases hd with h1 | h1
  · exact htne h1
  · exact h1 ht

/-- An atom listed twice receives the conjugated blocks twice. -/
theorem distribute_duplicate (fc2 : Mem (Fin 3 → Fin 3 → ℚ))
    (r_carts : ℕ → Fin 3 → Fin 3 → ℚ) (permutations : ℕ → ℕ)
    (map_atoms map_syms : ℕ → ℕ) (num_rot num_pos i : ℕ) (hne : map_atoms i ≠ i)
    (hperm : ∀ k, k < num_pos → permutations (map_syms i * num_pos + k) < num_pos)
    (k : ℕ) (hk : k < num_pos) (a b : Fin 3) :
    (distribute_fc2_with_mappings fc2 [i, i] r_carts permutations map_atoms map_syms
        num_rot num_pos).read (i * num_pos + k) a b =
      fc2.read (i * num_pos + k) a b +
        conjugate (r_carts (map_syms i))
          (fc2.read (map_atoms i * num_pos + permutations (map_syms i * num_pos + k))) a b +
        conjugate (r_carts (map_syms i))
          (fc2.read (map_atoms i * num_pos + permutations (map_syms i * num_pos + k))) a b := by
  have hne2 : i ≠ map_atoms i := fun h => hne h.symm
  have hrow : ∀ k2, k2 < num_pos →
      map_atoms i * num_pos + permutations (map_syms i * num_pos + k) ≠
        i * num_pos + k2 := by
    intro k2 hk2 h
    exact hne (row_index_inj num_pos (map_atoms i) i _ k2 (hperm k hk) hk2 h).1
  rw [distribute_cons _ _ _ _ _ _ _ _ _ hne, distribute_cons _ _ _ _ _ _ _ _ _ hne]
  unfold distribute_fc2_with_mappings
  rw [List.foldl_nil, distribute_atom_apply _ _ _ _ _ _ _ hne2 hperm k hk,
    distribute_atom_apply _ _ _ _ _ _ _ hne2 hperm k hk,
    distribute_atom_frame _ _ _ _ _ _ _ _ hrow]

/-- C7 (as amended). Conjugation rule of the distributor: for an atom `i`
that occurs exactly once in `atom_list`, whose representative
`d = map_atoms[i]` differs from `i` and is a representative itself, with the
permutation entries of operation `map_syms[i]` below `num_pos` and with row
`i` of the field zero before the call, after `distribute_fc2_with_mappings`
`FC[i][k][a][b] = Σ_{l,m} R[l][a]·R[m][b]·FC[d][π(k)][l][m]` for every atom
`k` and all `a`, `b`. -/
theorem distribute_conjugation_rule (fc2 : Mem (Fin 3 → Fin 3 → ℚ)) (atom_list : List ℕ)
    (r_carts : ℕ → Fin 3 → Fin 3 → ℚ) (permutations : ℕ → ℕ)
    (map_atoms map_syms : ℕ → ℕ) (num_rot num_pos i : ℕ)
    (hcount : atom_list.count i = 1) (hne : map_atoms i ≠ i)
    (hd : map_atoms (map_atoms i) = map_atoms i)
    (hperm : ∀ k, k < num_pos → permutations (map_syms i * num_pos + k) < num_pos)
    (hzero : ∀ k, k < num_pos → ∀ a b, fc2.read (i * num_pos + k) a b = 0) :
    ∀ k, k < num_pos → ∀ a b : Fin 3,
      (distribute_fc2_with_mappings fc2 atom_list r_carts permutations map_atoms map_syms
          num_rot num_pos).read (i * num_pos + k) a b =
        ∑ l : Fin 3, ∑ m : Fin 3,
          r_carts (map_syms i) l a * r_carts (map_syms i) m b *
            (distribute_fc2_with_mappings fc2 atom_list r_carts permutations map_atoms
              map_syms num_rot num_pos).read
              (map_atoms i * num_pos + permutations (map_syms i * num_pos + k)) l m := by
  intro k hk a b
  rw [distribute_accumulates fc2 atom_list r_carts permutations map_atoms map_syms num_rot
      num_pos i hcount hne (Or.inl hd) hperm k hk a b,
    distribute_representative_row fc2 atom_list r_carts permutations map_atoms map_syms
      num_rot num_pos (map_atoms i) (Or.inl hd) _ (hperm k hk),
    hzero k hk a b, zero_add]
  rfl

/-- Instance of the amended C7: two atoms, atom 1 completed from atom 0 by
the rotation by 90° about z. -/
theorem distribute_conjugation_rule_witness :
    ([1].count 1 = 1 ∧ (fun _ : ℕ => 0) 1 ≠ 1 ∧
      (∀ k, k < 2 → (fun x : ℕ => x) (0 * 2 + k) < 2) ∧
      (∀ k, k < 2 → ∀ a b, field_rep_02.read (1 * 2 + k) a b = 0)) ∧
    ∀ k, k < 2 → ∀ a b : Fin 3,
      (distribute_fc2_with_mappings field_rep_02 [1] (fun _ => rot_z90) (fun x => x)
          (fun _ => 0) (fun _ => 0) 1 2).read (1 * 2 + k) a b =
        ∑ l : Fin 3, ∑ m : Fin 3,
          rot_z90 l a * rot_z90 m b *
            (distribute_fc2_with_mappings field_rep_02 [1] (fun _ => rot_z90) (fun x => x)
              (fun _ => 0) (fun _ => 0) 1 2).read (0 * 2 + (0 * 2 + k)) l m :=
  have hperm : ∀ k, k < 2 → (fun x : ℕ => x) (0 * 2 + k) < 2 := fun k hk => by
    simpa using hk
  have hzero : ∀ k, k < 2 → ∀ a b, field_rep_02.read (1 * 2 + k) a b = 0 := fun k _ a b => by
    simp [field_rep_02]
  ⟨⟨by decide, by decide, hperm, hzero⟩,
    distribute_conjugation_rule field_rep_02 [1] (fun _ => rot_z90) (fun x => x)
      (fun _ => 0) (fun _ => 0) 1 2 1 (by decide) (by decide) rfl hperm hzero⟩

/-- Counterexample to C7 as stated. With two atoms, atom 1 completed from
atom 0 by the identity operation: (1) when row 1 holds `FC[1][0][0][0] = 1`
before the call and row 0 is zero, the entry is still 1 afterwards while the
conjugated representative block is 0; (2) when atom 1 is listed twice and
`FC[0][0][0][0] = 1`, the entry is 2 afterwards while the conjugated
representative block is 1. -/
theorem distribute_conjugation_rule_counterexample :
    ((distribute_fc2_with_mappings field_todo_00 [1] (fun _ => rot_identity) (fun x => x)
        (fun _ => 0) (fun _ => 0) 1 2).read (1 * 2 + 0) 0 0 ≠
      ∑ l : Fin 3, ∑ m : Fin 3,
        rot_identity l 0 * rot_identity m 0 *
          (distribute_fc2_with_mappings field_todo_00 [1] (fun _ => rot_identity)
            (fun x => x) (fun _ => 0) (fun _ => 0) 1 2).read (0 * 2 + (0 * 2 + 0)) l m) ∧
    ((distribute_fc2_with_mappings field_rep_00 [1, 1] (fun _ => rot_identity) (fun x => x)
        (fun _ => 0) (fun _ => 0) 1 2).read (1 * 2 + 0) 0 0 ≠
      ∑ l : Fin 3, ∑ m : Fin 3,
        rot_identity l 0 * rot_identity m 0 *
          (distribute_fc2_with_mappings field_rep_00 [1, 1] (fun _ => rot_identity)
            (fun x => x) (fun _ => 0) (fun _ => 0) 1 2).read (0 * 2 + (0 * 2 + 0)) l m) := by
  have hperm : ∀ k, k < 2 → (fun x : ℕ => x) ((fun _ : ℕ => 0) 1 * 2 + k) < 2 :=
    fun k hk => by simpa using hk
  constructor
  · rw [distribute_accumulates field_todo_00 [1] (fun _ => rot_identity) (fun x => x)
        (fun _ => 0) (fun _ => 0) 1 2 1 (by decide) (by decide) (Or.inl rfl) hperm 0
        (by decide) 0 0,
      distribute_representative_row field_todo_00 [1] (fun _ => rot_identity) (fun x => x)
        (fun _ => 0) (fun _ => 0) 1 2 0 (Or.inl rfl) (0 * 2 + 0) (by decide)]
    simp [conjugate, field_todo_00, rot_identity, Fin.sum_univ_three]
  · rw [distribute_duplicate field_rep_00 (fun _ => rot_identity) (fun x => x)
        (fun _ => 0) (fun _ => 0) 1 2 1 (by decide) hperm 0 (by decide) 0 0,
      distribute_representative_row field_rep_00 [1, 1] (fun _ => rot_identity)
        (fun x => x) (fun _ => 0) (fun _ => 0) 1 2 0 (Or.inl rfl) (0 * 2 + 0) (by decide)]
    simp [conjugate, field_rep_00, rot_identity, Fin.sum_univ_three]

/-- C8 (as amended). Symmetry covariance in matrix form: for a
representative atom `d` (`map_atoms[d] = d`), an atom `i ≠ d` that occurs
exactly once in `atom_list` with `map_atoms[i] = d` and operation
`(R, π) = map_syms[i]` (permutation entries below `num_pos`), and row `i` of
the field zero before the call, the output block `FC[i][k]` is
`Rᵗ · FC[d][π(k)] · R` for every `k`, that is
`FC[i][k][a][b] = Σ_{l,m} R[l][a]·FC[d][π(k)][l][m]·R[m][b]`. -/
theorem distribute_covariance (fc2 : Mem (Fin 3 → Fin 3 → ℚ)) (atom_list : List ℕ)
    (r_carts : ℕ → Fin 3 → Fin 3 → ℚ) (permutations : ℕ → ℕ)
    (map_atoms map_syms : ℕ → ℕ) (num_rot num_pos i d : ℕ)
    (hd : map_atoms d = d) (hid : i ≠ d) (hcount : atom_list.count i = 1)
    (hmap : map_atoms i = d)
    (hperm : ∀ k, k < num_pos → permutations (map_syms i * num_pos + k) < num_pos)
    (hzero : ∀ k, k < num_pos → ∀ a b, fc2.read (i * num_pos + k) a b = 0) :
    ∀ k, k < num_pos → ∀ a b : Fin 3,
      (distribute_fc2_with_mappings fc2 atom_list r_carts permutations map_atoms map_syms
          num_rot num_pos).read (i * num_pos + k) a b =
        ∑ l : Fin 3, ∑ m : Fin 3,
          r_carts (map_syms i) l a *
            (distribute_fc2_with_mappings fc2 atom_list r_carts permutations map_atoms
              map_syms num_rot num_pos).read
              (d * num_pos + permutations (map_syms i * num_pos + k)) l m *
            r_carts (map_syms i) m b := by
  intro k hk a b
  have hne : map_atoms i ≠ i := by
    rw [hmap]
    exact fun h => hid h.symm
  have hd2 : map_atoms (map_atoms i) = map_atoms i := by
    rw [hmap]
    exact hd
  rw [distribute_accumulates fc2 atom_list r_carts permutations map_atoms map_syms num_rot
      num_pos i hcount hne (Or.inl hd2) hperm k hk a b,
    distribute_representative_row fc2 atom_list r_carts permutations map_atoms map_syms
      num_rot num_pos d (Or.inl hd) _ (hperm k hk),
    hzero k hk a b, zero_add, hmap]
  unfold conjugate
  apply Finset.sum_congr rfl
  intro l _
  apply Finset.sum_congr rfl
  intro m _
  ring

/-- Instance of the amended C8: two atoms, atom 1 completed from the
representative 0 by the rotation by 90° about z. -/
theorem distribute_covariance_witness :
    ((fun _ : ℕ => 0) 0 = 0 ∧ 1 ≠ 0 ∧ [1].count 1 = 1 ∧ (fun _ : ℕ => 0) 1 = 0 ∧
      (∀ k, k < 2 → (fun x : ℕ => x) (0 * 2 + k) < 2) ∧
      (∀ k, k < 2 → ∀ a b, field_rep_02.read (1 * 2 + k) a b = 0)) ∧
    ∀ k, k < 2 → ∀ a b : Fin 3,
      (distribute_fc2_with_mappings field_rep_02 [1] (fun _ => rot_z90) (fun x => x)
          (fun _ => 0) (fun _ => 0) 1 2).read (1 * 2 + k) a b =
        ∑ l : Fin 3, ∑ m : Fin 3,
          rot_z90 l a *
            (distribute_fc2_with_mappings field_rep_02 [1] (fun _ => rot_z90) (fun x => x)
              (fun _ => 0) (fun _ => 0) 1 2).read (0 * 2 + (0 * 2 + k)) l m *
            rot_z90 m b :=
  have hperm : ∀ k, k < 2 → (fun x : ℕ => x) (0 * 2 + k) < 2 := fun k hk => by
    simpa using hk
  have hzero : ∀ k, k < 2 → ∀ a b, field_rep_02.read (1 * 2 + k) a b = 0 := fun k _ a b => by
    simp [field_rep_02]
  ⟨⟨rfl, by decide, by decide, rfl, hperm, hzero⟩,
    distribute_covariance field_rep_02 [1] (fun _ => rot_z90) (fun x => x)
      (fun _ => 0) (fun _ => 0) 1 2 1 0 rfl (by decide) (by decide) rfl hperm hzero⟩

/-- Counterexample to C8 as stated. (1) Two atoms, representative 0, atom 1
listed once with the rotation `R` by 90° about z, row 1 zero and
`FC[0][0][0][2] = 1` before the call: afterwards `FC[1][0][1][2] = -1`, while
`(R · FC[0][π(0)] · Rᵗ)[1][2] = 1`. (2) With the identity operation, atom 1
listed twice and `FC[0][0][0][0] = 1`: afterwards `FC[1][0][0][0] = 2`, while
`(R · FC[0][π(0)] · Rᵗ)[0][0] = 1`. -/
theorem distribute_covariance_counterexample :
    (((fun _ : ℕ => 0) 0 = 0 ∧ 1 ∈ [1] ∧ (fun _ : ℕ => 0) 1 = 0 ∧
        (∀ k, k < 2 → ∀ a b, field_rep_02.read (1 * 2 + k) a b = 0)) ∧
      (distribute_fc2_with_mappings field_rep_02 [1] (fun _ => rot_z90) (fun x => x)
          (fun _ => 0) (fun _ => 0) 1 2).read (1 * 2 + 0) 1 2 ≠
        ∑ l : Fin 3, ∑ m : Fin 3,
          rot_z90 1 l *
            (distribute_fc2_with_mappings field_rep_02 [1] (fun _ => rot_z90) (fun x => x)
              (fun _ => 0) (fun _ => 0) 1 2).read (0 * 2 + (0 * 2 + 0)) l m *
            rot_z90 2 m) ∧
    (((fun _ : ℕ => 0) 0 = 0 ∧ 1 ∈ [1, 1] ∧ (fun _ : ℕ => 0) 1 = 0 ∧
        (∀ k, k < 2 → ∀ a b, field_rep_00.read (1 * 2 + k) a b = 0)) ∧
      (distribute_fc2_with_mappings field_rep_00 [1, 1] (fun _ => rot_identity)
          (fun x => x) (fun _ => 0) (fun _ => 0) 1 2).read (1 * 2 + 0) 0 0 ≠
        ∑ l : Fin 3, ∑ m : Fin 3,
          rot_identity 0 l *
            (distribute_fc2_with_mappings field_rep_00 [1, 1] (fun _ => rot_identity)
              (fun x => x) (fun _ => 0) (fun _ => 0) 1 2).read (0 * 2 + (0 * 2 + 0)) l m *
            rot_identity 0 m) := by
  have hperm : ∀ k, k < 2 → (fun x : ℕ => x) ((fun _ : ℕ => 0) 1 * 2 + k) < 2 :=
    fun k hk => by simpa using hk
  refine ⟨⟨⟨rfl, by decide, rfl, fun k _ a b => by simp [field_rep_02]⟩, ?_⟩,
    ⟨⟨rfl, by decide, rfl, fun k _ a b => by simp [field_rep_00]⟩, ?_⟩⟩
  · rw [distribute_accumulates field_rep_02 [1] (fun _ => rot_z90) (fun x => x)
        (fun _ => 0) (fun _ => 0) 1 2 1 (by decide) (by decide) (Or.inl rfl) hperm 0
        (by decide) 1 2,
      distribute_representative_row field_rep_02 [1] (fun _ => rot_z90) (fun x => x)
        (fun _ => 0) (fun _ => 0) 1 2 0 (Or.inl rfl) (0 * 2 + 0) (by decide)]
    simp [conjugate, field_rep_02, rot_z90, Fin.sum_univ_three]
    norm_num
  · rw [distribute_duplicate field_rep_00 (fun _ => rot_identity) (fun x => x)
        (fun _ => 0) (fun _ => 0) 1 2 1 (by decide) hperm 0 (by decide) 0 0,
      distribute_representative_row field_rep_00 [1, 1] (fun _ => rot_identity)
        (fun x => x) (fun _ => 0) (fun _ => 0) 1 2 0 (Or.inl rfl) (0 * 2 + 0) (by decide)]
    simp [conjugate, field_rep_00, rot_identity, Fin.sum_univ_three]

/-- C9. Shape validation of the distributor: `py_distribute_fc2_with_mappings`
returns a `ValueError` and leaves the force-constant array as it was
whenever `map_atoms` is not one-dimensional of length `num_pos` (the row
length of the permutation table), or `map_syms` is not one-dimensional of
length `num_pos`, or the length of the rotation table differs from the number
of rows of the permutation table; when none of these holds it performs the
distribution and returns `None`. -/
theorem py_distribute_shape_validation
    (py_force_constants : PyArray (Fin 3 → Fin 3 → ℚ)) (py_atom_list : PyArray ℕ)
    (py_rotations_cart : PyArray (Fin 3 → Fin 3 → ℚ))
    (py_permutations py_map_atoms py_map_syms : PyArray ℕ) :
    (((PyArray_NDIM py_map_atoms ≠ 1 ∨
          PyArray_DIMS py_map_atoms 0 ≠ PyArray_DIMS py_permutations 1) ∨
        (PyArray_NDIM py_map_syms ≠ 1 ∨
          PyArray_DIMS py_map_syms 0 ≠ PyArray_DIMS py_permutations 1) ∨
        PyArray_DIMS py_rotations_cart 0 ≠ PyArray_DIMS py_permutations 0) ∧
      (∃ msg, (py_distribute_fc2_with_mappings py_force_constants py_atom_list
        py_rotations_cart py_permutations py_map_atoms py_map_syms).1 =
          PyResult.value_error msg) ∧
      (py_distribute_fc2_with_mappings py_force_constants py_atom_list
        py_rotations_cart py_permutations py_map_atoms py_map_syms).2 =
          py_force_constants.data) ∨
    (¬ ((PyArray_NDIM py_map_atoms ≠ 1 ∨
          PyArray_DIMS py_map_atoms 0 ≠ PyArray_DIMS py_permutations 1) ∨
        (PyArray_NDIM py_map_syms ≠ 1 ∨
          PyArray_DIMS py_map_syms 0 ≠ PyArray_DIMS py_permutations 1) ∨
        PyArray_DIMS py_rotations_cart 0 ≠ PyArray_DIMS py_permutations 0) ∧
      (py_distribute_fc2_with_mappings py_force_constants py_atom_list
        py_rotations_cart py_permutations py_map_atoms py_map_syms).1 = PyResult.none ∧
      (py_distribute_fc2_with_mappings py_force_constants py_atom_list
        py_rotations_cart py_permutations py_map_atoms py_map_syms).2 =
          distribute_fc2_with_mappings py_force_constants.data
            ((List.range (PyArray_DIMS py_atom_list 0)).map py_atom_list.data.read)
            py_rotations_cart.data.read py_permutations.data.read py_map_atoms.data.read
            py_map_syms.data.read (PyArray_DIMS py_permutations 0)
            (PyArray_DIMS py_permutations 1)) := by
  unfold py_distribute_fc2_with_mappings
  dsimp only
  by_cases h1 : PyArray_NDIM py_map_atoms ≠ 1 ∨
      PyArray_DIMS py_map_atoms 0 ≠ PyArray_DIMS py_permutations 1
  · left
    rw [if_pos h1]
    exact ⟨Or.inl h1, ⟨_, rfl⟩, rfl⟩
  · by_cases h2 : PyArray_NDIM py_map_syms ≠ 1 ∨
        PyArray_DIMS py_map_syms 0 ≠ PyArray_DIMS py_permutations 1
    · left
      rw [if_neg h1, if_pos h2]
      exact ⟨Or.inr (Or.inl h2), ⟨_, rfl⟩, rfl⟩
    · by_cases h3 : PyArray_DIMS py_rotations_cart 0 ≠ PyArray_DIMS py_permutations 0
      · left
        rw [if_neg h1, if_neg h2, if_pos h3]
        exact ⟨Or.inr (Or.inr h3), ⟨_, rfl⟩, rfl⟩
      · right
        rw [if_neg h1, if_neg h2, if_neg h3]
        refine ⟨?_, rfl, rfl⟩
        rintro (h | h | h)
        · exact h1 h
        · exact h2 h
        · exact h3 h


/-- Two iterations of the loop over `atom_list` commute when the rows they read
belong to representatives. -/
theorem distribute_step_comm (r_carts : ℕ → Fin 3 → Fin 3 → ℚ) (permutations : ℕ → ℕ)
    (map_atoms map_syms : ℕ → ℕ) (num_pos x y : ℕ) (z : Mem (Fin 3 → Fin 3 → ℚ))
    (hx : map_atoms x ≠ x) (hy : map_atoms y ≠ y)
    (hdx : map_atoms (map_atoms x) = map_atoms x)
    (hdy : map_atoms (map_atoms y) = map_atoms y)
    (hpx : ∀ k, k < num_pos → permutations (map_syms x * num_pos + k) < num_pos)
    (hpy : ∀ k, k < num_pos → permutations (map_syms y * num_pos + k) < num_pos) :
    distribute_atom r_carts permutations num_pos y (map_atoms y) (map_syms y)
        (distribute_atom r_carts permutations num_pos x (map_atoms x) (map_syms x) z) =
      distribute_atom r_carts permutations num_pos x (map_atoms x) (map_syms x)
        (distribute_atom r_carts permutations num_pos y (map_atoms y) (map_syms y) z) := by
  by_cases hxy : x = y
  · subst hxy
    rfl
  -- a block of row `u` is not a block of another row `v`
  have hrow : ∀ u v k, u ≠ v → k < num_pos → ∀ k2, k2 < num_pos →
      u * num_pos + k ≠ v * num_pos + k2 :=
    fun u v k huv hk k2 hk2 h => huv (row_index_inj num_pos u v k k2 hk hk2 h).1
  have hdyx : map_atoms y ≠ x := fun h => hx (by rw [← h, hdy])
  have hdxy : map_atoms x ≠ y := fun h => hy (by rw [← h, hdx])
  -- one order of the two steps, read at the three kinds of blocks
  have key : ∀ (u v : ℕ), u ≠ v → map_atoms u ≠ u → map_atoms v ≠ v →
      map_atoms u ≠ v → map_atoms v ≠ u →
      (∀ k, k < num_pos → permutations (map_syms u * num_pos + k) < num_pos) →
      (∀ k, k < num_pos → permutations (map_syms v * num_pos + k) < num_pos) →
      ∀ n a b,
        (distribute_atom r_carts permutations num_pos v (map_atoms v) (map_syms v)
          (distribute_atom r_carts permutations num_pos u (map_atoms u) (map_syms u) z)).read
            n a b =
          if ∃ k, k < num_pos ∧ n = u * num_pos + k then
            (distribute_atom r_carts permutations num_pos u (map_atoms u) (map_syms u)
              z).read n a b
          else
            (distribute_atom r_carts permutations num_pos v (map_atoms v) (map_syms v)
              z).read n a b := by
    intro u v huv hu hv hduv hdvu hpu hpv n a b
    by_cases h1 : ∃ k, k < num_pos ∧ n = u * num_pos + k
    · rw [if_pos h1]
      obtain ⟨k, hk, rfl⟩ := h1
      rw [distribute_atom_frame r_carts permutations num_pos v (map_atoms v) (map_syms v) _ _
        (fun k2 hk2 => hrow u v k huv hk k2 hk2)]
    · rw [if_neg h1]
      by_cases h2 : ∃ k, k < num_pos ∧ n = v * num_pos + k
      · obtain ⟨k, hk, rfl⟩ := h2
        rw [distribute_atom_apply r_carts permutations num_pos v (map_atoms v) (map_syms v) _
            (fun h => hv h.symm) hpv k hk a b,
          distribute_atom_apply r_carts permutations num_pos v (map_atoms v) (map_syms v) z
            (fun h => hv h.symm) hpv k hk a b,
          distribute_atom_frame r_carts permutations num_pos u (map_atoms u) (map_syms u) z _
            (fun k2 hk2 => hrow v u k (fun h => huv h.symm) hk k2 hk2),
          distribute_atom_frame r_carts permutations num_pos u (map_atoms u) (map_syms u) z _
            (fun k2 hk2 => hrow (map_atoms v) u _ hdvu (hpv k hk) k2 hk2)]
      · rw [distribute_atom_frame r_carts permutations num_pos v (map_atoms v) (map_syms v) _
            n (fun k hk h => h2 ⟨k, hk, h⟩),
          distribute_atom_frame r_carts permutations num_pos u (map_atoms u) (map_syms u) z
            n (fun k hk h => h1 ⟨k, hk, h⟩),
          distribute_atom_frame r_carts permutations num_pos v (map_atoms v) (map_syms v) z
            n (fun k hk h => h2 ⟨k, hk, h⟩)]
  apply Mem.ext_read
  intro n
  funext a b
  rw [key x y hxy hx hy hdxy hdyx hpx hpy n a b,
    key y x (fun h => hxy h.symm) hy hx hdyx hdxy hpy hpx n a b]
  by_cases h1 : ∃ k, k < num_pos ∧ n = x * num_pos + k
  · rw [if_pos h1]
    have h2 : ¬ ∃ k, k < num_pos ∧ n = y * num_pos + k := by
      rintro ⟨k2, hk2, h2⟩
      obtain ⟨k, hk, rfl⟩ := h1
      exact hrow x y k hxy hk k2 hk2 h2
    rw [if_neg h2]
  · rw [if_neg h1]
    by_cases h2 : ∃ k, k < num_pos ∧ n = y * num_pos + k
    · rw [if_pos h2]
    · rw [if_neg h2,
        distribute_atom_frame r_carts permutations num_pos y (map_atoms y) (map_syms y) z
          n (fun k hk h => h2 ⟨k, hk, h⟩),
        distribute_atom_frame r_carts permutations num_pos x (map_atoms x) (map_syms x) z
          n (fun k hk h => h1 ⟨k, hk, h⟩)]

/-- The result of the distributor does not depend on the order of
`atom_list`. -/
theorem distribute_perm (fc2 : Mem (Fin 3 → Fin 3 → ℚ)) (atom_list l2 : List ℕ)
    (r_carts : ℕ → Fin 3 → Fin 3 → ℚ) (permutations : ℕ → ℕ)
    (map_atoms map_syms : ℕ → ℕ) (num_rot num_pos : ℕ)
    (hrep : ∀ i, map_atoms (map_atoms i) = map_atoms i)
    (hperm : ∀ t ∈ atom_list, ∀ k, k < num_pos →
      permutations (map_syms t * num_pos + k) < num_pos)
    (hl : l2.Perm atom_list) :
    distribute_fc2_with_mappings fc2 l2 r_carts permutations map_atoms map_syms num_rot
        num_pos =
      distribute_fc2_with_mappings fc2 atom_list r_carts permutations map_atoms map_syms
        num_rot num_pos := by
  unfold distribute_fc2_with_mappings
  refine (List.Perm.foldl_eq' hl.symm ?_ fc2).symm
  intro x hx y hy z
  by_cases h1 : x = map_atoms x
  · by_cases h2 : y = map_atoms y
    · simp only [if_pos h1, if_pos h2]
    · simp only [if_pos h1, if_neg h2]
  · by_cases h2 : y = map_atoms y
    · simp only [if_pos h2, if_neg h1]
    · simp only [if_neg h1, if_neg h2]
      exact distribute_step_comm r_carts permutations map_atoms map_syms num_pos x y z
        (fun h => h1 h.symm) (fun h => h2 h.symm) (hrep x) (hrep y) (hperm x hx)
        (hperm y hy)

/-- C21. Iterations of the distributor do not interfere: provided every
representative maps to itself (`map_atoms[map_atoms[i]] = map_atoms[i]`) and the
permutation entries of the operations used are below `num_pos`, the blocks
written by `distribute_fc2_with_mappings` (rows of atoms `t` in `atom_list`
with `map_atoms[t] ≠ t`) are different from the blocks it reads (rows of
representatives), the rows of atoms that are representatives or absent from
`atom_list` are unchanged, and the resulting field is the same for every
reordering of `atom_list`. -/
theorem distribute_no_interference (fc2 : Mem (Fin 3 → Fin 3 → ℚ)) (atom_list : List ℕ)
    (r_carts : ℕ → Fin 3 → Fin 3 → ℚ) (permutations : ℕ → ℕ)
    (map_atoms map_syms : ℕ → ℕ) (num_rot num_pos : ℕ)
    (hrep : ∀ i, map_atoms (map_atoms i) = map_atoms i)
    (hperm : ∀ t ∈ atom_list, ∀ k, k < num_pos →
      permutations (map_syms t * num_pos + k) < num_pos) :
    (∀ t ∈ atom_list, map_atoms t ≠ t → ∀ t2 ∈ atom_list, map_atoms t2 ≠ t2 →
      ∀ k k2, k < num_pos → k2 < num_pos →
        t * num_pos + k ≠
          map_atoms t2 * num_pos + permutations (map_syms t2 * num_pos + k2)) ∧
    (∀ i, map_atoms i = i ∨ i ∉ atom_list → ∀ k, k < num_pos →
      (distribute_fc2_with_mappings fc2 atom_list r_carts permutations map_atoms map_syms
        num_rot num_pos).read (i * num_pos + k) = fc2.read (i * num_pos + k)) ∧
    (∀ l2 : List ℕ, l2.Perm atom_list →
      distribute_fc2_with_mappings fc2 l2 r_carts permutations map_atoms map_syms num_rot
          num_pos =
        distribute_fc2_with_mappings fc2 atom_list r_carts permutations map_atoms map_syms
          num_rot num_pos) := by
  refine ⟨?_, ?_, ?_⟩
  · intro t _ ht t2 ht2 _ k k2 hk hk2 h
    have e := (row_index_inj num_pos t (map_atoms t2) k _ hk (hperm t2 ht2 k2 hk2) h).1
    apply ht
    rw [e, hrep]
  · intro i hi k hk
    exact distribute_representative_row fc2 atom_list r_carts permutations map_atoms
      map_syms num_rot num_pos i hi k hk
  · intro l2 hl
    exact distribute_perm fc2 atom_list l2 r_carts permutations map_atoms map_syms num_rot
      num_pos hrep hperm hl

/-- Instance of C21: three atoms, atoms 1 and 2 completed from the
representative 0 by the rotation by 90° about z; the lists `[2, 1]` and
`[1, 2]` give the same field. -/
theorem distribute_no_interference_witness :
    ((∀ i : ℕ, (fun _ : ℕ => 0) ((fun _ : ℕ => 0) i) = (fun _ : ℕ => 0) i) ∧
      (∀ t ∈ [1, 2], ∀ k, k < 3 → (fun x : ℕ => x) ((fun _ : ℕ => 0) t * 3 + k) < 3) ∧
      [2, 1].Perm [1, 2]) ∧
    distribute_fc2_with_mappings field_rep_00 [2, 1] (fun _ => rot_z90) (fun x => x)
        (fun _ => 0) (fun _ => 0) 1 3 =
      distribute_fc2_with_mappings field_rep_00 [1, 2] (fun _ => rot_z90) (fun x => x)
        (fun _ => 0) (fun _ => 0) 1 3 :=
  have hperm : ∀ t ∈ [1, 2], ∀ k, k < 3 →
      (fun x : ℕ => x) ((fun _ : ℕ => 0) t * 3 + k) < 3 := fun _ _ k hk => by
    simpa using hk
  ⟨⟨fun _ => rfl, hperm, List.Perm.swap 1 2 []⟩,
    (distribute_no_interference field_rep_00 [1, 2] (fun _ => rot_z90) (fun x => x)
      (fun _ => 0) (fun _ => 0) 1 3 (fun _ => rfl) hperm).2.2 [2, 1]
      (List.Perm.swap 1 2 [])⟩

/-- C24. The distributor accumulates instead of assigning: for every atom `i`
that occurs exactly once in `atom_list` with representative
`d = map_atoms[i] ≠ i` and `map_atoms[d] = d` (permutation entries of the
operation below `num_pos`), the block after `distribute_fc2_with_mappings` is
the block before the call plus the conjugated representative block,
`final FC[i][k][a][b] = initial FC[i][k][a][b] +
Σ_{l,m} R[l][a]·R[m][b]·FC[d][π(k)][l][m]`; the conjugated value alone is
obtained exactly when the entry was zero beforehand. -/
theorem distribute_adds_to_initial (fc2 : Mem (Fin 3 → Fin 3 → ℚ)) (atom_list : List ℕ)
    (r_carts : ℕ → Fin 3 → Fin 3 → ℚ) (permutations : ℕ → ℕ)
    (map_atoms map_syms : ℕ → ℕ) (num_rot num_pos i : ℕ)
    (hcount : atom_list.count i = 1) (hne : map_atoms i ≠ i)
    (hd : map_atoms (map_atoms i) = map_atoms i)
    (hperm : ∀ k, k < num_pos → permutations (map_syms i * num_pos + k) < num_pos)
    (k : ℕ) (hk : k < num_pos) (a b : Fin 3) :
    (distribute_fc2_with_mappings fc2 atom_list r_carts permutations map_atoms map_syms
        num_rot num_pos).read (i * num_pos + k) a b =
      fc2.read (i * num_pos + k) a b +
        ∑ l : Fin 3, ∑ m : Fin 3,
          r_carts (map_syms i) l a * r_carts (map_syms i) m b *
            fc2.read (map_atoms i * num_pos + permutations (map_syms i * num_pos + k)) l m ∧
    ((distribute_fc2_with_mappings fc2 atom_list r_carts permutations map_atoms map_syms
        num_rot num_pos).read (i * num_pos + k) a b =
      ∑ l : Fin 3, ∑ m : Fin 3,
        r_carts (map_syms i) l a * r_carts (map_syms i) m b *
          fc2.read (map_atoms i * num_pos + permutations (map_syms i * num_pos + k)) l m ↔
      fc2.read (i * num_pos + k) a b = 0) := by
  have h := distribute_accumulates fc2 atom_list r_carts permutations map_atoms map_syms
    num_rot num_pos i hcount hne (Or.inl hd) hperm k hk a b
  unfold conjugate at h
  refine ⟨h, ?_⟩
  rw [h]
  constructor
  · intro h2
    linarith
  · intro h2
    rw [h2, zero_add]

/-- Instance of C24: two atoms, atom 1 completed from atom 0 by the identity
operation, with `FC[1][0][0][0] = 1` before the call. -/
theorem distribute_adds_to_initial_witness :
    ([1].count 1 = 1 ∧ (fun _ : ℕ => 0) 1 ≠ 1 ∧
      (∀ k, k < 2 → (fun x : ℕ => x) ((fun _ : ℕ => 0) 1 * 2 + k) < 2)) ∧
    ((distribute_fc2_with_mappings field_todo_00 [1] (fun _ => rot_identity) (fun x => x)
        (fun _ => 0) (fun _ => 0) 1 2).read (1 * 2 + 0) 0 0 =
      field_todo_00.read (1 * 2 + 0) 0 0 +
        ∑ l : Fin 3, ∑ m : Fin 3,
          rot_identity l 0 * rot_identity m 0 *
            field_todo_00.read (0 * 2 + (0 * 2 + 0)) l m ∧
    ((distribute_fc2_with_mappings field_todo_00 [1] (fun _ => rot_identity) (fun x => x)
        (fun _ => 0) (fun _ => 0) 1 2).read (1 * 2 + 0) 0 0 =
      ∑ l : Fin 3, ∑ m : Fin 3,
        rot_identity l 0 * rot_identity m 0 *
          field_todo_00.read (0 * 2 + (0 * 2 + 0)) l m ↔
      field_todo_00.read (1 * 2 + 0) 0 0 = 0)) :=
  have hperm : ∀ k, k < 2 → (fun x : ℕ => x) ((fun _ : ℕ => 0) 1 * 2 + k) < 2 :=
    fun k hk => by simpa using hk
  ⟨⟨by decide, by decide, hperm⟩,
    distribute_adds_to_initial field_todo_00 [1] (fun _ => rot_identity) (fun x => x)
      (fun _ => 0) (fun _ => 0) 1 2 1 (by decide) (by decide) rfl hperm 0 (by decide) 0 0⟩
/-! ## Full-representation symmetriser: the permutation step -/

theorem average_pair_apply (fc : Mem ℚ) (m n x : ℕ) :
    (average_pair fc m n).read x =
      if x = m ∨ x = n then (fc.read m + fc.read n) / 2 else fc.read x := by
  unfold average_pair
  by_cases hn : x = n
  · subst hn
    simp
  · by_cases hm : x = m
    · subst hm
      simp [Mem.read_write_ne hn]
    · simp [Mem.read_write_ne hn, Mem.read_write_ne hm, hn, hm]

/-- A sequence of averaging steps whose index pairs are pairwise disjoint
replaces both entries of every pair by their average and leaves every other
entry alone. -/
theorem average_pairs_spec {τ : Type} (m n : τ → ℕ) (l : List τ) (fc : Mem ℚ)
    (hdis : l.Pairwise (fun t u => m t ≠ m u ∧ m t ≠ n u ∧ n t ≠ m u ∧ n t ≠ n u)) :
    (∀ t ∈ l,
      (l.foldl (fun f t => average_pair f (m t) (n t)) fc).read (m t) =
          (fc.read (m t) + fc.read (n t)) / 2 ∧
        (l.foldl (fun f t => average_pair f (m t) (n t)) fc).read (n t) =
          (fc.read (m t) + fc.read (n t)) / 2) ∧
    (∀ x, (∀ t ∈ l, x ≠ m t ∧ x ≠ n t) →
      (l.foldl (fun f t => average_pair f (m t) (n t)) fc).read x = fc.read x) := by
  induction l generalizing fc with
  | nil =>
    exact ⟨fun t ht => absurd ht (List.not_mem_nil t), fun x _ => rfl⟩
  | cons a l ih =>
    rw [List.pairwise_cons] at hdis
    obtain ⟨ha, hl⟩ := hdis
    obtain ⟨ih1, ih2⟩ := ih (average_pair fc (m a) (n a)) hl
    simp only [List.foldl_cons]
    constructor
    · intro t ht
      rcases List.mem_cons.mp ht with rfl | ht
      · have h1 := ih2 (m t) (fun u hu => ⟨(ha u hu).1, (ha u hu).2.1⟩)
        have h2 := ih2 (n t) (fun u hu => ⟨(ha u hu).2.2.1, (ha u hu).2.2.2⟩)
        rw [h1, h2, average_pair_apply, average_pair_apply]
        simp
      · obtain ⟨h1, h2⟩ := ih1 t ht
        obtain ⟨d1, d2, d3, d4⟩ := ha t ht
        rw [h1, h2, average_pair_apply, average_pair_apply,
          if_neg (by rintro (h | h); exact d1 h.symm; exact d3 h.symm),
          if_neg (by rintro (h | h); exact d2 h.symm; exact d4 h.symm)]
        exact ⟨rfl, rfl⟩
    · intro x hx
      rw [ih2 x (fun t ht => hx t (List.mem_cons_of_mem _ ht)), average_pair_apply,
        if_neg (by
          rintro (h | h)
          · exact (hx a (List.mem_cons_self _ _)).1 h
          · exact (hx a (List.mem_cons_self _ _)).2 h)]

theorem foldl_flatMap_eq {α β σ : Type} (f : σ → β → σ) (g : α → List β) (l : List α)
    (s : σ) :
    (l.flatMap g).foldl f s = l.foldl (fun s a => (g a).foldl f s) s := by
  induction l generalizing s with
  | nil => rfl
  | cons a l ih =>
    rw [List.flatMap_cons, List.foldl_append, List.foldl_cons, ih]

theorem perm_sym_offdiag_eq (natom i : ℕ) (fc : Mem ℚ) :
    perm_sym_offdiag natom i fc = (offdiag_tuples natom i).foldl (tuple_step natom) fc := by
  unfold perm_sym_offdiag offdiag_tuples
  simp only [foldl_flatMap_eq, List.foldl_map, tuple_step, fc_index]

theorem perm_sym_diag_eq (natom i : ℕ) (fc : Mem ℚ) :
    perm_sym_diag natom i fc = (diag_tuples i).foldl (tuple_step natom) fc := by
  unfold perm_sym_diag diag_tuples
  simp only [foldl_flatMap_eq, List.foldl_map, tuple_step, fc_index]

theorem set_index_permutation_symmetry_fc_eq (fc : Mem ℚ) (natom : ℕ) :
    set_index_permutation_symmetry_fc fc natom =
      (all_tuples natom).foldl (tuple_step natom) fc := by
  unfold set_index_permutation_symmetry_fc all_tuples
  rw [foldl_flatMap_eq]
  congr 1
  funext f i
  rw [List.foldl_append, perm_sym_offdiag_eq, perm_sym_diag_eq]

theorem mem_offdiag_tuples (natom i : ℕ) (t : ℕ × ℕ × ℕ × ℕ) :
    t ∈ offdiag_tuples natom i ↔
      t.1 = i ∧ i < t.2.1 ∧ t.2.1 < natom ∧ t.2.2.1 < 3 ∧ t.2.2.2 < 3 := by
  obtain ⟨a, b, c, d⟩ := t
  simp only [offdiag_tuples, List.mem_flatMap, List.mem_map, List.Ico.mem, List.mem_range,
    Prod.mk.injEq]
  constructor
  · rintro ⟨j, ⟨hj1, hj2⟩, k, hk, l, hl, rfl, rfl, rfl, rfl⟩
    exact ⟨rfl, by omega, hj2, hk, hl⟩
  · rintro ⟨rfl, h1, h2, h3, h4⟩
    exact ⟨b, ⟨by omega, h2⟩, c, h3, d, h4, rfl, rfl, rfl, rfl⟩

theorem mem_diag_tuples (i : ℕ) (t : ℕ × ℕ × ℕ × ℕ) :
    t ∈ diag_tuples i ↔ t.1 = i ∧ t.2.1 = i ∧ t.2.2.1 < t.2.2.2 ∧ t.2.2.2 < 3 := by
  obtain ⟨a, b, c, d⟩ := t
  simp only [diag_tuples, List.mem_flatMap, List.mem_map, List.Ico.mem, List.mem_range,
    Prod.mk.injEq]
  constructor
  · rintro ⟨k, hk, l, ⟨hl1, hl2⟩, rfl, rfl, rfl, rfl⟩
    exact ⟨rfl, rfl, by omega, hl2⟩
  · rintro ⟨rfl, rfl, h1, h2⟩
    exact ⟨c, by omega, d, ⟨by omega, h2⟩, rfl, rfl, rfl, rfl⟩

theorem mem_all_tuples (natom : ℕ) (t : ℕ × ℕ × ℕ × ℕ) :
    t ∈ all_tuples natom ↔
      t.1 < natom ∧
        ((t.1 < t.2.1 ∧ t.2.1 < natom ∧ t.2.2.1 < 3 ∧ t.2.2.2 < 3) ∨
          (t.2.1 = t.1 ∧ t.2.2.1 < t.2.2.2 ∧ t.2.2.2 < 3)) := by
  simp only [all_tuples, List.mem_flatMap, List.mem_range, List.mem_append,
    mem_offdiag_tuples, mem_diag_tuples]
  constructor
  · rintro ⟨i, hi, ⟨rfl, h1, h2, h3, h4⟩ | ⟨rfl, h1, h2, h3⟩⟩
    · exact ⟨hi, Or.inl ⟨h1, h2, h3, h4⟩⟩
    · exact ⟨hi, Or.inr ⟨h1, h2, h3⟩⟩
  · rintro ⟨hi, ⟨h1, h2, h3, h4⟩ | ⟨h1, h2, h3⟩⟩
    · exact ⟨t.1, hi, Or.inl ⟨rfl, h1, h2, h3, h4⟩⟩
    · exact ⟨t.1, hi, Or.inr ⟨rfl, h1, h2, h3⟩⟩

theorem nodup_offdiag_tuples (natom i : ℕ) : (offdiag_tuples natom i).Nodup := by
  unfold offdiag_tuples
  rw [List.nodup_flatMap]
  constructor
  · intro j _
    simp [List.range_succ, List.flatMap, -Prod.mk_zero_zero, -Prod.mk_one_one]
  · refine (List.Ico.nodup (i + 1) natom).imp ?_
    intro j1 j2 hne t h1 h2
    simp only [List.mem_flatMap, List.mem_map, List.mem_range] at h1 h2
    obtain ⟨_, _, _, _, rfl⟩ := h1
    obtain ⟨_, _, _, _, h⟩ := h2
    simp only [Prod.mk.injEq] at h
    exact hne h.2.1.symm

theorem nodup_diag_tuples (i : ℕ) : (diag_tuples i).Nodup := by
  have : diag_tuples i = [(i, i, 0, 1), (i, i, 0, 2), (i, i, 1, 2)] := rfl
  rw [this]
  simp

theorem nodup_all_tuples (natom : ℕ) : (all_tuples natom).Nodup := by
  unfold all_tuples
  rw [List.nodup_flatMap]
  constructor
  · intro i _
    rw [List.nodup_append]
    refine ⟨nodup_offdiag_tuples natom i, nodup_diag_tuples i, ?_⟩
    intro t h1 h2
    rw [mem_offdiag_tuples] at h1
    rw [mem_diag_tuples] at h2
    omega
  · refine (List.nodup_range natom).imp ?_
    intro i1 i2 hne t h1 h2
    have e1 : t.1 = i1 := by
      rcases List.mem_append.mp h1 with h | h
      · exact ((mem_offdiag_tuples natom i1 t).mp h).1
      · exact ((mem_diag_tuples i1 t).mp h).1
    have e2 : t.1 = i2 := by
      rcases List.mem_append.mp h2 with h | h
      · exact ((mem_offdiag_tuples natom i2 t).mp h).1
      · exact ((mem_diag_tuples i2 t).mp h).1
    exact hne (e1.symm.trans e2)

theorem fc_index_inj (natom i j a b i2 j2 a2 b2 : ℕ) (hj : j < natom) (hj2 : j2 < natom)
    (ha : a < 3) (hb : b < 3) (ha2 : a2 < 3) (hb2 : b2 < 3)
    (h : fc_index natom i j a b = fc_index natom i2 j2 a2 b2) :
    i = i2 ∧ j = j2 ∧ a = a2 ∧ b = b2 := by
  unfold fc_index at h
  have h1 : i * natom + j = i2 * natom + j2 ∧ a = a2 ∧ b = b2 := by
    have e1 : i * natom * 9 = 9 * (i * natom) := by ring
    have e2 : i2 * natom * 9 = 9 * (i2 * natom) := by ring
    rw [e1, e2] at h
    generalize i * natom = p at h ⊢
    generalize i2 * natom = q at h ⊢
    omega
  obtain ⟨h2, h3, h4⟩ := h1
  obtain ⟨h5, h6⟩ := row_index_inj natom i i2 j j2 hj hj2 h2
  exact ⟨h5, h6, h3, h4⟩

theorem all_tuples_bounds (natom : ℕ) (t : ℕ × ℕ × ℕ × ℕ) (ht : t ∈ all_tuples natom) :
    t.1 < natom ∧ t.2.1 < natom ∧ t.2.2.1 < 3 ∧ t.2.2.2 < 3 ∧
      (t.1 < t.2.1 ∨ (t.2.1 = t.1 ∧ t.2.2.1 < t.2.2.2)) := by
  rw [mem_all_tuples] at ht
  omega

theorem all_tuples_disjoint (natom : ℕ) :
    (all_tuples natom).Pairwise (fun t u =>
      fc_index natom t.1 t.2.1 t.2.2.1 t.2.2.2 ≠
          fc_index natom u.1 u.2.1 u.2.2.1 u.2.2.2 ∧
        fc_index natom t.1 t.2.1 t.2.2.1 t.2.2.2 ≠
          fc_index natom u.2.1 u.1 u.2.2.2 u.2.2.1 ∧
        fc_index natom t.2.1 t.1 t.2.2.2 t.2.2.1 ≠
          fc_index natom u.1 u.2.1 u.2.2.1 u.2.2.2 ∧
        fc_index natom t.2.1 t.1 t.2.2.2 t.2.2.1 ≠
          fc_index natom u.2.1 u.1 u.2.2.2 u.2.2.1) := by
  refine (nodup_all_tuples natom).imp_of_mem ?_
  intro t u ht hu hne
  obtain ⟨t1, t2, t3, t4, t5⟩ := all_tuples_bounds natom t ht
  obtain ⟨u1, u2, u3, u4, u5⟩ := all_tuples_bounds natom u hu
  refine ⟨?_, ?_, ?_, ?_⟩
  · intro h
    obtain ⟨e1, e2, e3, e4⟩ := fc_index_inj natom _ _ _ _ _ _ _ _ t2 u2 t3 t4 u3 u4 h
    exact hne (Prod.ext e1 (Prod.ext e2 (Prod.ext e3 e4)))
  · intro h
    obtain ⟨e1, e2, e3, e4⟩ := fc_index_inj natom _ _ _ _ _ _ _ _ t2 u1 t3 t4 u4 u3 h
    omega
  · intro h
    obtain ⟨e1, e2, e3, e4⟩ := fc_index_inj natom _ _ _ _ _ _ _ _ t1 u2 t4 t3 u3 u4 h
    omega
  · intro h
    obtain ⟨e1, e2, e3, e4⟩ := fc_index_inj natom _ _ _ _ _ _ _ _ t1 u1 t4 t3 u4 u3 h
    exact hne (Prod.ext e2 (Prod.ext e1 (Prod.ext e4 e3)))

/-- Every entry of the field is averaged with its partner once by the full
permutation step, from the values the field had before the call. -/
theorem permutation_step_read (fc : Mem ℚ) (natom i j a b : ℕ)
    (hi : i < natom) (hj : j < natom) (ha : a < 3) (hb : b < 3) :
    (set_index_permutation_symmetry_fc fc natom).read
        (i * natom * 9 + j * 9 + a * 3 + b) =
      (fc.read (i * natom * 9 + j * 9 + a * 3 + b) +
        fc.read (j * natom * 9 + i * 9 + b * 3 + a)) / 2 := by
  obtain ⟨spec1, spec2⟩ := average_pairs_spec
    (fun t : ℕ × ℕ × ℕ × ℕ => fc_index natom t.1 t.2.1 t.2.2.1 t.2.2.2)
    (fun t : ℕ × ℕ × ℕ × ℕ => fc_index natom t.2.1 t.1 t.2.2.2 t.2.2.1)
    (all_tuples natom) fc (all_tuples_disjoint natom)
  have hfold : set_index_permutation_symmetry_fc fc natom =
      (all_tuples natom).foldl (fun f t =>
        average_pair f (fc_index natom t.1 t.2.1 t.2.2.1 t.2.2.2)
          (fc_index natom t.2.1 t.1 t.2.2.2 t.2.2.1)) fc :=
    set_index_permutation_symmetry_fc_eq fc natom
  rw [hfold]
  have direct : ∀ i j a b, (i, j, a, b) ∈ all_tuples natom →
      ((all_tuples natom).foldl (fun f t =>
        average_pair f (fc_index natom t.1 t.2.1 t.2.2.1 t.2.2.2)
          (fc_index natom t.2.1 t.1 t.2.2.2 t.2.2.1)) fc).read
          (i * natom * 9 + j * 9 + a * 3 + b) =
        (fc.read (i * natom * 9 + j * 9 + a * 3 + b) +
          fc.read (j * natom * 9 + i * 9 + b * 3 + a)) / 2 :=
    fun i j a b h => (spec1 (i, j, a, b) h).1
  have swapped : ∀ i j a b, (j, i, b, a) ∈ all_tuples natom →
      ((all_tuples natom).foldl (fun f t =>
        average_pair f (fc_index natom t.1 t.2.1 t.2.2.1 t.2.2.2)
          (fc_index natom t.2.1 t.1 t.2.2.2 t.2.2.1)) fc).read
          (i * natom * 9 + j * 9 + a * 3 + b) =
        (fc.read (i * natom * 9 + j * 9 + a * 3 + b) +
          fc.read (j * natom * 9 + i * 9 + b * 3 + a)) / 2 := by
    intro i j a b h
    have h2 : _ = (fc.read (j * natom * 9 + i * 9 + b * 3 + a) +
        fc.read (i * natom * 9 + j * 9 + a * 3 + b)) / 2 := (spec1 (j, i, b, a) h).2
    rw [add_comm] at h2
    exact h2
  rcases Nat.lt_trichotomy i j with hij | hij | hij
  · exact direct i j a b ((mem_all_tuples natom _).mpr ⟨hi, Or.inl ⟨hij, hj, ha, hb⟩⟩)
  · subst hij
    rcases Nat.lt_trichotomy a b with hab | hab | hab
    · exact direct i i a b ((mem_all_tuples natom _).mpr ⟨hi, Or.inr ⟨rfl, hab, hb⟩⟩)
    · subst hab
      have hun : ∀ t ∈ all_tuples natom,
          i * natom * 9 + i * 9 + a * 3 + a ≠
              fc_index natom t.1 t.2.1 t.2.2.1 t.2.2.2 ∧
            i * natom * 9 + i * 9 + a * 3 + a ≠
              fc_index natom t.2.1 t.1 t.2.2.2 t.2.2.1 := by
        intro t ht
        obtain ⟨t1, t2, t3, t4, t5⟩ := all_tuples_bounds natom t ht
        constructor
        · intro h
          obtain ⟨e1, e2, e3, e4⟩ :=
            fc_index_inj natom i i a a _ _ _ _ hi t2 ha ha t3 t4 h
          omega
        · intro h
          obtain ⟨e1, e2, e3, e4⟩ :=
            fc_index_inj natom i i a a _ _ _ _ hi t1 ha ha t4 t3 h
          omega
      rw [spec2 _ hun]
      ring
    · exact swapped i i a b ((mem_all_tuples natom _).mpr ⟨hi, Or.inr ⟨rfl, hab, ha⟩⟩)
  · exact swapped i j a b ((mem_all_tuples natom _).mpr ⟨hj, Or.inl ⟨hij, hi, hb, ha⟩⟩)

/-- C10. The full permutation step equals its out-of-place definition: for
every `natom` and every field, `set_index_permutation_symmetry_fc` yields
`new FC[i][j][a][b] = (old FC[i][j][a][b] + old FC[j][i][b][a]) / 2` for all
atoms `i`, `j` (including `i = j`) and all `a`, `b`; every entry is averaged
with its partner once, from the values the field had before the call. -/
theorem set_index_permutation_symmetry_fc_spec (fc : Mem ℚ) (natom i j a b : ℕ)
    (hi : i < natom) (hj : j < natom) (ha : a < 3) (hb : b < 3) :
    (set_index_permutation_symmetry_fc fc natom).read
        (i * natom * 9 + j * 9 + a * 3 + b) =
      (fc.read (i * natom * 9 + j * 9 + a * 3 + b) +
        fc.read (j * natom * 9 + i * 9 + b * 3 + a)) / 2 :=
  permutation_step_read fc natom i j a b hi hj ha hb

/-- Instance of C10: a field of two atoms with `FC[0][1][0][1] = 1` and
`FC[1][0][1][0] = 3` has `FC[0][1][0][1] = 2` after the permutation step. -/
theorem set_index_permutation_symmetry_fc_spec_witness :
    (0 < 2 ∧ 1 < 2 ∧ 0 < 3 ∧ 1 < 3) ∧
    (set_index_permutation_symmetry_fc field_two_entries 2).read
        (0 * 2 * 9 + 1 * 9 + 0 * 3 + 1) =
      (field_two_entries.read (0 * 2 * 9 + 1 * 9 + 0 * 3 + 1) +
        field_two_entries.read (1 * 2 * 9 + 0 * 9 + 1 * 3 + 0)) / 2 :=
  ⟨by decide,
    set_index_permutation_symmetry_fc_spec _ 2 0 1 0 1 (by decide) (by decide) (by decide)
      (by decide)⟩

/-! ## Translational step -/

theorem cond_sum_foldl (g : ℕ → ℚ) (c n : ℕ) :
    (List.range n).foldl (fun s j => if c ≠ j then s + g j else s) 0 =
      ∑ j in (Finset.range n).filter (fun j => j ≠ c), g j := by
  induction n with
  | zero => simp
  | succ n ih =>
    rw [List.range_succ, List.foldl_append, List.foldl_cons, List.foldl_nil, ih,
      Finset.range_succ, Finset.filter_insert]
    by_cases h : c = n
    · subst h
      simp
    · have h2 : n ≠ c := fun e => h e.symm
      rw [if_pos h, if_pos h2, Finset.sum_insert (by simp), add_comm]

/-- The entry `sums[k][l]` as a sum over the columns other than `diag_col`. -/
theorem sums_entry_eq (fc : Mem ℚ) (n_cols row diag_col k l : ℕ) :
    sums_entry fc n_cols row diag_col k l =
      ∑ j in (Finset.range n_cols).filter (fun j => j ≠ diag_col),
        fc.read (row * n_cols * 9 + j * 9 + k * 3 + l) := by
  unfold sums_entry
  rw [cond_sum_foldl (fun j => fc.read (row * n_cols * 9 + k * 3 + l + j * 9))]
  apply Finset.sum_congr rfl
  intro j _
  congr 1
  omega

/-- The row step writes the nine entries of the block of column `diag_col`
and nothing else. -/
theorem sum_rule_row_read (fc : Mem ℚ) (n_cols row diag_col x : ℕ) :
    (sum_rule_row fc n_cols row diag_col).read x =
      if row * n_cols * 9 + diag_col * 9 ≤ x ∧ x < row * n_cols * 9 + diag_col * 9 + 9 then
        -(sums_entry fc n_cols row diag_col
              ((x - (row * n_cols * 9 + diag_col * 9)) / 3)
              ((x - (row * n_cols * 9 + diag_col * 9)) % 3) +
            sums_entry fc n_cols row diag_col
              ((x - (row * n_cols * 9 + diag_col * 9)) % 3)
              ((x - (row * n_cols * 9 + diag_col * 9)) / 3)) / 2
      else fc.read x := by
  generalize hb : row * n_cols * 9 + diag_col * 9 = base
  by_cases hx : base ≤ x ∧ x < base + 9
  · rw [if_pos hx]
    obtain ⟨t, rfl⟩ : ∃ t, x = base + t := ⟨x - base, by omega⟩
    have ht : t < 9 := by omega
    rw [Nat.add_sub_cancel_left]
    unfold sum_rule_row
    rw [hb]
    interval_cases t <;>
      simp [List.range_succ, Mem.read_write, Nat.add_assoc]
  · rw [if_neg hx]
    unfold sum_rule_row
    rw [hb]
    have hne : ∀ t, t < 9 → x ≠ base + t := by
      intro t ht h
      omega
    simp only [List.range_succ, List.range_zero, List.nil_append, List.foldl_cons,
      List.foldl_nil, List.foldl_append]
    simp only [Mem.read_write]
    rw [if_neg (by have := hne 8 (by norm_num); omega),
      if_neg (by have := hne 7 (by norm_num); omega),
      if_neg (by have := hne 6 (by norm_num); omega),
      if_neg (by have := hne 5 (by norm_num); omega),
      if_neg (by have := hne 4 (by norm_num); omega),
      if_neg (by have := hne 3 (by norm_num); omega),
      if_neg (by have := hne 2 (by norm_num); omega),
      if_neg (by have := hne 1 (by norm_num); omega),
      if_neg (by have := hne 0 (by norm_num); omega)]

theorem sum_rule_row_diag (fc : Mem ℚ) (n_cols row diag_col k l : ℕ) (hk : k < 3)
    (hl : l < 3) :
    (sum_rule_row fc n_cols row diag_col).read
        (row * n_cols * 9 + diag_col * 9 + k * 3 + l) =
      -(sums_entry fc n_cols row diag_col k l + sums_entry fc n_cols row diag_col l k) / 2 := by
  rw [sum_rule_row_read, if_pos (by omega)]
  have e1 : (row * n_cols * 9 + diag_col * 9 + k * 3 + l -
      (row * n_cols * 9 + diag_col * 9)) / 3 = k := by omega
  have e2 : (row * n_cols * 9 + diag_col * 9 + k * 3 + l -
      (row * n_cols * 9 + diag_col * 9)) % 3 = l := by omega
  rw [e1, e2]

theorem sum_rule_row_other (fc : Mem ℚ) (n_cols row diag_col x : ℕ)
    (hx : ¬ (row * n_cols * 9 + diag_col * 9 ≤ x ∧
      x < row * n_cols * 9 + diag_col * 9 + 9)) :
    (sum_rule_row fc n_cols row diag_col).read x = fc.read x := by
  rw [sum_rule_row_read, if_neg hx]

/-- An entry `(i, j, a, b)` of a field with `n` columns lies in the block of
row `r` and column `c` exactly when `i = r` and `j = c`. -/
theorem in_block_iff (n i j a b r c : ℕ) (hj : j < n) (hc : c < n) (ha : a < 3)
    (hb : b < 3) :
    (r * n * 9 + c * 9 ≤ i * n * 9 + j * 9 + a * 3 + b ∧
      i * n * 9 + j * 9 + a * 3 + b < r * n * 9 + c * 9 + 9) ↔ (i = r ∧ j = c) := by
  constructor
  · rintro ⟨h1, h2⟩
    have h3 : i * n + j = r * n + c := by
      have e1 : i * n * 9 = 9 * (i * n) := by ring
      have e2 : r * n * 9 = 9 * (r * n) := by ring
      rw [e1, e2] at h1 h2
      generalize i * n = p at h1 h2 ⊢
      generalize r * n = q at h1 h2 ⊢
      omega
    exact row_index_inj n i r j c hj hc h3
  · rintro ⟨rfl, rfl⟩
    omega

/-- The loop over the rows of the translational step, for a field with `n`
columns whose row `r` has its diagonal block in column `dc r`: every diagonal
block becomes `-(S + Sᵗ) / 2` with `S` the sum of the other blocks of the row
in the initial field, and nothing else is written. -/
theorem translational_fold_spec (f0 : Mem ℚ) (n : ℕ) (dc : ℕ → ℕ) (rows : ℕ)
    (hdc : ∀ r, r < rows → dc r < n) :
    (∀ r, r < rows → ∀ k l, k < 3 → l < 3 →
      ((List.range rows).foldl (fun f r => sum_rule_row f n r (dc r)) f0).read
          (r * n * 9 + dc r * 9 + k * 3 + l) =
        -(sums_entry f0 n r (dc r) k l + sums_entry f0 n r (dc r) l k) / 2) ∧
    (∀ x, (∀ r, r < rows → ¬ (r * n * 9 + dc r * 9 ≤ x ∧ x < r * n * 9 + dc r * 9 + 9)) →
      ((List.range rows).foldl (fun f r => sum_rule_row f n r (dc r)) f0).read x =
        f0.read x) := by
  induction rows with
  | zero =>
    exact ⟨fun r hr => by omega, fun x _ => rfl⟩
  | succ m ih =>
    obtain ⟨ih1, ih2⟩ := ih (fun r hr => hdc r (by omega))
    rw [List.range_succ, List.foldl_append, List.foldl_cons, List.foldl_nil]
    -- the sums of row `m` read entries that the earlier rows did not write
    have hsums : ∀ k l, k < 3 → l < 3 →
        sums_entry ((List.range m).foldl (fun f r => sum_rule_row f n r (dc r)) f0) n m
            (dc m) k l = sums_entry f0 n m (dc m) k l := by
      intro k l hk hl
      rw [sums_entry_eq, sums_entry_eq]
      apply Finset.sum_congr rfl
      intro j hj
      have hjn : j < n := Finset.mem_range.mp (Finset.mem_filter.mp hj).1
      apply ih2
      intro r hr hin
      have := (in_block_iff n m j k l r (dc r) hjn (hdc r (by omega)) hk hl).mp hin
      omega
    constructor
    · intro r hr k l hk hl
      by_cases hrm : r = m
      · subst hrm
        rw [sum_rule_row_diag _ _ _ _ _ _ hk hl, hsums k l hk hl, hsums l k hl hk]
      · have hr2 : r < m := by omega
        rw [sum_rule_row_other, ih1 r hr2 k l hk hl]
        intro hin
        have := (in_block_iff n r (dc r) k l m (dc m) (hdc r (by omega)) (hdc m (by omega))
          hk hl).mp hin
        omega
    · intro x hx
      rw [sum_rule_row_other _ _ _ _ _ (hx m (by omega)),
        ih2 x (fun r hr => hx r (by omega))]

/-- What `set_translational_symmetry_fc` does to a full field. -/
theorem translational_step_read (fc : Mem ℚ) (natom i j a b : ℕ) (hi : i < natom)
    (hj : j < natom) (ha : a < 3) (hb : b < 3) :
    (set_translational_symmetry_fc fc natom).read (i * natom * 9 + j * 9 + a * 3 + b) =
      if j = i then
        -(offdiag_row_sum fc natom i a b + offdiag_row_sum fc natom i b a) / 2
      else fc.read (i * natom * 9 + j * 9 + a * 3 + b) := by
  obtain ⟨h1, h2⟩ := translational_fold_spec fc natom (fun r => r) natom (fun r hr => hr)
  unfold set_translational_symmetry_fc
  by_cases hji : j = i
  · subst hji
    rw [if_pos rfl, h1 j hj a b ha hb, sums_entry_eq, sums_entry_eq]
    rfl
  · rw [if_neg hji]
    apply h2
    intro r hr hin
    have := (in_block_iff natom i j a b r r hj hr ha hb).mp hin
    omega


theorem row_sum_split (fc : Mem ℚ) (natom i a b : ℕ) (hi : i < natom) :
    row_sum fc natom i a b =
      fc.read (i * natom * 9 + i * 9 + a * 3 + b) + offdiag_row_sum fc natom i a b := by
  unfold row_sum offdiag_row_sum
  rw [Finset.filter_ne']
  exact (Finset.add_sum_erase (Finset.range natom)
    (fun j => fc.read (i * natom * 9 + j * 9 + a * 3 + b)) (Finset.mem_range.mpr hi)).symm

theorem offdiag_row_sum_congr (f g : Mem ℚ) (natom i a b : ℕ)
    (h : ∀ j, j < natom → j ≠ i →
      f.read (i * natom * 9 + j * 9 + a * 3 + b) =
        g.read (i * natom * 9 + j * 9 + a * 3 + b)) :
    offdiag_row_sum f natom i a b = offdiag_row_sum g natom i a b := by
  unfold offdiag_row_sum
  apply Finset.sum_congr rfl
  intro j hj
  rw [Finset.mem_filter, Finset.mem_range] at hj
  exact h j hj.1 hj.2

/-- What `py_perm_trans_symmetrize_fc` leaves in the field: off the diagonal the
average of the entry with its partner, on the diagonal `-(S + Sᵗ) / 2` with `S`
the sum of the other blocks of the row after the permutation step. -/
theorem full_symmetrizer_read (fc : Mem ℚ) (natom i j a b : ℕ) (hi : i < natom)
    (hj : j < natom) (ha : a < 3) (hb : b < 3) :
    (py_perm_trans_symmetrize_fc fc natom).read (i * natom * 9 + j * 9 + a * 3 + b) =
      if j = i then
        -(offdiag_row_sum (set_index_permutation_symmetry_fc fc natom) natom i a b +
          offdiag_row_sum (set_index_permutation_symmetry_fc fc natom) natom i b a) / 2
      else (fc.read (i * natom * 9 + j * 9 + a * 3 + b) +
        fc.read (j * natom * 9 + i * 9 + b * 3 + a)) / 2 := by
  unfold py_perm_trans_symmetrize_fc
  rw [translational_step_read _ natom i j a b hi hj ha hb]
  by_cases hji : j = i
  · rw [if_pos hji, if_pos hji]
  · rw [if_neg hji, if_neg hji, permutation_step_read fc natom i j a b hi hj ha hb]

/-- The sum of a row of blocks after `py_perm_trans_symmetrize_fc` is
`(S - Sᵗ) / 2`, with `S` the sum of the off-diagonal blocks of the row after the
permutation step. -/
theorem full_symmetrizer_row_sum (fc : Mem ℚ) (natom i a b : ℕ) (hi : i < natom)
    (ha : a < 3) (hb : b < 3) :
    row_sum (py_perm_trans_symmetrize_fc fc natom) natom i a b =
      (offdiag_row_sum (set_index_permutation_symmetry_fc fc natom) natom i a b -
        offdiag_row_sum (set_index_permutation_symmetry_fc fc natom) natom i b a) / 2 := by
  rw [row_sum_split _ natom i a b hi, full_symmetrizer_read fc natom i i a b hi hi ha hb,
    if_pos rfl]
  have hoff : offdiag_row_sum (py_perm_trans_symmetrize_fc fc natom) natom i a b =
      offdiag_row_sum (set_index_permutation_symmetry_fc fc natom) natom i a b := by
    apply offdiag_row_sum_congr _ _ natom i a b
    intro j hj hji
    unfold py_perm_trans_symmetrize_fc
    rw [translational_step_read _ natom i j a b hi hj ha hb, if_neg hji]
  rw [hoff]
  ring

/-- C11. The full translational step: for every `natom` and every field,
`set_translational_symmetry_fc` sets `FC[i][i][a][b] = -(S[a][b] + S[b][a]) / 2`
for every atom `i`, where `S` is the sum of the blocks `FC[i][j]`, `j ≠ i`, of
the input field, and leaves every block `FC[i][j]` with `j ≠ i` as it was. -/
theorem set_translational_symmetry_fc_spec (fc : Mem ℚ) (natom i a b : ℕ)
    (hi : i < natom) (ha : a < 3) (hb : b < 3) :
    (set_translational_symmetry_fc fc natom).read (i * natom * 9 + i * 9 + a * 3 + b) =
        -((∑ j in (Finset.range natom).filter (fun j => j ≠ i),
              fc.read (i * natom * 9 + j * 9 + a * 3 + b)) +
            (∑ j in (Finset.range natom).filter (fun j => j ≠ i),
              fc.read (i * natom * 9 + j * 9 + b * 3 + a))) / 2 ∧
      ∀ j, j < natom → j ≠ i →
        (set_translational_symmetry_fc fc natom).read (i * natom * 9 + j * 9 + a * 3 + b) =
          fc.read (i * natom * 9 + j * 9 + a * 3 + b) := by
  constructor
  · rw [translational_step_read fc natom i i a b hi hi ha hb, if_pos rfl]
    rfl
  · intro j hj hji
    rw [translational_step_read fc natom i j a b hi hj ha hb, if_neg hji]

/-- Instance of C11: in the field of two atoms whose only nonzero entry is
`FC[0][1][0][0] = 1`, the translational step sets `FC[0][0][0][0]` from the sum
over `j ≠ 0` and keeps the block `FC[0][1]`. -/
theorem set_translational_symmetry_fc_spec_witness :
    (0 < 2 ∧ 0 < 3) ∧
    ((set_translational_symmetry_fc field_one_entry 2).read (0 * 2 * 9 + 0 * 9 + 0 * 3 + 0) =
        -((∑ j in (Finset.range 2).filter (fun j => j ≠ 0),
              field_one_entry.read (0 * 2 * 9 + j * 9 + 0 * 3 + 0)) +
            (∑ j in (Finset.range 2).filter (fun j => j ≠ 0),
              field_one_entry.read (0 * 2 * 9 + j * 9 + 0 * 3 + 0))) / 2 ∧
      ∀ j, j < 2 → j ≠ 0 →
        (set_translational_symmetry_fc field_one_entry 2).read
            (0 * 2 * 9 + j * 9 + 0 * 3 + 0) =
          field_one_entry.read (0 * 2 * 9 + j * 9 + 0 * 3 + 0)) :=
  ⟨by decide,
    set_translational_symmetry_fc_spec field_one_entry 2 0 0 0 (by decide) (by decide)
      (by decide)⟩

/-- C12. Permutation symmetry after the full symmetrizer: for every `natom` and
every input field, after `py_perm_trans_symmetrize_fc` the entries satisfy
`FC[i][j][a][b] = FC[j][i][b][a]` for all atoms `i`, `j`, the diagonal blocks
included, and all `a`, `b`. -/
theorem full_symmetrizer_permutation_symmetric (fc : Mem ℚ) (natom i j a b : ℕ)
    (hi : i < natom) (hj : j < natom) (ha : a < 3) (hb : b < 3) :
    (py_perm_trans_symmetrize_fc fc natom).read (i * natom * 9 + j * 9 + a * 3 + b) =
      (py_perm_trans_symmetrize_fc fc natom).read (j * natom * 9 + i * 9 + b * 3 + a) := by
  rw [full_symmetrizer_read fc natom i j a b hi hj ha hb,
    full_symmetrizer_read fc natom j i b a hj hi hb ha]
  by_cases hji : j = i
  · subst hji
    rw [if_pos rfl, if_pos rfl, add_comm]
  · rw [if_neg hji, if_neg (fun h => hji h.symm), add_comm]

/-- Instance of C12: the field of two atoms with `FC[0][1][0][1] = 1` and
`FC[1][0][1][0] = 3`, at the entries `FC[0][1][0][1]` and `FC[1][0][1][0]`. -/
theorem full_symmetrizer_permutation_symmetric_witness :
    (0 < 2 ∧ 1 < 2 ∧ 0 < 3 ∧ 1 < 3) ∧
    (py_perm_trans_symmetrize_fc field_two_entries 2).read
        (0 * 2 * 9 + 1 * 9 + 0 * 3 + 1) =
      (py_perm_trans_symmetrize_fc field_two_entries 2).read
        (1 * 2 * 9 + 0 * 9 + 1 * 3 + 0) :=
  ⟨by decide,
    full_symmetrizer_permutation_symmetric field_two_entries 2 0 1 0 1 (by decide)
      (by decide) (by decide) (by decide)⟩

theorem filter_ne_zero_range_two :
    (Finset.range 2).filter (fun j => j ≠ 0) = {1} := by decide

theorem filter_ne_one_range_two :
    (Finset.range 2).filter (fun j => j ≠ 1) = {0} := by decide

/-- The sum of the off-diagonal blocks of row `0` of a field of two atoms after
the permutation step. -/
theorem offdiag_row_sum_two (fc : Mem ℚ) (a b : ℕ) (ha : a < 3) (hb : b < 3) :
    offdiag_row_sum (set_index_permutation_symmetry_fc fc 2) 2 0 a b =
      (fc.read (0 * 2 * 9 + 1 * 9 + a * 3 + b) +
        fc.read (1 * 2 * 9 + 0 * 9 + b * 3 + a)) / 2 := by
  unfold offdiag_row_sum
  rw [filter_ne_zero_range_two, Finset.sum_singleton,
    permutation_step_read fc 2 0 1 a b (by decide) (by decide) ha hb]

/-- C13, amended. The acoustic sum rule after the full symmetrizer holds for a
row `i` whenever the sum `S` of the off-diagonal blocks `FC[i][j]`, `j ≠ i`, of
the permutation-symmetrized field is a symmetric matrix: then the sum over all
atoms `j` of the output blocks `FC[i][j]` after `py_perm_trans_symmetrize_fc` is
the zero matrix. In general that sum is `(S - Sᵗ) / 2`. -/
theorem full_symmetrizer_sum_rule (fc : Mem ℚ) (natom i a b : ℕ) (hi : i < natom)
    (ha : a < 3) (hb : b < 3)
    (hS : offdiag_row_sum (set_index_permutation_symmetry_fc fc natom) natom i a b =
      offdiag_row_sum (set_index_permutation_symmetry_fc fc natom) natom i b a) :
    row_sum (py_perm_trans_symmetrize_fc fc natom) natom i a b = 0 := by
  rw [full_symmetrizer_row_sum fc natom i a b hi ha hb, hS, sub_self, zero_div]

theorem field_one_entry_offdiag :
    offdiag_row_sum (set_index_permutation_symmetry_fc field_one_entry 2) 2 0 0 1 =
      offdiag_row_sum (set_index_permutation_symmetry_fc field_one_entry 2) 2 0 1 0 := by
  rw [offdiag_row_sum_two _ 0 1 (by decide) (by decide),
    offdiag_row_sum_two _ 1 0 (by decide) (by decide)]
  simp only [field_one_entry]
  norm_num

/-- Instance of C13, amended: in the field of two atoms whose only nonzero entry
is `FC[0][1][0][0] = 1`, the off-diagonal sum of row `0` is symmetric at `(0, 1)`
and the entry `(0, 1)` of the sum of row `0` vanishes after the full
symmetrizer. -/
theorem full_symmetrizer_sum_rule_witness :
    (0 < 2 ∧ 0 < 3 ∧ 1 < 3) ∧
    offdiag_row_sum (set_index_permutation_symmetry_fc field_one_entry 2) 2 0 0 1 =
      offdiag_row_sum (set_index_permutation_symmetry_fc field_one_entry 2) 2 0 1 0 ∧
    row_sum (py_perm_trans_symmetrize_fc field_one_entry 2) 2 0 0 1 = 0 :=
  ⟨by decide, field_one_entry_offdiag,
    full_symmetrizer_sum_rule field_one_entry 2 0 0 1 (by decide) (by decide) (by decide)
      field_one_entry_offdiag⟩

/-- Counterexample to C13 as stated: for the field of two atoms with
`FC[0][1][0][1] = 1` and `FC[1][0][1][0] = 3`, the sum over `j` of the output
blocks `FC[0][j]` has the entry `1` at `(0, 1)` after the full symmetrizer. -/
theorem full_symmetrizer_sum_rule_counterexample :
    row_sum (py_perm_trans_symmetrize_fc field_two_entries 2) 2 0 0 1 = 1 ∧
    row_sum (py_perm_trans_symmetrize_fc field_two_entries 2) 2 0 0 1 ≠ 0 := by
  have h : row_sum (py_perm_trans_symmetrize_fc field_two_entries 2) 2 0 0 1 = 1 := by
    rw [full_symmetrizer_row_sum field_two_entries 2 0 0 1 (by decide) (by decide)
      (by decide), offdiag_row_sum_two _ 0 1 (by decide) (by decide),
      offdiag_row_sum_two _ 1 0 (by decide) (by decide)]
    simp only [field_two_entries]
    norm_num
  refine ⟨h, ?_⟩
  rw [h]
  norm_num

/-- C14. Fixed point of the full symmetrizer: for every field of `natom` atoms
that already satisfies `FC[i][j][a][b] = FC[j][i][b][a]` for all `i`, `j`, `a`,
`b` and whose rows of blocks each sum to the zero matrix,
`py_perm_trans_symmetrize_fc` returns every entry of the field unchanged. -/
theorem full_symmetrizer_fixed_point (fc : Mem ℚ) (natom : ℕ)
    (hsym : ∀ i j a b, i < natom → j < natom → a < 3 → b < 3 →
      fc.read (i * natom * 9 + j * 9 + a * 3 + b) =
        fc.read (j * natom * 9 + i * 9 + b * 3 + a))
    (hsum : ∀ i a b, i < natom → a < 3 → b < 3 → row_sum fc natom i a b = 0)
    (i j a b : ℕ) (hi : i < natom) (hj : j < natom) (ha : a < 3) (hb : b < 3) :
    (py_perm_trans_symmetrize_fc fc natom).read (i * natom * 9 + j * 9 + a * 3 + b) =
      fc.read (i * natom * 9 + j * 9 + a * 3 + b) := by
  have hperm : ∀ i j a b, i < natom → j < natom → a < 3 → b < 3 →
      (set_index_permutation_symmetry_fc fc natom).read
          (i * natom * 9 + j * 9 + a * 3 + b) =
        fc.read (i * natom * 9 + j * 9 + a * 3 + b) := by
    intro i j a b hi hj ha hb
    rw [permutation_step_read fc natom i j a b hi hj ha hb, ← hsym i j a b hi hj ha hb]
    ring
  have hoff : ∀ a b, a < 3 → b < 3 →
      offdiag_row_sum (set_index_permutation_symmetry_fc fc natom) natom i a b =
        -fc.read (i * natom * 9 + i * 9 + a * 3 + b) := by
    intro a b ha hb
    have h1 : offdiag_row_sum (set_index_permutation_symmetry_fc fc natom) natom i a b =
        offdiag_row_sum fc natom i a b :=
      offdiag_row_sum_congr _ _ natom i a b (fun j hj _ => hperm i j a b hi hj ha hb)
    have h2 := row_sum_split fc natom i a b hi
    rw [hsum i a b hi ha hb] at h2
    rw [h1]
    linarith
  rw [full_symmetrizer_read fc natom i j a b hi hj ha hb]
  by_cases hji : j = i
  · subst hji
    rw [if_pos rfl, hoff a b ha hb, hoff b a hb ha, ← hsym j j a b hi hi ha hb]
    ring
  · rw [if_neg hji, ← hsym i j a b hi hj ha hb]
    ring

theorem field_balanced_symmetric (i j a b : ℕ) (hi : i < 2) (hj : j < 2) (ha : a < 3)
    (hb : b < 3) :
    field_balanced.read (i * 2 * 9 + j * 9 + a * 3 + b) =
      field_balanced.read (j * 2 * 9 + i * 9 + b * 3 + a) := by
  interval_cases i <;> interval_cases j <;> interval_cases a <;> interval_cases b <;>
    simp [field_balanced]

theorem field_balanced_row_sum (i a b : ℕ) (hi : i < 2) (ha : a < 3) (hb : b < 3) :
    row_sum field_balanced 2 i a b = 0 := by
  unfold row_sum
  rw [Finset.sum_range_succ, Finset.sum_range_one]
  interval_cases i <;> interval_cases a <;> interval_cases b <;>
    simp [field_balanced]

/-- Instance of C14: the field of two atoms with `FC[i][i]` the identity and
`FC[i][j]`, `j ≠ i`, minus the identity is symmetric with vanishing row sums, and
its entry `FC[0][1][0][0] = -1` is unchanged by the full symmetrizer. -/
theorem full_symmetrizer_fixed_point_witness :
    (∀ i j a b, i < 2 → j < 2 → a < 3 → b < 3 →
      field_balanced.read (i * 2 * 9 + j * 9 + a * 3 + b) =
        field_balanced.read (j * 2 * 9 + i * 9 + b * 3 + a)) ∧
    (∀ i a b, i < 2 → a < 3 → b < 3 → row_sum field_balanced 2 i a b = 0) ∧
    (0 < 2 ∧ 1 < 2 ∧ 0 < 3) ∧
    (py_perm_trans_symmetrize_fc field_balanced 2).read (0 * 2 * 9 + 1 * 9 + 0 * 3 + 0) =
      field_balanced.read (0 * 2 * 9 + 1 * 9 + 0 * 3 + 0) :=
  ⟨field_balanced_symmetric, field_balanced_row_sum, by decide,
    full_symmetrizer_fixed_point field_balanced 2 field_balanced_symmetric
      field_balanced_row_sum 0 1 0 0 (by decide) (by decide) (by decide) (by decide)⟩

/-! ## The compact symmetriser -/

theorem foldlM_some {σ α : Type} (f : σ → α → Option σ) (g : σ → α → σ) (l : List α)
    (h : ∀ x ∈ l, ∀ s, f s x = some (g s x)) (s0 : σ) :
    l.foldlM f s0 = some (l.foldl g s0) := by
  induction l generalizing s0 with
  | nil => rfl
  | cons a l ih =>
    rw [List.foldlM_cons, h a (List.mem_cons_self _ _), List.foldl_cons]
    exact ih (fun x hx => h x (List.mem_cons_of_mem _ hx)) _

theorem load_of_eq {α : Type} (a : ℕ → α) (size : ℕ) (idx : ℤ) (x : ℕ) (h : idx = (x : ℤ))
    (hx : x < size) : load a size idx = some (a x) := by
  unfold load
  subst h
  rw [if_pos ⟨Int.natCast_nonneg x, Int.ofNat_lt.mpr hx⟩, Int.toNat_natCast]

theorem store_of_eq (a : Mem ℚ) (size : ℕ) (idx : ℤ) (x : ℕ) (v : ℚ) (h : idx = (x : ℤ))
    (hx : x < size) : store a size idx v = some (a.write x v) := by
  unfold store
  subst h
  rw [if_pos ⟨Int.natCast_nonneg x, Int.ofNat_lt.mpr hx⟩, Int.toNat_natCast]

/-- The offset of an entry of a compact field lies inside the array. -/
theorem fc_index_lt (n_patom n_satom p j a b : ℕ) (hp : p < n_patom) (hj : j < n_satom)
    (ha : a < 3) (hb : b < 3) :
    p * n_satom * 9 + j * 9 + a * 3 + b < n_patom * n_satom * 9 := by
  have h := Nat.mul_le_mul_right n_satom (Nat.succ_le_of_lt hp)
  rw [Nat.succ_mul] at h
  generalize p * n_satom = x at h ⊢
  generalize n_patom * n_satom = y at h ⊢
  omega

theorem row_index_lt (rows n s i : ℕ) (hs : s < rows) (hi : i < n) :
    s * n + i < rows * n := by
  have h := Nat.mul_le_mul_right n (Nat.succ_le_of_lt hs)
  rw [Nat.succ_mul] at h
  omega

/-- One iteration of the loops over `k` and `l` when the indices are in range
and, off the diagonal, the lookups of the column succeeded. -/
theorem compact_entry_some (fc : Mem ℚ) (perms p2s : ℕ → ℕ) (s2pp nsym_list : ℕ → ℤ)
    (n_patom n_satom nsym j i_p k l q s : ℕ) (fc_tmp : Mem ℚ)
    (hj : j < n_satom) (hp : i_p < n_patom) (hk : k < 3) (hl : l < 3)
    (hp2s : p2s i_p < n_satom)
    (hoff : p2s i_p ≠ j → s2pp j = (q : ℤ) ∧ q < n_patom ∧ nsym_list j = (s : ℤ) ∧
      s < nsym ∧ perms (s * n_satom + p2s i_p) < n_satom) :
    compact_entry fc perms p2s s2pp nsym_list n_patom n_satom nsym j i_p k l fc_tmp =
      some (fc_tmp.write (i_p * n_satom * 9 + j * 9 + k * 3 + l)
        (compact_value fc perms p2s n_satom q s j i_p k l)) := by
  have hm := fc_index_lt n_patom n_satom i_p j k l hp hj hk hl
  have hn := fc_index_lt n_patom n_satom i_p j l k hp hj hl hk
  have em : ((i_p : ℤ) * n_satom * 9 + j * 9 + k * 3 + l) =
      ((i_p * n_satom * 9 + j * 9 + k * 3 + l : ℕ) : ℤ) := by push_cast; ring
  have en : ((i_p : ℤ) * n_satom * 9 + j * 9 + l * 3 + k) =
      ((i_p * n_satom * 9 + j * 9 + l * 3 + k : ℕ) : ℤ) := by push_cast; ring
  have ex : ((s : ℤ) * n_satom + p2s i_p) = ((s * n_satom + p2s i_p : ℕ) : ℤ) := by
    push_cast; ring
  have er : ((q : ℤ) * n_satom * 9 + perms (s * n_satom + p2s i_p) * 9 + l * 3 + k) =
      ((q * n_satom * 9 + perms (s * n_satom + p2s i_p) * 9 + l * 3 + k : ℕ) : ℤ) := by
    push_cast; ring
  unfold compact_entry compact_value
  by_cases hd : p2s i_p = j
  · rw [if_pos hd, if_pos hd, hd]
    dsimp only
    rw [em, en, load_of_eq fc.read _ _ _ rfl hm, load_of_eq fc.read _ _ _ rfl hn]
    simp only [Option.bind_eq_bind, Option.some_bind]
    rw [store_of_eq _ _ _ _ _ rfl hm]
  · obtain ⟨hq, hqlt, hs, hslt, hperm⟩ := hoff hd
    have hr := fc_index_lt n_patom n_satom q _ l k hqlt hperm hl hk
    have hx := row_index_lt nsym n_satom s _ hslt hp2s
    rw [if_neg hd, if_neg hd, hq, hs]
    dsimp only
    rw [ex, load_of_eq perms _ _ _ rfl hx]
    simp only [Option.bind_eq_bind, Option.some_bind]
    rw [er, em, load_of_eq fc.read _ _ _ rfl hr, load_of_eq fc.read _ _ _ rfl hm]
    simp only [Option.bind_eq_bind, Option.some_bind]
    rw [store_of_eq _ _ _ _ _ rfl hm]

theorem find_range_first (p : ℕ → Bool) (n q : ℕ) (hq : q < n) (hp : p q = true)
    (hfirst : ∀ r, r < q → p r = false) : (List.range n).find? p = some q := by
  induction n with
  | zero => omega
  | succ m ih =>
    rw [List.range_succ, List.find?_append]
    by_cases hqm : q < m
    · rw [ih hqm]
      rfl
    · have hqe : q = m := by omega
      subst hqe
      have hnone : (List.range q).find? p = none := by
        rw [List.find?_eq_none]
        intro x hx
        rw [List.mem_range] at hx
        simp [hfirst x hx]
      rw [hnone]
      simp [hp]

theorem find_range_exists (p : ℕ → Bool) (n : ℕ) (h : ∃ q, q < n ∧ p q = true) :
    ∃ q, q < n ∧ p q = true ∧ (∀ r, r < q → p r = false) ∧
      (List.range n).find? p = some q := by
  classical
  have hq := Nat.find_spec h
  have hmin : ∀ r, r < Nat.find h → p r = false := by
    intro r hr
    have hno := Nat.find_min h hr
    have hrn : r < n := lt_trans hr hq.1
    by_contra hc
    exact hno ⟨hrn, by simpa using hc⟩
  exact ⟨Nat.find h, hq.1, hq.2, hmin, find_range_first p n _ hq.1 hq.2 hmin⟩

/-- The entry `s2pp[j]` is the first row `q` with `p2s[q] = s2p[j]`. -/
theorem s2pp_entry_first (p2s s2p : ℕ → ℕ) (n_patom j q : ℕ) (hq : q < n_patom)
    (hp : p2s q = s2p j) (hfirst : ∀ r, r < q → p2s r ≠ s2p j) :
    s2pp_entry p2s s2p n_patom j = (q : ℤ) := by
  unfold s2pp_entry
  rw [find_range_first _ n_patom q hq (by simpa using hp)
    (fun r hr => by simpa using hfirst r hr)]

/-- The entry `nsym_list[j]` is the first operation `s` with
`perms[s][j] = s2p[j]`. -/
theorem nsym_list_entry_first (perms s2p : ℕ → ℕ) (n_satom nsym j s : ℕ) (hs : s < nsym)
    (hp : perms (s * n_satom + j) = s2p j)
    (hfirst : ∀ r, r < s → perms (r * n_satom + j) ≠ s2p j) :
    nsym_list_entry perms s2p n_satom nsym j = (s : ℤ) := by
  unfold nsym_list_entry
  rw [find_range_first _ nsym s hs (by simpa using hp)
    (fun r hr => by simpa using hfirst r hr)]

theorem s2pp_entry_found (p2s s2p : ℕ → ℕ) (n_patom j : ℕ)
    (h : ∃ q, q < n_patom ∧ p2s q = s2p j) :
    s2pp_entry p2s s2p n_patom j = ((s2pp_index p2s s2p n_patom j : ℕ) : ℤ) ∧
      s2pp_index p2s s2p n_patom j < n_patom ∧
      p2s (s2pp_index p2s s2p n_patom j) = s2p j := by
  obtain ⟨q, hq, hp⟩ := h
  obtain ⟨q0, h1, h2, h3, _⟩ := find_range_exists (fun r => decide (p2s r = s2p j)) n_patom
    ⟨q, hq, by simpa using hp⟩
  have he := s2pp_entry_first p2s s2p n_patom j q0 h1 (by simpa using h2)
    (fun r hr => by simpa using h3 r hr)
  have hi : s2pp_index p2s s2p n_patom j = q0 := by
    unfold s2pp_index
    rw [he, Int.toNat_natCast]
  rw [hi]
  exact ⟨he, h1, by simpa using h2⟩

theorem nsym_list_entry_found (perms s2p : ℕ → ℕ) (n_satom nsym j : ℕ)
    (h : ∃ s, s < nsym ∧ perms (s * n_satom + j) = s2p j) :
    nsym_list_entry perms s2p n_satom nsym j =
        ((nsym_index perms s2p n_satom nsym j : ℕ) : ℤ) ∧
      nsym_index perms s2p n_satom nsym j < nsym ∧
      perms (nsym_index perms s2p n_satom nsym j * n_satom + j) = s2p j := by
  obtain ⟨s, hs, hp⟩ := h
  obtain ⟨s0, h1, h2, h3, _⟩ := find_range_exists
    (fun r => decide (perms (r * n_satom + j) = s2p j)) nsym ⟨s, hs, by simpa using hp⟩
  have he := nsym_list_entry_first perms s2p n_satom nsym j s0 h1 (by simpa using h2)
    (fun r hr => by simpa using h3 r hr)
  have hi : nsym_index perms s2p n_satom nsym j = s0 := by
    unfold nsym_index
    rw [he, Int.toNat_natCast]
  rw [hi]
  exact ⟨he, h1, by simpa using h2⟩

/-- A loop of writes whose values agree wherever two iterations write the same
index: every written index holds its value afterwards and nothing else is
touched. -/
theorem foldl_write_read {τ : Type} (ix : τ → ℕ) (val : τ → ℚ) (l : List τ) (s0 : Mem ℚ)
    (hinj : ∀ t ∈ l, ∀ u ∈ l, ix t = ix u → val t = val u) :
    (∀ t ∈ l, (l.foldl (fun s t => s.write (ix t) (val t)) s0).read (ix t) = val t) ∧
    (∀ x, (∀ t ∈ l, ix t ≠ x) →
      (l.foldl (fun s t => s.write (ix t) (val t)) s0).read x = s0.read x) := by
  induction l generalizing s0 with
  | nil => exact ⟨fun t ht => absurd ht (List.not_mem_nil t), fun x _ => rfl⟩
  | cons a l ih =>
    obtain ⟨ih1, ih2⟩ := ih (s0.write (ix a) (val a))
      (fun t ht u hu => hinj t (List.mem_cons_of_mem _ ht) u (List.mem_cons_of_mem _ hu))
    rw [List.foldl_cons]
    constructor
    · intro t ht
      rcases List.mem_cons.mp ht with rfl | ht
      · by_cases h : ∃ u ∈ l, ix u = ix t
        · obtain ⟨u, hu, hux⟩ := h
          have hv := hinj u (List.mem_cons_of_mem _ hu) t (List.mem_cons_self _ _) hux
          have hr := ih1 u hu
          rw [hux, hv] at hr
          exact hr
        · rw [ih2 (ix t) (fun u hu hux => h ⟨u, hu, hux⟩), Mem.read_write_same]
      · exact ih1 t ht
    · intro x hx
      rw [ih2 x (fun t ht => hx t (List.mem_cons_of_mem _ ht)),
        Mem.read_write_ne (fun h => hx a (List.mem_cons_self _ _) h.symm)]

theorem mem_compact_tuples (n_patom n_satom : ℕ) (t : ℕ × ℕ × ℕ × ℕ) :
    t ∈ compact_tuples n_patom n_satom ↔
      t.1 < n_satom ∧ t.2.1 < n_patom ∧ t.2.2.1 < 3 ∧ t.2.2.2 < 3 := by
  obtain ⟨j, i_p, k, l⟩ := t
  simp only [compact_tuples, List.mem_flatMap, List.mem_map, List.mem_range, Prod.mk.injEq]
  constructor
  · rintro ⟨j2, hj, i2, hi, k2, hk, l2, hl, rfl, rfl, rfl, rfl⟩
    exact ⟨hj, hi, hk, hl⟩
  · rintro ⟨hj, hi, hk, hl⟩
    exact ⟨j, hj, i_p, hi, k, hk, l, hl, rfl, rfl, rfl, rfl⟩

/-- The permutation step of the compact symmetriser runs through when the
table entries are in range and the lookups succeed for every column that has a
row off the diagonal; it leaves `compact_value` in every entry of `fc_tmp`. -/
theorem compact_permutation_step_spec (fc : Mem ℚ) (perms s2p p2s : ℕ → ℕ)
    (n_patom n_satom nsym : ℕ)
    (hp2s : ∀ p, p < n_patom → p2s p < n_satom)
    (hperms : ∀ s i, s < nsym → i < n_satom → perms (s * n_satom + i) < n_satom)
    (hs2pp : ∀ j i_p, j < n_satom → i_p < n_patom → p2s i_p ≠ j →
      ∃ q, q < n_patom ∧ p2s q = s2p j)
    (hnsym : ∀ j i_p, j < n_satom → i_p < n_patom → p2s i_p ≠ j →
      ∃ s, s < nsym ∧ perms (s * n_satom + j) = s2p j) :
    ∃ t, compact_permutation_step fc perms s2p p2s n_patom n_satom nsym = some t ∧
      ∀ p j a b, p < n_patom → j < n_satom → a < 3 → b < 3 →
        t.read (p * n_satom * 9 + j * 9 + a * 3 + b) =
          compact_value fc perms p2s n_satom (s2pp_index p2s s2p n_patom j)
            (nsym_index perms s2p n_satom nsym j) j p a b := by
  have hrun : compact_permutation_step fc perms s2p p2s n_patom n_satom nsym =
      some ((compact_tuples n_patom n_satom).foldl (fun s u =>
        s.write (fc_index n_satom u.2.1 u.1 u.2.2.1 u.2.2.2)
          (compact_value fc perms p2s n_satom (s2pp_index p2s s2p n_patom u.1)
            (nsym_index perms s2p n_satom nsym u.1) u.1 u.2.1 u.2.2.1 u.2.2.2))
        ⟨fun _ => 0⟩) := by
    unfold compact_permutation_step compact_tuples
    simp only [foldl_flatMap_eq, List.foldl_map]
    refine foldlM_some _ _ _ (fun j hj t1 => ?_) _
    refine foldlM_some _ _ _ (fun i_p hi t2 => ?_) _
    refine foldlM_some _ _ _ (fun k hk t3 => ?_) _
    refine foldlM_some _ _ _ (fun l hl t4 => ?_) _
    rw [List.mem_range] at hj hi hk hl
    refine compact_entry_some fc perms p2s _ _ n_patom n_satom nsym j i_p k l _ _ t4 hj hi
      hk hl (hp2s i_p hi) (fun hd => ?_)
    obtain ⟨q1, q2, _⟩ := s2pp_entry_found p2s s2p n_patom j (hs2pp j i_p hj hi hd)
    obtain ⟨s1, s2, _⟩ := nsym_list_entry_found perms s2p n_satom nsym j
      (hnsym j i_p hj hi hd)
    exact ⟨q1, q2, s1, s2, hperms _ _ s2 (hp2s i_p hi)⟩
  refine ⟨_, hrun, ?_⟩
  intro p j a b hp hj ha hb
  obtain ⟨h1, _⟩ := foldl_write_read
    (fun u : ℕ × ℕ × ℕ × ℕ => fc_index n_satom u.2.1 u.1 u.2.2.1 u.2.2.2)
    (fun u : ℕ × ℕ × ℕ × ℕ =>
      compact_value fc perms p2s n_satom (s2pp_index p2s s2p n_patom u.1)
        (nsym_index perms s2p n_satom nsym u.1) u.1 u.2.1 u.2.2.1 u.2.2.2)
    (compact_tuples n_patom n_satom) ⟨fun _ => 0⟩ (by
      intro t ht u hu h
      rw [mem_compact_tuples] at ht hu
      obtain ⟨e1, e2, e3, e4⟩ := fc_index_inj n_satom _ _ _ _ _ _ _ _ ht.1 hu.1 ht.2.2.1
        ht.2.2.2 hu.2.2.1 hu.2.2.2 h
      dsimp only
      rw [e1, e2, e3, e4])
  exact h1 (j, p, a, b) ((mem_compact_tuples n_patom n_satom _).mpr ⟨hj, hp, ha, hb⟩)

theorem compact_sum_rule_row_some (f : Mem ℚ) (p2s : ℕ → ℕ) (n_patom n_satom i_p : ℕ)
    (hp : i_p < n_patom) (hd : p2s i_p < n_satom) :
    compact_sum_rule_row f p2s n_patom n_satom i_p =
      some (sum_rule_row f n_satom i_p (p2s i_p)) := by
  unfold compact_sum_rule_row sum_rule_row
  refine foldlM_some _ _ _ (fun k hk f1 => ?_) _
  refine foldlM_some _ _ _ (fun l hl f2 => ?_) _
  rw [List.mem_range] at hk hl
  exact store_of_eq _ _ _ _ _ rfl (fc_index_lt n_patom n_satom i_p _ k l hp hd hk hl)

theorem compact_translational_step_some (f : Mem ℚ) (p2s : ℕ → ℕ) (n_patom n_satom : ℕ)
    (hp2s : ∀ p, p < n_patom → p2s p < n_satom) :
    compact_translational_step f p2s n_patom n_satom =
      some ((List.range n_patom).foldl (fun f r => sum_rule_row f n_satom r (p2s r)) f) := by
  unfold compact_translational_step
  refine foldlM_some _ _ _ (fun i hi s => ?_) _
  rw [List.mem_range] at hi
  exact compact_sum_rule_row_some s p2s n_patom n_satom i hi (hp2s i hi)

theorem copy_back_read (fc t : Mem ℚ) (size x : ℕ) :
    (copy_back fc t size).read x = if x < size then t.read x else fc.read x := by
  unfold copy_back
  induction size with
  | zero => rfl
  | succ n ih =>
    rw [List.range_succ, List.foldl_append, List.foldl_cons, List.foldl_nil, Mem.read_write,
      ih]
    by_cases h1 : x = n
    · subst h1
      rw [if_pos rfl, if_pos (Nat.lt_succ_self x)]
    · rw [if_neg h1]
      by_cases h2 : x < n
      · rw [if_pos h2, if_pos (Nat.lt_succ_of_lt h2)]
      · rw [if_neg h2, if_neg (by omega)]

/-- The compact symmetriser runs through when the table entries are in range
and the lookups succeed for every column that has a row off the diagonal.
With `t` the array `fc_tmp` after the permutation step, the output holds
`t` off the diagonal blocks and `-(S + Sᵗ) / 2` in the diagonal block of every
row, `S` being the sum of the other blocks of the row in `t`. -/
theorem compact_symmetrizer_read (fc : Mem ℚ) (perms s2p p2s : ℕ → ℕ)
    (n_patom n_satom nsym : ℕ)
    (hp2s : ∀ p, p < n_patom → p2s p < n_satom)
    (hperms : ∀ s i, s < nsym → i < n_satom → perms (s * n_satom + i) < n_satom)
    (hs2pp : ∀ j i_p, j < n_satom → i_p < n_patom → p2s i_p ≠ j →
      ∃ q, q < n_patom ∧ p2s q = s2p j)
    (hnsym : ∀ j i_p, j < n_satom → i_p < n_patom → p2s i_p ≠ j →
      ∃ s, s < nsym ∧ perms (s * n_satom + j) = s2p j) :
    ∃ t out, compact_permutation_step fc perms s2p p2s n_patom n_satom nsym = some t ∧
      py_perm_trans_symmetrize_compact_fc fc perms s2p p2s n_patom n_satom nsym = some out ∧
      (∀ p j a b, p < n_patom → j < n_satom → a < 3 → b < 3 →
        t.read (p * n_satom * 9 + j * 9 + a * 3 + b) =
          compact_value fc perms p2s n_satom (s2pp_index p2s s2p n_patom j)
            (nsym_index perms s2p n_satom nsym j) j p a b) ∧
      (∀ p j a b, p < n_patom → j < n_satom → a < 3 → b < 3 →
        out.read (p * n_satom * 9 + j * 9 + a * 3 + b) =
          if j = p2s p then
            -(sums_entry t n_satom p (p2s p) a b + sums_entry t n_satom p (p2s p) b a) / 2
          else t.read (p * n_satom * 9 + j * 9 + a * 3 + b)) ∧
      (∀ x, n_patom * n_satom * 9 ≤ x → out.read x = fc.read x) := by
  obtain ⟨t, ht, hread⟩ := compact_permutation_step_spec fc perms s2p p2s n_patom n_satom
    nsym hp2s hperms hs2pp hnsym
  have hout : py_perm_trans_symmetrize_compact_fc fc perms s2p p2s n_patom n_satom nsym =
      some (copy_back fc
        ((List.range n_patom).foldl (fun f r => sum_rule_row f n_satom r (p2s r)) t)
        (n_patom * n_satom * 9)) := by
    unfold py_perm_trans_symmetrize_compact_fc
    rw [ht]
    simp only [Option.bind_eq_bind, Option.some_bind]
    rw [compact_translational_step_some t p2s n_patom n_satom hp2s]
    rfl
  refine ⟨t, _, ht, hout, hread, ?_, ?_⟩
  · intro p j a b hp hj ha hb
    obtain ⟨h1, h2⟩ := translational_fold_spec t n_satom p2s n_patom hp2s
    rw [copy_back_read, if_pos (fc_index_lt n_patom n_satom p j a b hp hj ha hb)]
    by_cases hd : j = p2s p
    · subst hd
      rw [if_pos rfl, h1 p hp a b ha hb]
    · rw [if_neg hd]
      apply h2
      intro r hr hin
      have := (in_block_iff n_satom p j a b r (p2s r) hj (hp2s r hr) ha hb).mp hin
      obtain ⟨e1, e2⟩ := this
      subst e1
      exact hd e2
  · intro x hx
    rw [copy_back_read, if_neg (by omega)]

/-- Every offset inside a compact field is the offset of an entry. -/
theorem fc_index_decompose (n_patom n_satom x : ℕ) (hx : x < n_patom * n_satom * 9) :
    ∃ p j a b, p < n_patom ∧ j < n_satom ∧ a < 3 ∧ b < 3 ∧
      x = p * n_satom * 9 + j * 9 + a * 3 + b := by
  have hy : x / 9 < n_patom * n_satom := by omega
  have hn : 0 < n_satom := by
    rcases Nat.eq_zero_or_pos n_satom with h | h
    · rw [h, Nat.mul_zero] at hy
      omega
    · exact h
  refine ⟨x / 9 / n_satom, x / 9 % n_satom, x % 9 / 3, x % 3,
    (Nat.div_lt_iff_lt_mul hn).mpr hy, Nat.mod_lt _ hn, by omega, by omega, ?_⟩
  have h1 : x / 9 / n_satom * n_satom + x / 9 % n_satom = x / 9 := by
    rw [Nat.mul_comm]
    exact Nat.div_add_mod _ _
  generalize x / 9 / n_satom * n_satom = u at h1 ⊢
  generalize x / 9 % n_satom = v at h1 ⊢
  omega

theorem pair_p2s_lt (p : ℕ) (_hp : p < 1) : pair_p2s p < 2 := by
  unfold pair_p2s
  decide

theorem pair_perms_lt (s i : ℕ) (_hs : s < 2) (_hi : i < 2) : pair_perms (s * 2 + i) < 2 := by
  unfold pair_perms
  split_ifs <;> decide

theorem pair_s2pp_found (j : ℕ) (_hj : j < 2) : ∃ q, q < 1 ∧ pair_p2s q = pair_p2s j :=
  ⟨0, by decide, rfl⟩

theorem pair_nsym_found (j : ℕ) (hj : j < 2) :
    ∃ s, s < 2 ∧ pair_perms (s * 2 + j) = pair_p2s j := by
  interval_cases j
  · exact ⟨0, by decide, by decide⟩
  · exact ⟨1, by decide, by decide⟩

/-- C15. The compact permutation step, for well-formed tables: in
`py_perm_trans_symmetrize_compact_fc`, for every row `p` with `i = p2s[p]` and
every column `j ≠ i`, the output entry is
`out[p][j][a][b] = (fc[p][j][a][b] + fc[q][π(i)][b][a]) / 2`, where `q` is the
first row with `p2s[q] = s2p[j]`, `π` is the permutation of the first operation
`s` with `perms[s][j] = s2p[j]`, and both entries of `fc` are read from the array
as it was before the call; for `j = i` the permutation step leaves
`(fc[p][i][a][b] + fc[p][i][b][a]) / 2` in `fc_tmp[p][i][a][b]`. -/
theorem compact_permutation_rule (fc : Mem ℚ) (perms s2p p2s : ℕ → ℕ)
    (n_patom n_satom nsym : ℕ)
    (hp2s : ∀ p, p < n_patom → p2s p < n_satom)
    (hperms : ∀ s i, s < nsym → i < n_satom → perms (s * n_satom + i) < n_satom)
    (hs2pp : ∀ j, j < n_satom → ∃ q, q < n_patom ∧ p2s q = s2p j)
    (hnsym : ∀ j, j < n_satom → ∃ s, s < nsym ∧ perms (s * n_satom + j) = s2p j)
    (p j a b q s : ℕ) (hp : p < n_patom) (hj : j < n_satom) (ha : a < 3) (hb : b < 3)
    (hq : q < n_patom ∧ p2s q = s2p j ∧ ∀ r, r < q → p2s r ≠ s2p j)
    (hs : s < nsym ∧ perms (s * n_satom + j) = s2p j ∧
      ∀ r, r < s → perms (r * n_satom + j) ≠ s2p j) :
    ∃ fc_tmp out,
      compact_permutation_step fc perms s2p p2s n_patom n_satom nsym = some fc_tmp ∧
      py_perm_trans_symmetrize_compact_fc fc perms s2p p2s n_patom n_satom nsym = some out ∧
      (j ≠ p2s p →
        out.read (p * n_satom * 9 + j * 9 + a * 3 + b) =
          (fc.read (p * n_satom * 9 + j * 9 + a * 3 + b) +
            fc.read (q * n_satom * 9 + perms (s * n_satom + p2s p) * 9 + b * 3 + a)) / 2) ∧
      (j = p2s p →
        fc_tmp.read (p * n_satom * 9 + j * 9 + a * 3 + b) =
          (fc.read (p * n_satom * 9 + j * 9 + a * 3 + b) +
            fc.read (p * n_satom * 9 + j * 9 + b * 3 + a)) / 2) := by
  obtain ⟨t, out, ht, hout, hread, hfinal, _⟩ := compact_symmetrizer_read fc perms s2p p2s
    n_patom n_satom nsym hp2s hperms (fun j _ hj _ _ => hs2pp j hj)
    (fun j _ hj _ _ => hnsym j hj)
  have eq : s2pp_index p2s s2p n_patom j = q := by
    unfold s2pp_index
    rw [s2pp_entry_first p2s s2p n_patom j q hq.1 hq.2.1 hq.2.2, Int.toNat_natCast]
  have es : nsym_index perms s2p n_satom nsym j = s := by
    unfold nsym_index
    rw [nsym_list_entry_first perms s2p n_satom nsym j s hs.1 hs.2.1 hs.2.2,
      Int.toNat_natCast]
  refine ⟨t, out, ht, hout, ?_, ?_⟩
  · intro hd
    rw [hfinal p j a b hp hj ha hb, if_neg hd, hread p j a b hp hj ha hb, eq, es]
    unfold compact_value
    rw [if_neg (fun h => hd h.symm), add_comm]
  · intro hd
    rw [hread p j a b hp hj ha hb]
    unfold compact_value
    rw [if_pos hd.symm]

/-- Instance of C15: one representative atom and two atoms, the identity and
the swap as operations, the field with `FC[0][1][0][1] = 1`; for the column
`j = 1` the first row is `q = 0` and the first operation is the swap `s = 1`. -/
theorem compact_permutation_rule_witness :
    ((0 < 1 ∧ 1 < 2 ∧ 0 < 3 ∧ 1 < 3) ∧
      (0 < 1 ∧ pair_p2s 0 = pair_p2s 1 ∧ ∀ r, r < 0 → pair_p2s r ≠ pair_p2s 1) ∧
      (1 < 2 ∧ pair_perms (1 * 2 + 1) = pair_p2s 1 ∧
        ∀ r, r < 1 → pair_perms (r * 2 + 1) ≠ pair_p2s 1)) ∧
    ∃ fc_tmp out,
      compact_permutation_step field_two_entries pair_perms pair_p2s pair_p2s 1 2 2 =
        some fc_tmp ∧
      py_perm_trans_symmetrize_compact_fc field_two_entries pair_perms pair_p2s pair_p2s
        1 2 2 = some out ∧
      (1 ≠ pair_p2s 0 →
        out.read (0 * 2 * 9 + 1 * 9 + 0 * 3 + 1) =
          (field_two_entries.read (0 * 2 * 9 + 1 * 9 + 0 * 3 + 1) +
            field_two_entries.read
              (0 * 2 * 9 + pair_perms (1 * 2 + pair_p2s 0) * 9 + 1 * 3 + 0)) / 2) ∧
      (1 = pair_p2s 0 →
        fc_tmp.read (0 * 2 * 9 + 1 * 9 + 0 * 3 + 1) =
          (field_two_entries.read (0 * 2 * 9 + 1 * 9 + 0 * 3 + 1) +
            field_two_entries.read (0 * 2 * 9 + 1 * 9 + 1 * 3 + 0)) / 2) :=
  have hq : 0 < 1 ∧ pair_p2s 0 = pair_p2s 1 ∧ ∀ r, r < 0 → pair_p2s r ≠ pair_p2s 1 :=
    ⟨by decide, rfl, fun r hr => absurd hr (Nat.not_lt_zero r)⟩
  have hs : 1 < 2 ∧ pair_perms (1 * 2 + 1) = pair_p2s 1 ∧
      ∀ r, r < 1 → pair_perms (r * 2 + 1) ≠ pair_p2s 1 :=
    ⟨by decide, by decide, fun r hr => by
      have hr0 : r = 0 := by omega
      subst hr0
      decide⟩
  ⟨⟨by decide, hq, hs⟩,
    compact_permutation_rule field_two_entries pair_perms pair_p2s pair_p2s 1 2 2
      pair_p2s_lt pair_perms_lt pair_s2pp_found pair_nsym_found 0 1 0 1 0 1 (by decide)
      (by decide) (by decide) (by decide) hq hs⟩

/-- C16. Fixed point of the compact symmetriser: for well-formed tables (the
entries of `p2s` and `perms` are atom indices, every `s2p[j]` occurs in `p2s`
and some operation sends each `j` to `s2p[j]`), if the compact field satisfies
`fc[p][j][a][b] = fc[s2pp[j]][π_j(p2s[p])][b][a]` for every row `p` and column
`j ≠ p2s[p]`, with `π_j` the first operation sending `j` to `s2p[j]`, every
diagonal block `fc[p][p2s[p]]` is symmetric, and every row sums to the zero
matrix over its `n_satom` columns, then `py_perm_trans_symmetrize_compact_fc`
returns with the field unchanged. -/
theorem compact_symmetrizer_fixed_point (fc : Mem ℚ) (perms s2p p2s : ℕ → ℕ)
    (n_patom n_satom nsym : ℕ)
    (hp2s : ∀ p, p < n_patom → p2s p < n_satom)
    (hperms : ∀ s i, s < nsym → i < n_satom → perms (s * n_satom + i) < n_satom)
    (hs2pp : ∀ j, j < n_satom → ∃ q, q < n_patom ∧ p2s q = s2p j)
    (hnsym : ∀ j, j < n_satom → ∃ s, s < nsym ∧ perms (s * n_satom + j) = s2p j)
    (hsym : ∀ p j a b, p < n_patom → j < n_satom → j ≠ p2s p → a < 3 → b < 3 →
      fc.read (p * n_satom * 9 + j * 9 + a * 3 + b) =
        fc.read (s2pp_index p2s s2p n_patom j * n_satom * 9 +
          perms (nsym_index perms s2p n_satom nsym j * n_satom + p2s p) * 9 + b * 3 + a))
    (hdiag : ∀ p a b, p < n_patom → a < 3 → b < 3 →
      fc.read (p * n_satom * 9 + p2s p * 9 + a * 3 + b) =
        fc.read (p * n_satom * 9 + p2s p * 9 + b * 3 + a))
    (hsum : ∀ p a b, p < n_patom → a < 3 → b < 3 → row_sum fc n_satom p a b = 0) :
    py_perm_trans_symmetrize_compact_fc fc perms s2p p2s n_patom n_satom nsym = some fc := by
  obtain ⟨t, out, _, hout, hread, hfinal, hrest⟩ := compact_symmetrizer_read fc perms s2p
    p2s n_patom n_satom nsym hp2s hperms (fun j _ hj _ _ => hs2pp j hj)
    (fun j _ hj _ _ => hnsym j hj)
  -- the permutation step reproduces the field
  have ht : ∀ p j a b, p < n_patom → j < n_satom → a < 3 → b < 3 →
      t.read (p * n_satom * 9 + j * 9 + a * 3 + b) =
        fc.read (p * n_satom * 9 + j * 9 + a * 3 + b) := by
    intro p j a b hp hj ha hb
    rw [hread p j a b hp hj ha hb]
    unfold compact_value
    by_cases hd : p2s p = j
    · rw [if_pos hd, ← hd, ← hdiag p a b hp ha hb]
      ring
    · rw [if_neg hd, ← hsym p j a b hp hj (fun h => hd h.symm) ha hb]
      ring
  -- the sums of the translational step are minus the diagonal block
  have hS : ∀ p a b, p < n_patom → a < 3 → b < 3 →
      sums_entry t n_satom p (p2s p) a b =
        -fc.read (p * n_satom * 9 + p2s p * 9 + a * 3 + b) := by
    intro p a b hp ha hb
    rw [sums_entry_eq]
    have h1 : ∑ j in (Finset.range n_satom).filter (fun j => j ≠ p2s p),
          t.read (p * n_satom * 9 + j * 9 + a * 3 + b) =
        ∑ j in (Finset.range n_satom).filter (fun j => j ≠ p2s p),
          fc.read (p * n_satom * 9 + j * 9 + a * 3 + b) := by
      apply Finset.sum_congr rfl
      intro j hj
      rw [Finset.mem_filter, Finset.mem_range] at hj
      exact ht p j a b hp hj.1 ha hb
    have h2 := Finset.add_sum_erase (Finset.range n_satom)
      (fun j => fc.read (p * n_satom * 9 + j * 9 + a * 3 + b))
      (Finset.mem_range.mpr (hp2s p hp))
    have h3 : ∑ j in Finset.range n_satom, fc.read (p * n_satom * 9 + j * 9 + a * 3 + b) =
        0 := hsum p a b hp ha hb
    rw [h1, Finset.filter_ne']
    dsimp only at h2
    linarith
  have hentries : ∀ p j a b, p < n_patom → j < n_satom → a < 3 → b < 3 →
      out.read (p * n_satom * 9 + j * 9 + a * 3 + b) =
        fc.read (p * n_satom * 9 + j * 9 + a * 3 + b) := by
    intro p j a b hp hj ha hb
    rw [hfinal p j a b hp hj ha hb]
    by_cases hd : j = p2s p
    · rw [if_pos hd, hS p a b hp ha hb, hS p b a hp hb ha, hd, ← hdiag p a b hp ha hb]
      ring
    · rw [if_neg hd, ht p j a b hp hj ha hb]
  rw [hout]
  congr 1
  apply Mem.ext_read
  intro x
  by_cases hx : x < n_patom * n_satom * 9
  · obtain ⟨p, j, a, b, hp, hj, ha, hb, rfl⟩ := fc_index_decompose n_patom n_satom x hx
    exact hentries p j a b hp hj ha hb
  · exact hrest x (by omega)

theorem field_balanced_compact_sym (p j a b : ℕ) (hp : p < 1) (hj : j < 2)
    (hd : j ≠ pair_p2s p) (ha : a < 3) (hb : b < 3) :
    field_balanced.read (p * 2 * 9 + j * 9 + a * 3 + b) =
      field_balanced.read (s2pp_index pair_p2s pair_p2s 1 j * 2 * 9 +
        pair_perms (nsym_index pair_perms pair_p2s 2 2 j * 2 + pair_p2s p) * 9 + b * 3 + a) := by
  have hp0 : p = 0 := by omega
  have hj1 : j = 1 := by
    unfold pair_p2s at hd
    omega
  subst hp0
  subst hj1
  have e1 : s2pp_index pair_p2s pair_p2s 1 1 = 0 := by decide
  have e2 : nsym_index pair_perms pair_p2s 2 2 1 = 1 := by decide
  have e3 : pair_perms (1 * 2 + pair_p2s 0) = 1 := by decide
  rw [e1, e2, e3]
  interval_cases a <;> interval_cases b <;> simp [field_balanced]

theorem field_balanced_compact_diag (p a b : ℕ) (hp : p < 1) (ha : a < 3) (hb : b < 3) :
    field_balanced.read (p * 2 * 9 + pair_p2s p * 9 + a * 3 + b) =
      field_balanced.read (p * 2 * 9 + pair_p2s p * 9 + b * 3 + a) := by
  have hp0 : p = 0 := by omega
  subst hp0
  unfold pair_p2s
  interval_cases a <;> interval_cases b <;> simp [field_balanced]

theorem field_balanced_compact_sum (p a b : ℕ) (hp : p < 1) (ha : a < 3) (hb : b < 3) :
    row_sum field_balanced 2 p a b = 0 :=
  field_balanced_row_sum p a b (by omega) ha hb

/-- Instance of C16: one representative atom and two atoms, the identity and
the swap as operations, and the field with `fc[0][0]` the identity matrix and
`fc[0][1]` minus the identity matrix. -/
theorem compact_symmetrizer_fixed_point_witness :
    ((∀ p, p < 1 → pair_p2s p < 2) ∧
      (∀ s i, s < 2 → i < 2 → pair_perms (s * 2 + i) < 2) ∧
      (∀ j, j < 2 → ∃ q, q < 1 ∧ pair_p2s q = pair_p2s j) ∧
      (∀ j, j < 2 → ∃ s, s < 2 ∧ pair_perms (s * 2 + j) = pair_p2s j) ∧
      (∀ p a b, p < 1 → a < 3 → b < 3 → row_sum field_balanced 2 p a b = 0)) ∧
    py_perm_trans_symmetrize_compact_fc field_balanced pair_perms pair_p2s pair_p2s 1 2 2 =
      some field_balanced :=
  ⟨⟨pair_p2s_lt, pair_perms_lt, pair_s2pp_found, pair_nsym_found,
      field_balanced_compact_sum⟩,
    compact_symmetrizer_fixed_point field_balanced pair_perms pair_p2s pair_p2s 1 2 2
      pair_p2s_lt pair_perms_lt pair_s2pp_found pair_nsym_found field_balanced_compact_sym
      field_balanced_compact_diag field_balanced_compact_sum⟩

/-- C25. Residual of the sum rule: after `py_perm_trans_symmetrize_fc` the row
sum `T_i = Σ_j FC[i][j]` equals `(S_i − S_iᵗ) / 2`, where `S_i` is the sum of the
blocks `FC[i][j]`, `j ≠ i`, of the permutation-symmetrized field; hence
`T_i + T_iᵗ = 0`, and `T_i` is the zero matrix exactly when `S_i` is a symmetric
matrix. -/
theorem full_symmetrizer_residual (fc : Mem ℚ) (natom i : ℕ) (hi : i < natom) :
    (∀ a b, a < 3 → b < 3 →
      row_sum (py_perm_trans_symmetrize_fc fc natom) natom i a b =
        (offdiag_row_sum (set_index_permutation_symmetry_fc fc natom) natom i a b -
          offdiag_row_sum (set_index_permutation_symmetry_fc fc natom) natom i b a) / 2) ∧
    (∀ a b, a < 3 → b < 3 →
      row_sum (py_perm_trans_symmetrize_fc fc natom) natom i a b +
        row_sum (py_perm_trans_symmetrize_fc fc natom) natom i b a = 0) ∧
    ((∀ a b, a < 3 → b < 3 →
        row_sum (py_perm_trans_symmetrize_fc fc natom) natom i a b = 0) ↔
      (∀ a b, a < 3 → b < 3 →
        offdiag_row_sum (set_index_permutation_symmetry_fc fc natom) natom i a b =
          offdiag_row_sum (set_index_permutation_symmetry_fc fc natom) natom i b a)) := by
  have h := fun a b ha hb => full_symmetrizer_row_sum fc natom i a b hi ha hb
  refine ⟨h, ?_, ?_, ?_⟩
  · intro a b ha hb
    rw [h a b ha hb, h b a hb ha]
    ring
  · intro h0 a b ha hb
    have h1 := h0 a b ha hb
    rw [h a b ha hb] at h1
    linarith
  · intro hS a b ha hb
    rw [h a b ha hb, hS a b ha hb, sub_self, zero_div]

/-- Instance of C25: for the field of two atoms with `FC[0][1][0][1] = 1` and
`FC[1][0][1][0] = 3`, at the row of atom 0; the residual at `(0, 1)` is the one
that the formula gives. -/
theorem full_symmetrizer_residual_witness :
    0 < 2 ∧
    row_sum (py_perm_trans_symmetrize_fc field_two_entries 2) 2 0 0 1 =
      (offdiag_row_sum (set_index_permutation_symmetry_fc field_two_entries 2) 2 0 0 1 -
        offdiag_row_sum (set_index_permutation_symmetry_fc field_two_entries 2) 2 0 1 0) / 2 :=
  ⟨by decide,
    (full_symmetrizer_residual field_two_entries 2 0 (by decide)).1 0 1 (by decide)
      (by decide)⟩

/-- The full permutation step writes nothing outside the field. -/
theorem permutation_step_frame (fc : Mem ℚ) (natom x : ℕ) (hx : natom * natom * 9 ≤ x) :
    (set_index_permutation_symmetry_fc fc natom).read x = fc.read x := by
  obtain ⟨_, spec2⟩ := average_pairs_spec
    (fun t : ℕ × ℕ × ℕ × ℕ => fc_index natom t.1 t.2.1 t.2.2.1 t.2.2.2)
    (fun t : ℕ × ℕ × ℕ × ℕ => fc_index natom t.2.1 t.1 t.2.2.2 t.2.2.1)
    (all_tuples natom) fc (all_tuples_disjoint natom)
  rw [set_index_permutation_symmetry_fc_eq fc natom]
  apply spec2
  intro t ht
  obtain ⟨t1, t2, t3, t4, _⟩ := all_tuples_bounds natom t ht
  have h1 := fc_index_lt natom natom t.1 t.2.1 t.2.2.1 t.2.2.2 t1 t2 t3 t4
  have h2 := fc_index_lt natom natom t.2.1 t.1 t.2.2.2 t.2.2.1 t2 t1 t4 t3
  unfold fc_index
  constructor <;> omega

/-- The full symmetriser writes nothing outside the field. -/
theorem full_symmetrizer_frame (fc : Mem ℚ) (natom x : ℕ) (hx : natom * natom * 9 ≤ x) :
    (py_perm_trans_symmetrize_fc fc natom).read x = fc.read x := by
  unfold py_perm_trans_symmetrize_fc set_translational_symmetry_fc
  rw [(translational_fold_spec _ natom (fun r => r) natom (fun r hr => hr)).2 x (by
    intro r hr hin
    have h1 := fc_index_lt natom natom r r 2 2 hr hr (by decide) (by decide)
    omega)]
  exact permutation_step_frame fc natom x hx

/-- C22. The compact symmetriser agrees with the full one on the trivial
decomposition: for every `N` and every field, with `p2s` and `s2p` the identity
on `[0, N)` and a permutation table whose single row is the identity
permutation, `py_perm_trans_symmetrize_compact_fc` returns and leaves exactly
the array that `py_perm_trans_symmetrize_fc` leaves. -/
theorem compact_agrees_with_full (fc : Mem ℚ) (perms s2p p2s : ℕ → ℕ) (natom : ℕ)
    (hp2s : ∀ i, i < natom → p2s i = i) (hs2p : ∀ i, i < natom → s2p i = i)
    (hperms : ∀ i, i < natom → perms i = i) :
    py_perm_trans_symmetrize_compact_fc fc perms s2p p2s natom natom 1 =
      some (py_perm_trans_symmetrize_fc fc natom) := by
  have hrow : ∀ i, perms (0 * natom + i) = perms i := by
    intro i
    rw [Nat.zero_mul, Nat.zero_add]
  obtain ⟨t, out, _, hout, hread, hfinal, hrest⟩ := compact_symmetrizer_read fc perms s2p
    p2s natom natom 1
    (fun p hp => by rw [hp2s p hp]; exact hp)
    (fun s i hs hi => by
      have hs0 : s = 0 := by omega
      rw [hs0, hrow, hperms i hi]
      exact hi)
    (fun j _ hj _ _ => ⟨j, hj, by rw [hp2s j hj, hs2p j hj]⟩)
    (fun j _ hj _ _ => ⟨0, by decide, by rw [hrow, hperms j hj, hs2p j hj]⟩)
  -- the lookups of the trivial decomposition
  have hq : ∀ j, j < natom → s2pp_index p2s s2p natom j = j := by
    intro j hj
    unfold s2pp_index
    rw [s2pp_entry_first p2s s2p natom j j hj (by rw [hp2s j hj, hs2p j hj])
      (fun r hr => by
        rw [hp2s r (by omega), hs2p j hj]
        omega), Int.toNat_natCast]
  have hs : ∀ j, j < natom → nsym_index perms s2p natom 1 j = 0 := by
    intro j hj
    unfold nsym_index
    rw [nsym_list_entry_first perms s2p natom 1 j 0 (by decide)
      (by rw [hrow, hperms j hj, hs2p j hj]) (fun r hr => by omega), Int.toNat_natCast]
  -- the permutation steps agree
  have ht : ∀ p j a b, p < natom → j < natom → a < 3 → b < 3 →
      t.read (p * natom * 9 + j * 9 + a * 3 + b) =
        (set_index_permutation_symmetry_fc fc natom).read
          (p * natom * 9 + j * 9 + a * 3 + b) := by
    intro p j a b hp hj ha hb
    rw [hread p j a b hp hj ha hb, permutation_step_read fc natom p j a b hp hj ha hb,
      hq j hj, hs j hj]
    unfold compact_value
    rw [hp2s p hp]
    by_cases hd : p = j
    · subst hd
      rw [if_pos rfl]
    · rw [if_neg hd, hrow, hperms p hp, add_comm]
  rw [hout]
  congr 1
  apply Mem.ext_read
  intro x
  by_cases hx : x < natom * natom * 9
  · obtain ⟨p, j, a, b, hp, hj, ha, hb, rfl⟩ := fc_index_decompose natom natom x hx
    rw [hfinal p j a b hp hj ha hb, full_symmetrizer_read fc natom p j a b hp hj ha hb,
      hp2s p hp]
    by_cases hd : j = p
    · have hsum : ∀ a b, a < 3 → b < 3 →
          sums_entry t natom p p a b =
            offdiag_row_sum (set_index_permutation_symmetry_fc fc natom) natom p a b := by
        intro a b ha hb
        rw [sums_entry_eq]
        unfold offdiag_row_sum
        apply Finset.sum_congr rfl
        intro j2 hj2
        rw [Finset.mem_filter, Finset.mem_range] at hj2
        exact ht p j2 a b hp hj2.1 ha hb
      rw [if_pos hd, if_pos hd, hsum a b ha hb, hsum b a hb ha]
    · rw [if_neg hd, if_neg hd, ht p j a b hp hj ha hb,
        permutation_step_read fc natom p j a b hp hj ha hb]
  · rw [hrest x (by omega), full_symmetrizer_frame fc natom x (by omega)]

/-- Instance of C22: two atoms, the identity tables, and the field with
`FC[0][1][0][1] = 1` and `FC[1][0][1][0] = 3`. -/
theorem compact_agrees_with_full_witness :
    ((∀ i : ℕ, i < 2 → (fun x : ℕ => x) i = i)) ∧
    py_perm_trans_symmetrize_compact_fc field_two_entries (fun x => x) (fun x => x)
        (fun x => x) 2 2 1 =
      some (py_perm_trans_symmetrize_fc field_two_entries 2) :=
  ⟨fun _ _ => rfl,
    compact_agrees_with_full field_two_entries (fun x => x) (fun x => x) (fun x => x) 2
      (fun _ _ => rfl) (fun _ _ => rfl) (fun _ _ => rfl)⟩

theorem foldlM_none {σ α : Type} (f : σ → α → Option σ) (l : List α) (x : α) (hx : x ∈ l)
    (h : ∀ s, f s x = none) (s0 : σ) : l.foldlM f s0 = none := by
  induction l generalizing s0 with
  | nil => exact absurd hx (List.not_mem_nil x)
  | cons a l ih =>
    rw [List.foldlM_cons]
    rcases List.mem_cons.mp hx with rfl | hxl
    · rw [h s0]
      rfl
    · cases hfa : f s0 a with
      | none => rfl
      | some s1 => exact ih hxl s1

theorem load_neg {α : Type} (a : ℕ → α) (size : ℕ) (idx : ℤ) (h : idx < 0) :
    load a size idx = none := by
  unfold load
  rw [if_neg (by omega)]

/-- The lookup `s2pp[j]` stays `-1` when no row matches. -/
theorem s2pp_entry_none (p2s s2p : ℕ → ℕ) (n_patom j : ℕ)
    (h : ¬ ∃ q, q < n_patom ∧ p2s q = s2p j) : s2pp_entry p2s s2p n_patom j = -1 := by
  unfold s2pp_entry
  have hnone : (List.range n_patom).find? (fun q => decide (p2s q = s2p j)) = none := by
    rw [List.find?_eq_none]
    intro q hq hp
    exact h ⟨q, List.mem_range.mp hq, by simpa using hp⟩
  rw [hnone]

/-- The lookup `nsym_list[j]` stays `-1` when no operation matches. -/
theorem nsym_list_entry_none (perms s2p : ℕ → ℕ) (n_satom nsym j : ℕ)
    (h : ¬ ∃ s, s < nsym ∧ perms (s * n_satom + j) = s2p j) :
    nsym_list_entry perms s2p n_satom nsym j = -1 := by
  unfold nsym_list_entry
  have hnone : (List.range nsym).find?
      (fun s => decide (perms (s * n_satom + j) = s2p j)) = none := by
    rw [List.find?_eq_none]
    intro s hs hp
    exact h ⟨s, List.mem_range.mp hs, by simpa using hp⟩
  rw [hnone]

theorem nsym_list_entry_cases (perms s2p : ℕ → ℕ) (n_satom nsym j : ℕ) :
    nsym_list_entry perms s2p n_satom nsym j = -1 ∨
      ∃ s, s < nsym ∧ nsym_list_entry perms s2p n_satom nsym j = (s : ℤ) := by
  by_cases h : ∃ s, s < nsym ∧ perms (s * n_satom + j) = s2p j
  · obtain ⟨h1, h2, _⟩ := nsym_list_entry_found perms s2p n_satom nsym j h
    exact Or.inr ⟨_, h2, h1⟩
  · exact Or.inl (nsym_list_entry_none perms s2p n_satom nsym j h)

/-- An iteration for a column whose lookup failed, in a row off the diagonal,
reads outside an array. -/
theorem compact_entry_none (fc : Mem ℚ) (perms s2p p2s : ℕ → ℕ)
    (n_patom n_satom nsym j i_p k l : ℕ) (fc_tmp : Mem ℚ)
    (hk : k < 3) (hl : l < 3) (hd : p2s i_p ≠ j) (hp2s : p2s i_p < n_satom)
    (hperms : ∀ s i, s < nsym → i < n_satom → perms (s * n_satom + i) < n_satom)
    (hfail : s2pp_entry p2s s2p n_patom j = -1 ∨
      nsym_list_entry perms s2p n_satom nsym j = -1) :
    compact_entry fc perms p2s (s2pp_entry p2s s2p n_patom)
      (nsym_list_entry perms s2p n_satom nsym) n_patom n_satom nsym j i_p k l fc_tmp =
        none := by
  unfold compact_entry
  rw [if_neg hd]
  dsimp only
  rcases nsym_list_entry_cases perms s2p n_satom nsym j with hn | ⟨s, hs, hn⟩
  · rw [hn, load_neg perms _ _ (by omega)]
    rfl
  · have hq : s2pp_entry p2s s2p n_patom j = -1 := by
      rcases hfail with h | h
      · exact h
      · rw [hn] at h
        omega
    have ex : ((s : ℤ) * n_satom + p2s i_p) = ((s * n_satom + p2s i_p : ℕ) : ℤ) := by
      push_cast
      ring
    rw [hn, ex, load_of_eq perms _ _ _ rfl (row_index_lt nsym n_satom s _ hs hp2s), hq]
    simp only [Option.bind_eq_bind, Option.some_bind]
    have hp := hperms s (p2s i_p) hs hp2s
    rw [load_neg fc.read _ _ (by omega)]
    rfl

/-- C26 (as amended). Index safety of the compact symmetriser, for tables whose
`p2s` and permutation entries lie in `[0, n_satom)`. A lookup entry `s2pp[j]`
or `nsym_list[j]` is `-1` exactly when no row, respectively no operation,
matches; so if every `s2p[j]` equals `p2s[q]` for some row `q` and for every
atom `j` some operation sends `j` to `s2p[j]`, no lookup entry remains `-1`.
The lookups of a column `j` are used as indices exactly for the rows `i_p` with
`p2s[i_p] ≠ j`: `py_perm_trans_symmetrize_compact_fc` runs without an access
outside its arrays if and only if both lookups differ from `-1` for every
column that has such a row, and then every index used to read `perms`, to read
`fc` or to write `fc_tmp` lies inside the array; otherwise a `-1` enters an
index and the call accesses an array outside its bounds, with no validation
that reports it. -/
theorem compact_index_safety (fc : Mem ℚ) (perms s2p p2s : ℕ → ℕ)
    (n_patom n_satom nsym : ℕ)
    (hp2s : ∀ p, p < n_patom → p2s p < n_satom)
    (hperms : ∀ s i, s < nsym → i < n_satom → perms (s * n_satom + i) < n_satom) :
    (∀ j, j < n_satom →
      (s2pp_entry p2s s2p n_patom j = -1 ↔ ¬ ∃ q, q < n_patom ∧ p2s q = s2p j) ∧
      (nsym_list_entry perms s2p n_satom nsym j = -1 ↔
        ¬ ∃ s, s < nsym ∧ perms (s * n_satom + j) = s2p j)) ∧
    ((∃ out, py_perm_trans_symmetrize_compact_fc fc perms s2p p2s n_patom n_satom nsym =
        some out) ↔
      ∀ j i_p, j < n_satom → i_p < n_patom → p2s i_p ≠ j →
        s2pp_entry p2s s2p n_patom j ≠ -1 ∧
          nsym_list_entry perms s2p n_satom nsym j ≠ -1) ∧
    (py_perm_trans_symmetrize_compact_fc fc perms s2p p2s n_patom n_satom nsym = none ↔
      ∃ j i_p, j < n_satom ∧ i_p < n_patom ∧ p2s i_p ≠ j ∧
        (s2pp_entry p2s s2p n_patom j = -1 ∨
          nsym_list_entry perms s2p n_satom nsym j = -1)) ∧
    ((∃ out, py_perm_trans_symmetrize_compact_fc fc perms s2p p2s n_patom n_satom nsym =
        some out) →
      ∀ j i_p k l : ℕ, j < n_satom → i_p < n_patom → k < 3 → l < 3 →
        i_p * n_satom * 9 + j * 9 + k * 3 + l < n_patom * n_satom * 9 ∧
        i_p * n_satom * 9 + p2s i_p * 9 + k * 3 + l < n_patom * n_satom * 9 ∧
        (p2s i_p ≠ j →
          (0 ≤ nsym_list_entry perms s2p n_satom nsym j * n_satom + p2s i_p ∧
            nsym_list_entry perms s2p n_satom nsym j * n_satom + p2s i_p <
              ((nsym * n_satom : ℕ) : ℤ)) ∧
          (0 ≤ s2pp_entry p2s s2p n_patom j * n_satom * 9 +
              perms (nsym_list_entry perms s2p n_satom nsym j * n_satom + p2s i_p).toNat *
                9 + l * 3 + k ∧
            s2pp_entry p2s s2p n_patom j * n_satom * 9 +
              perms (nsym_list_entry perms s2p n_satom nsym j * n_satom + p2s i_p).toNat *
                9 + l * 3 + k < ((n_patom * n_satom * 9 : ℕ) : ℤ)))) := by
  -- the lookups
  have hA : ∀ j,
      (s2pp_entry p2s s2p n_patom j = -1 ↔ ¬ ∃ q, q < n_patom ∧ p2s q = s2p j) ∧
      (nsym_list_entry perms s2p n_satom nsym j = -1 ↔
        ¬ ∃ s, s < nsym ∧ perms (s * n_satom + j) = s2p j) := by
    intro j
    constructor
    · constructor
      · intro h hex
        obtain ⟨h1, _, _⟩ := s2pp_entry_found p2s s2p n_patom j hex
        rw [h1] at h
        omega
      · exact s2pp_entry_none p2s s2p n_patom j
    · constructor
      · intro h hex
        obtain ⟨h1, _, _⟩ := nsym_list_entry_found perms s2p n_satom nsym j hex
        rw [h1] at h
        omega
      · exact nsym_list_entry_none perms s2p n_satom nsym j
  -- a failed lookup that is used stops the run
  have hC : ∀ j i_p, j < n_satom → i_p < n_patom → p2s i_p ≠ j →
      s2pp_entry p2s s2p n_patom j = -1 ∨
        nsym_list_entry perms s2p n_satom nsym j = -1 →
      py_perm_trans_symmetrize_compact_fc fc perms s2p p2s n_patom n_satom nsym = none := by
    intro j i_p hj hi hd hfail
    have hstep : compact_permutation_step fc perms s2p p2s n_patom n_satom nsym = none := by
      unfold compact_permutation_step
      exact foldlM_none _ _ j (List.mem_range.mpr hj) (fun s1 =>
        foldlM_none _ _ i_p (List.mem_range.mpr hi) (fun s2 =>
          foldlM_none _ _ 0 (List.mem_range.mpr (by decide)) (fun s3 =>
            foldlM_none _ _ 0 (List.mem_range.mpr (by decide)) (fun s4 =>
              compact_entry_none fc perms s2p p2s n_patom n_satom nsym j i_p 0 0 s4
                (by decide) (by decide) hd (hp2s i_p hi) hperms hfail) s3) s2) s1) _
    unfold py_perm_trans_symmetrize_compact_fc
    rw [hstep]
    rfl
  -- the run goes through when every lookup that is used succeeded
  have hB : (∀ j i_p, j < n_satom → i_p < n_patom → p2s i_p ≠ j →
      s2pp_entry p2s s2p n_patom j ≠ -1 ∧
        nsym_list_entry perms s2p n_satom nsym j ≠ -1) →
      ∃ out, py_perm_trans_symmetrize_compact_fc fc perms s2p p2s n_patom n_satom nsym =
        some out := by
    intro hall
    obtain ⟨_, out, _, hout, _, _, _⟩ := compact_symmetrizer_read fc perms s2p p2s n_patom
      n_satom nsym hp2s hperms
      (fun j i_p hj hi hd => by
        by_contra hno
        exact (hall j i_p hj hi hd).1 ((hA j).1.mpr hno))
      (fun j i_p hj hi hd => by
        by_contra hno
        exact (hall j i_p hj hi hd).2 ((hA j).2.mpr hno))
    exact ⟨out, hout⟩
  have hB2 : (∃ out, py_perm_trans_symmetrize_compact_fc fc perms s2p p2s n_patom n_satom
      nsym = some out) →
      ∀ j i_p, j < n_satom → i_p < n_patom → p2s i_p ≠ j →
        s2pp_entry p2s s2p n_patom j ≠ -1 ∧
          nsym_list_entry perms s2p n_satom nsym j ≠ -1 := by
    rintro ⟨out, hout⟩ j i_p hj hi hd
    constructor
    · intro h
      rw [hC j i_p hj hi hd (Or.inl h)] at hout
      exact Option.noConfusion hout
    · intro h
      rw [hC j i_p hj hi hd (Or.inr h)] at hout
      exact Option.noConfusion hout
  refine ⟨fun j _ => hA j, ⟨hB2, hB⟩, ⟨?_, ?_⟩, ?_⟩
  · intro hnone
    by_contra hno
    obtain ⟨out, hout⟩ := hB (fun j i_p hj hi hd => by
      constructor
      · intro h
        exact hno ⟨j, i_p, hj, hi, hd, Or.inl h⟩
      · intro h
        exact hno ⟨j, i_p, hj, hi, hd, Or.inr h⟩)
    rw [hnone] at hout
    exact Option.noConfusion hout
  · rintro ⟨j, i_p, hj, hi, hd, hfail⟩
    exact hC j i_p hj hi hd hfail
  · intro hsome j i_p k l hj hi hk hl
    refine ⟨fc_index_lt n_patom n_satom i_p j k l hi hj hk hl,
      fc_index_lt n_patom n_satom i_p (p2s i_p) k l hi (hp2s i_p hi) hk hl, ?_⟩
    intro hd
    obtain ⟨hne1, hne2⟩ := hB2 hsome j i_p hj hi hd
    have hex1 : ∃ q, q < n_patom ∧ p2s q = s2p j := by
      by_contra hno
      exact hne1 ((hA j).1.mpr hno)
    have hex2 : ∃ s, s < nsym ∧ perms (s * n_satom + j) = s2p j := by
      by_contra hno
      exact hne2 ((hA j).2.mpr hno)
    obtain ⟨hq1, hq2, _⟩ := s2pp_entry_found p2s s2p n_patom j hex1
    obtain ⟨hs1, hs2, _⟩ := nsym_list_entry_found perms s2p n_satom nsym j hex2
    have ex : ((nsym_index perms s2p n_satom nsym j : ℕ) : ℤ) * n_satom + p2s i_p =
        ((nsym_index perms s2p n_satom nsym j * n_satom + p2s i_p : ℕ) : ℤ) := by
      push_cast
      ring
    rw [hq1, hs1, ex, Int.toNat_natCast]
    have er : ((s2pp_index p2s s2p n_patom j : ℕ) : ℤ) * n_satom * 9 +
        perms (nsym_index perms s2p n_satom nsym j * n_satom + p2s i_p) * 9 + l * 3 + k =
        ((s2pp_index p2s s2p n_patom j * n_satom * 9 +
          perms (nsym_index perms s2p n_satom nsym j * n_satom + p2s i_p) * 9 + l * 3 + k :
            ℕ) : ℤ) := by
      push_cast
      ring
    rw [er]
    have b1 := row_index_lt nsym n_satom (nsym_index perms s2p n_satom nsym j) (p2s i_p) hs2
      (hp2s i_p hi)
    have b2 := fc_index_lt n_patom n_satom (s2pp_index p2s s2p n_patom j)
      (perms (nsym_index perms s2p n_satom nsym j * n_satom + p2s i_p)) l k hq2
      (hperms _ _ hs2 (hp2s i_p hi)) hl hk
    exact ⟨⟨Int.natCast_nonneg _, Int.ofNat_lt.mpr b1⟩,
      ⟨Int.natCast_nonneg _, Int.ofNat_lt.mpr b2⟩⟩

/-- Instance of the amended C26: one representative atom and two atoms with the
identity and the swap as operations, but `s2p = [5, 5]`, which no row of `p2s`
holds: `s2pp[1]` stays `-1`, row `0` is off the diagonal of column `1`, and the
call reads outside `fc`. -/
theorem compact_index_safety_witness :
    ((∀ p, p < 1 → pair_p2s p < 2) ∧
      (∀ s i, s < 2 → i < 2 → pair_perms (s * 2 + i) < 2) ∧
      pair_p2s 0 ≠ 1 ∧ s2pp_entry pair_p2s (fun _ => 5) 1 1 = -1) ∧
    py_perm_trans_symmetrize_compact_fc field_balanced pair_perms (fun _ => 5) pair_p2s
      1 2 2 = none :=
  ⟨⟨pair_p2s_lt, pair_perms_lt, by decide, by decide⟩,
    (compact_index_safety field_balanced pair_perms (fun _ => 5) pair_p2s 1 2 2 pair_p2s_lt
      pair_perms_lt).2.2.1.mpr
      ⟨1, 0, by decide, by decide, by decide, Or.inl (by decide)⟩⟩

/-- Counterexample to C26 as stated: one representative atom and two atoms with
`p2s = [0]` and `s2p = [5, 0]`. No row `q` has `p2s[q] = s2p[0]` and no operation
sends atom `0` to `s2p[0]`, so both lookups of column `0` stay `-1`; but the only
row has `p2s[0] = 0`, column `0` is handled by the diagonal branch, the `-1`
entries are never used as an index, and the call runs through. -/
theorem compact_index_safety_counterexample :
    (¬ ∃ q, q < 1 ∧ pair_p2s q = stray_s2p 0) ∧
    (¬ ∃ s, s < 2 ∧ pair_perms (s * 2 + 0) = stray_s2p 0) ∧
    s2pp_entry pair_p2s stray_s2p 1 0 = -1 ∧
    nsym_list_entry pair_perms stray_s2p 2 2 0 = -1 ∧
    ∃ out, py_perm_trans_symmetrize_compact_fc field_balanced pair_perms stray_s2p pair_p2s
      1 2 2 = some out := by
  refine ⟨by decide, by decide, by decide, by decide, ?_⟩
  have hoff : ∀ j i_p, j < 2 → i_p < 1 → pair_p2s i_p ≠ j → j = 1 := by
    intro j i_p hj _ hd
    unfold pair_p2s at hd
    omega
  obtain ⟨_, out, _, hout, _, _, _⟩ := compact_symmetrizer_read field_balanced pair_perms
    stray_s2p pair_p2s 1 2 2 pair_p2s_lt pair_perms_lt
    (fun j i_p hj hi hd => by
      rw [hoff j i_p hj hi hd]
      exact ⟨0, by decide, by decide⟩)
    (fun j i_p hj hi hd => by
      rw [hoff j i_p hj hi hd]
      exact ⟨1, by decide, by decide⟩)
  exact ⟨out, hout⟩
end Phonopy
